import Mathlib

/-!
# Receipt processor: scoring rules and field-format validators

A shallow embedding of `rules/rules.go`, `models/receipt.go` and the validation of
`main.go`.

Conventions of the embedding.

* A Go `string` field of a receipt is a Lean `String`: the receipt is decoded from JSON, so
  every field is valid UTF-8.  Byte-level operations (`len`) are computed from the UTF-8
  encoding of the characters.
* Go `int` is the 64-bit two's complement integer; it is an `Int` here and every addition
  that can leave the range is wrapped by `wrapInt64`.
* Go `float64` is the type `F64` below: finite values are exact dyadic numbers
  `m * 2 ^ e`, and every operation that rounds does so by `roundNearestEven`
  (IEEE-754 round to nearest, ties to even, 53 bits of precision).
* The conversion `int(x)` of a `float64` that is out of the range of `int` is
  implementation-dependent in Go; the functions that convert take the result of that case
  as the parameter `conv` (`convAmd64` is the one of amd64).
* The Go standard library functions used by the source (`regexp`, `strings.TrimSpace`,
  `time.Parse`, `strconv.ParseFloat`, `math.Mod`, `math.Ceil`) are modelled from their
  documented behaviour; each model says what it follows.

The definitions come first; the theorems follow, the helper lemmas by subject and then one
theorem for each claim `C1`..`C20` of the specification, with its witness or
counterexample.
-/

namespace ReceiptProcessor

/-! ## Characters and Go strings -/

/-- Number of bytes in the UTF-8 encoding of a character. -/
def utf8Len (c : Char) : Nat :=
  if c.toNat < 128 then 1
  else if c.toNat < 2048 then 2
  else if c.toNat < 65536 then 3
  else 4

/-- Go `len(s)` of a string: its length in bytes. -/
def goLen (s : List Char) : Nat := (s.map utf8Len).sum

/-- An ASCII decimal digit, `'0' <= c && c <= '9'`. -/
def isDigitChar (c : Char) : Bool := 48 ≤ c.toNat && c.toNat ≤ 57

/-- Value of an ASCII decimal digit, `c - '0'`. -/
def digitVal (c : Char) : Nat := c.toNat - 48

/-- Go `unicode.IsSpace`: the Latin-1 spaces `\t \n \v \f \r`, space, U+0085, U+00A0, and
the remaining code points with the Unicode White_Space property. -/
def unicodeIsSpace (c : Char) : Bool :=
  (9 ≤ c.toNat && c.toNat ≤ 13) || c.toNat == 32 || c.toNat == 133 || c.toNat == 160
    || c.toNat == 5760 || (8192 ≤ c.toNat && c.toNat ≤ 8202) || c.toNat == 8232
    || c.toNat == 8233 || c.toNat == 8239 || c.toNat == 8287 || c.toNat == 12288

/-- Go `strings.TrimSpace`: the string without its leading and trailing white space, as
defined by Unicode. -/
def TrimSpace (s : List Char) : List Char :=
  ((s.dropWhile unicodeIsSpace).reverse.dropWhile unicodeIsSpace).reverse

/-! ## Regular expressions (Go `regexp`, RE2 syntax) -/

/-- A character class: a list of inclusive code point ranges. -/
abbrev CharClass := List (Nat × Nat)

/-- Membership of a character in a class. -/
def CharClass.mem (cls : CharClass) (c : Char) : Bool :=
  cls.any fun r => r.1 ≤ c.toNat && c.toNat ≤ r.2

/-- The class `\d` of RE2: `[0-9]`. -/
def classDigit : CharClass := [(48, 57)]

/-- The class `\w` of RE2: `[0-9A-Za-z_]`. -/
def classWord : CharClass := [(48, 57), (65, 90), (95, 95), (97, 122)]

/-- The class `\s` of RE2: `[\t\n\f\r ]`. -/
def classSpace : CharClass := [(9, 10), (12, 13), (32, 32)]

/-- The class `[a-zA-Z0-9]` of `RetailerNameRule`. -/
def classAlnum : CharClass := [(97, 122), (65, 90), (48, 57)]

/-- The class `[\w\s\-&]` of the retailer pattern. -/
def classRetailer : CharClass := classWord ++ classSpace ++ [(45, 45), (38, 38)]

/-- The class `[\w\s\-]` of the description pattern. -/
def classDescription : CharClass := classWord ++ classSpace ++ [(45, 45)]

/-- Regular expressions over characters. -/
inductive Regex where
  | nothing : Regex
  | empty : Regex
  | cls : CharClass → Regex
  | cat : Regex → Regex → Regex
  | alt : Regex → Regex → Regex
  | star : Regex → Regex

/-- The regular expression `r+`. -/
def Regex.plus (r : Regex) : Regex := Regex.cat r (Regex.star r)

/-- Whether a regular expression accepts the empty string. -/
def Regex.nullable : Regex → Bool
  | Regex.nothing => false
  | Regex.empty => true
  | Regex.cls _ => false
  | Regex.cat r s => r.nullable && s.nullable
  | Regex.alt r s => r.nullable || s.nullable
  | Regex.star _ => true

/-- Brzozowski derivative of a regular expression by a character. -/
def Regex.deriv : Regex → Char → Regex
  | Regex.nothing, _ => Regex.nothing
  | Regex.empty, _ => Regex.nothing
  | Regex.cls k, c => if k.mem c then Regex.empty else Regex.nothing
  | Regex.cat r s, c =>
      if r.nullable then Regex.alt (Regex.cat (r.deriv c) s) (s.deriv c)
      else Regex.cat (r.deriv c) s
  | Regex.alt r s, c => Regex.alt (r.deriv c) (s.deriv c)
  | Regex.star r, c => Regex.cat (r.deriv c) (Regex.star r)

/-- Go `regexp.MatchString` for a pattern `^body$`: without the `m` flag the anchors match
only at the beginning and at the end of the text, so the text matches iff the whole of it
is in the language of `body`. -/
def MatchString (body : Regex) (s : String) : Bool :=
  (s.data.foldl Regex.deriv body).nullable

/-- Go `Regexp.FindAllString(s, -1)` for a pattern that is one character class: every match
is one character, so the successive non-overlapping matches are the characters of `s` in
the class, in order. -/
def FindAllString (cls : CharClass) (s : String) : List String :=
  (s.data.filter cls.mem).map fun c => String.mk [c]

/-- The pattern body of `^\d+\.\d{2}$`. -/
def pricePattern : Regex :=
  Regex.cat (Regex.plus (Regex.cls classDigit))
    (Regex.cat (Regex.cls [(46, 46)])
      (Regex.cat (Regex.cls classDigit) (Regex.cls classDigit)))

/-- The pattern body of `^[\w\s\-&]+$`. -/
def retailerPattern : Regex := Regex.plus (Regex.cls classRetailer)

/-- The pattern body of `^[\w\s\-]+$`. -/
def descriptionPattern : Regex := Regex.plus (Regex.cls classDescription)

/-- The language of a regular expression. -/
inductive Regex.Matches : Regex → List Char → Prop
  | empty : Regex.Matches Regex.empty []
  | cls {k : CharClass} {c : Char} : k.mem c = true → Regex.Matches (Regex.cls k) [c]
  | cat {r s : Regex} {x y : List Char} :
      Regex.Matches r x → Regex.Matches s y → Regex.Matches (Regex.cat r s) (x ++ y)
  | altLeft {r s : Regex} {x : List Char} : Regex.Matches r x → Regex.Matches (Regex.alt r s) x
  | altRight {r s : Regex} {x : List Char} : Regex.Matches s x → Regex.Matches (Regex.alt r s) x
  | starNil {r : Regex} : Regex.Matches (Regex.star r) []
  | starCons {r : Regex} {x y : List Char} :
      Regex.Matches r x → Regex.Matches (Regex.star r) y → Regex.Matches (Regex.star r) (x ++ y)

/-! ## Go `time.Parse` for the two layouts of the source -/

/-- Go `getnum` of package `time`: a one- or two-digit number at the head of `s`; with
`fixed` the number has exactly two digits. -/
def getnum : List Char → Bool → Option (Nat × List Char)
  | [], _ => none
  | [c], fixed =>
      if isDigitChar c then (if fixed then none else some (digitVal c, [])) else none
  | c :: d :: rest, fixed =>
      if isDigitChar c then
        if isDigitChar d then some (digitVal c * 10 + digitVal d, rest)
        else if fixed then none else some (digitVal c, d :: rest)
      else none

/-- Go `skip` of package `time` for a one-character literal of the layout. -/
def skipChar (lit : Char) : List Char → Option (List Char)
  | [] => none
  | c :: rest => if c = lit then some rest else none

/-- Go `isLeap`. -/
def isLeap (year : Nat) : Bool := year % 4 == 0 && (year % 100 != 0 || year % 400 == 0)

/-- Go `daysIn`: the number of days of a month (1 to 12) of a year. -/
def daysIn (month year : Nat) : Nat :=
  if month = 2 then (if isLeap year then 29 else 28)
  else if month = 4 ∨ month = 6 ∨ month = 9 ∨ month = 11 then 30
  else 31

/-- Go `time.Parse("2006-01-02", value)`: the year is exactly four digits (`stdLongYear`),
month and day are exactly two digits (`stdZeroMonth`, `stdZeroDay`), the month is checked
to lie in 1..12 and the day in 1..daysIn, and no text may follow.  The result is
`(year, month, day)`, or `none` when Go returns an error. -/
def parseDate (value : List Char) : Option (Nat × Nat × Nat) :=
  match value with
  | y1 :: y2 :: y3 :: y4 :: rest =>
    if isDigitChar y1 && isDigitChar y2 && isDigitChar y3 && isDigitChar y4 then
      let year := ((digitVal y1 * 10 + digitVal y2) * 10 + digitVal y3) * 10 + digitVal y4
      match skipChar '-' rest with
      | none => none
      | some rest1 =>
        match getnum rest1 true with
        | none => none
        | some (month, rest2) =>
          if month = 0 ∨ 12 < month then none
          else
            match skipChar '-' rest2 with
            | none => none
            | some rest3 =>
              match getnum rest3 true with
              | none => none
              | some (day, rest4) =>
                if rest4 ≠ [] then none
                else if day < 1 ∨ daysIn month year < day then none
                else some (year, month, day)
    else none
  | _ => none

/-- Go `time.Parse("15:04", value)`: the hour (`stdHour`) is read by `getnum` without
`fixed`, so it has one or two digits, and must be below 24; the minute (`stdZeroMinute`)
has exactly two digits and must be below 60; no text may follow.  The result is
`(hour, minute)`, or `none` when Go returns an error. -/
def parseClock (value : List Char) : Option (Nat × Nat) :=
  match getnum value false with
  | none => none
  | some (hour, rest1) =>
    if 24 ≤ hour then none
    else
      match skipChar ':' rest1 with
      | none => none
      | some rest2 =>
        match getnum rest2 true with
        | none => none
        | some (min, rest3) =>
          if 60 ≤ min then none
          else if rest3 ≠ [] then none
          else some (hour, min)

/-! ## 64-bit integers -/

/-- Reduction of an integer to the range of Go `int` (64 bits, two's complement). -/
def wrapInt64 (z : Int) : Int := (z + 2 ^ 63) % 2 ^ 64 - 2 ^ 63

/-! ## `float64` -/

/-- A `float64` value: a finite number `(-1)^neg * m * 2^e`, an infinity, or NaN. -/
inductive F64 where
  | fin (neg : Bool) (m : Nat) (e : Int)
  | inf (neg : Bool)
  | nan
deriving DecidableEq, Repr

/-- Number of binary digits of `n`, computed with fuel `fuel`. -/
def bitLenAux : Nat → Nat → Nat
  | 0, _ => 0
  | fuel + 1, n => if n = 0 then 0 else bitLenAux fuel (n / 2) + 1

/-- Number of binary digits of `n`: the least `k` with `n < 2 ^ k`. -/
def bitLen (n : Nat) : Nat := bitLenAux n n

/-- For positive `n` and `d`, the integer `k` with `2 ^ k ≤ n / d < 2 ^ (k + 1)`. -/
def floorLog2 (n d : Nat) : Int :=
  let k : Int := (bitLen n : Int) - (bitLen d : Int)
  if d * 2 ^ k.toNat ≤ n * 2 ^ (-k).toNat then k else k - 1

/-- The integer nearest to `n / d`, ties to the even one. -/
def divRoundHalfEven (n d : Nat) : Nat :=
  if 2 * (n % d) < d then n / d
  else if d < 2 * (n % d) then n / d + 1
  else if (n / d) % 2 = 0 then n / d
  else n / d + 1

/-- IEEE-754 binary64 rounding (to nearest, ties to even) of the rational `n / d` with sign
`neg`: the result is `m * 2 ^ e` with `e` the exponent of the last place of the binade of
`n / d` (at least `-1074`, the exponent of the subnormal numbers); a result of `2 ^ 1024`
or more is the infinity. -/
def roundNearestEven (neg : Bool) (n d : Nat) : F64 :=
  if n = 0 then F64.fin neg 0 0
  else
    let e : Int := max (floorLog2 n d - 52) (-1074)
    let m := divRoundHalfEven (n * 2 ^ (-e).toNat) (d * 2 ^ e.toNat)
    if 1024 < (bitLen m : Int) + e then F64.inf neg else F64.fin neg m e

/-- Float multiplication `x * y`. -/
def F64.mul : F64 → F64 → F64
  | F64.nan, _ => F64.nan
  | _, F64.nan => F64.nan
  | F64.inf s, F64.inf t => F64.inf (xor s t)
  | F64.inf s, F64.fin t m _ => if m = 0 then F64.nan else F64.inf (xor s t)
  | F64.fin s m _, F64.inf t => if m = 0 then F64.nan else F64.inf (xor s t)
  | F64.fin s m e, F64.fin t k f =>
      roundNearestEven (xor s t) (m * k * 2 ^ (e + f).toNat) (2 ^ (-(e + f)).toNat)

/-- Float comparison `x == y`. -/
def F64.eq : F64 → F64 → Bool
  | F64.nan, _ => false
  | _, F64.nan => false
  | F64.inf s, F64.inf t => s == t
  | F64.inf _, F64.fin _ _ _ => false
  | F64.fin _ _ _, F64.inf _ => false
  | F64.fin s m e, F64.fin t k f =>
      (m == 0 && k == 0) ||
        (s == t && m * 2 ^ (e - min e f).toNat == k * 2 ^ (f - min e f).toNat)

/-- Go `math.Mod(x, y)`: the floating-point remainder of `x / y`, exact, with the sign of
`x`; `Mod(±Inf, y)`, `Mod(NaN, y)`, `Mod(x, 0)` and `Mod(x, NaN)` are NaN and
`Mod(x, ±Inf)` is `x`. -/
def F64.Mod : F64 → F64 → F64
  | F64.nan, _ => F64.nan
  | _, F64.nan => F64.nan
  | F64.inf _, _ => F64.nan
  | F64.fin s m e, F64.inf _ => F64.fin s m e
  | F64.fin s m e, F64.fin _ k f =>
      if k = 0 then F64.nan
      else F64.fin s ((m * 2 ^ (e - min e f).toNat) % (k * 2 ^ (f - min e f).toNat)) (min e f)

/-- Go `math.Ceil(x)`: the least integer value greater than or equal to `x`;
`Ceil(±0) = ±0`, `Ceil(±Inf) = ±Inf`, `Ceil(NaN) = NaN`. -/
def F64.Ceil : F64 → F64
  | F64.nan => F64.nan
  | F64.inf s => F64.inf s
  | F64.fin false m e =>
      F64.fin false ((m * 2 ^ e.toNat + (2 ^ (-e).toNat - 1)) / 2 ^ (-e).toNat) 0
  | F64.fin true m e => F64.fin true (m * 2 ^ e.toNat / 2 ^ (-e).toNat) 0

/-- Go conversion `int(x)` of a `float64`: the fraction is discarded (truncation towards
zero); when the truncated value is not in the range of `int`, or `x` is an infinity or NaN,
the result is implementation-dependent and is the `int` given by `conv`. -/
def F64.toInt (conv : F64 → Int) : F64 → Int
  | F64.fin neg m e =>
      let t : Int := ((m * 2 ^ e.toNat / 2 ^ (-e).toNat : Nat) : Int)
      let v : Int := if neg then -t else t
      if -(2 ^ 63) ≤ v ∧ v < 2 ^ 63 then v else wrapInt64 (conv (F64.fin neg m e))
  | x => wrapInt64 (conv x)

/-- Whether the conversion `int(x)` of a `float64` is defined by the language: `x` is
finite and its truncation towards zero lies in the range of `int`. -/
def F64.fitsInt : F64 → Bool
  | F64.fin neg m e =>
      let t : Int := ((m * 2 ^ e.toNat / 2 ^ (-e).toNat : Nat) : Int)
      let v : Int := if neg then -t else t
      decide (-(2 ^ 63) ≤ v ∧ v < 2 ^ 63)
  | _ => false

/-- The constant `1.00` as a `float64`. -/
def F64.one : F64 := F64.fin false 1 0

/-- The constant `0` as a `float64`. -/
def F64.zero : F64 := F64.fin false 0 0

/-- The constant `0.25` as a `float64`. -/
def F64.quarter : F64 := F64.fin false 1 (-2)

/-- The constant `0.2` as a `float64`: the double nearest to `1 / 5`. -/
def F64.fifth : F64 := roundNearestEven false 1 5

/-! ## Go `strconv.ParseFloat(s, 64)` -/

/-- Go `lower` of package `strconv`, `c | ('x' - 'X')`, on the characters it is compared
against: an ASCII upper-case letter becomes the lower-case one. -/
def lowerChar (c : Char) : Char :=
  if 65 ≤ c.toNat ∧ c.toNat ≤ 90 then Char.ofNat (c.toNat + 32) else c

/-- A hexadecimal letter digit, `'a' <= lower(c) && lower(c) <= 'f'`. -/
def isHexLetter (c : Char) : Bool :=
  (97 ≤ c.toNat && c.toNat ≤ 102) || (65 ≤ c.toNat && c.toNat ≤ 70)

/-- Value of a hexadecimal letter digit, `lower(c) - 'a' + 10`. -/
def hexLetterVal (c : Char) : Nat := (lowerChar c).toNat - 97 + 10

/-- Go `special`, together with the requirement of `ParseFloat` that the whole string is
consumed: an optional sign followed by `inf` or `infinity`, or `nan` without a sign, in
any case of the letters. -/
def specialFloat (s : List Char) : Option F64 :=
  match s with
  | [] => none
  | c :: rest =>
    if c = '+' ∨ c = '-' then
      if rest.map lowerChar = "inf".data ∨ rest.map lowerChar = "infinity".data then
        some (F64.inf (c == '-'))
      else none
    else if c = 'i' ∨ c = 'I' then
      if s.map lowerChar = "inf".data ∨ s.map lowerChar = "infinity".data then
        some (F64.inf false)
      else none
    else if c = 'n' ∨ c = 'N' then
      if s.map lowerChar = "nan".data then some F64.nan else none
    else none

/-- State of the mantissa loop of Go `readFloat`: the digits read after the leading zeros
(`mant`, all of them: the result of `ParseFloat` is the correctly rounded value of the
whole digit string), their number `nd`, the position `dp` of the point, and the flags. -/
structure MantState where
  mant : Nat
  nd : Nat
  dp : Int
  sawdot : Bool
  sawdigits : Bool
  underscores : Bool
deriving DecidableEq, Repr

/-- The mantissa loop of Go `readFloat` in base `base` (10 or 16); returns the final state
and the unread rest of the string. -/
def scanMant (base : Nat) : List Char → MantState → MantState × List Char
  | [], st => (st, [])
  | c :: cs, st =>
    if c = '_' then scanMant base cs { st with underscores := true }
    else if c = '.' then
      if st.sawdot then (st, c :: cs)
      else scanMant base cs { st with sawdot := true, dp := st.nd }
    else if isDigitChar c then
      if c = '0' ∧ st.nd = 0 then
        scanMant base cs { st with sawdigits := true, dp := st.dp - 1 }
      else
        scanMant base cs
          { st with sawdigits := true, nd := st.nd + 1, mant := st.mant * base + digitVal c }
    else if base = 16 ∧ isHexLetter c = true then
      scanMant base cs
        { st with sawdigits := true, nd := st.nd + 1, mant := st.mant * 16 + hexLetterVal c }
    else (st, c :: cs)

/-- The exponent digit loop of Go `readFloat`: digits and underscores are consumed, and the
exponent stops growing once it has reached 10000.  Returns the exponent, whether an
underscore was seen, and the unread rest. -/
def scanExp : List Char → Nat → Bool → Nat × Bool × List Char
  | [], e, u => (e, u, [])
  | c :: cs, e, u =>
    if c = '_' then scanExp cs e true
    else if isDigitChar c then scanExp cs (if e < 10000 then e * 10 + digitVal c else e) u
    else (e, u, c :: cs)

/-- Go `underscoreOK` after the optional sign and base prefix: `saw` is the kind of the
last character (0 beginning, 1 digit or base prefix, 2 underscore, 3 anything else). -/
def underscoreLoop (hex : Bool) : List Char → Nat → Bool
  | [], saw => saw != 2
  | c :: cs, saw =>
    if isDigitChar c || (hex && isHexLetter c) then underscoreLoop hex cs 1
    else if c = '_' then (if saw != 1 then false else underscoreLoop hex cs 2)
    else if saw == 2 then false
    else underscoreLoop hex cs 3

/-- Go `underscoreOK`: underscores appear only between digits or between a base prefix and
a digit. -/
def underscoreOK (s : List Char) : Bool :=
  let s1 := match s with
    | c :: t => if c = '-' ∨ c = '+' then t else s
    | [] => s
  match s1 with
  | z :: x :: t =>
    if z = '0' ∧ (lowerChar x = 'b' ∨ lowerChar x = 'o' ∨ lowerChar x = 'x') then
      underscoreLoop (lowerChar x == 'x') t 1
    else underscoreLoop false s1 0
  | _ => underscoreLoop false s1 0

/-- The optional sign of Go `readFloat`: whether the number is negative, and the rest. -/
def readSign (s : List Char) : Bool × List Char :=
  match s with
  | c :: t => if c = '+' then (false, t) else if c = '-' then (true, t) else (false, s)
  | [] => (false, s)

/-- The optional base prefix of Go `readFloat`, `i+2 < len(s) && s[i] == '0' &&
lower(s[i+1]) == 'x'`: whether the number is hexadecimal, and the rest. -/
def readBase (s : List Char) : Bool × List Char :=
  match s with
  | z :: x :: c :: t => if z = '0' ∧ lowerChar x = 'x' then (true, c :: t) else (false, s)
  | _ => (false, s)

/-- The mantissa state at the start of Go `readFloat`. -/
def MantState.init : MantState :=
  { mant := 0, nd := 0, dp := 0, sawdot := false, sawdigits := false, underscores := false }

/-- The optional sign of the exponent of Go `readFloat`: the sign and the rest. -/
def readExpSign (s : List Char) : Int × List Char :=
  match s with
  | p :: t => if p = '+' then (1, t) else if p = '-' then (-1, t) else (1, s)
  | [] => (1, s)

/-- Go `readFloat`, together with the requirement of `ParseFloat` that the whole string is
consumed: `some (neg, hex, mant, exp)` when the string is a well-formed decimal or
hexadecimal floating-point number, of value `mant * 10 ^ exp` (`mant * 2 ^ exp` when
`hex`), and `none` on a syntax error. -/
def readFloat (s : List Char) : Option (Bool × Bool × Nat × Int) :=
  let signed := readSign s
  let based := readBase signed.2
  let hex := based.1
  let scanned := scanMant (if hex then 16 else 10) based.2 MantState.init
  let st := scanned.1
  if st.sawdigits = false then none
  else
    let dp0 : Int := if st.sawdot then st.dp else st.nd
    let dp1 : Int := if hex then dp0 * 4 else dp0
    let nd1 : Int := if hex then (st.nd : Int) * 4 else st.nd
    let finish (dp : Int) (underscores : Bool) : Option (Bool × Bool × Nat × Int) :=
      if underscores && !underscoreOK s then none
      else some (signed.1, hex, st.mant, if st.mant ≠ 0 then dp - nd1 else 0)
    match scanned.2 with
    | [] => if hex then none else finish dp1 st.underscores
    | c :: rest =>
      if lowerChar c = (if hex then 'p' else 'e') then
        let esigned := readExpSign rest
        match esigned.2 with
        | [] => none
        | d :: _ =>
          if isDigitChar d = false then none
          else
            let ex := scanExp esigned.2 0 st.underscores
            match ex.2.2 with
            | [] => finish (dp1 + (ex.1 : Int) * esigned.1) ex.2.1
            | _ :: _ => none
      else none

/-- The result of `ParseFloat` for the rounded value of a well-formed number: the value and
whether the error is not nil; an infinity comes with `ErrRange`. -/
def parseResult (f : F64) : F64 × Bool :=
  match f with
  | F64.inf sg => (F64.inf sg, true)
  | g => (g, false)

/-- Go `strconv.ParseFloat(s, 64)`: the value and whether the error is not nil.  A
well-formed number gives the nearest `float64`, rounded to even; when that is an infinity
the error is `ErrRange` and the value the infinity; a syntax error gives the value 0. -/
def ParseFloat (s : String) : F64 × Bool :=
  match specialFloat s.data with
  | some f => (f, false)
  | none =>
    match readFloat s.data with
    | none => (F64.zero, true)
    | some (neg, hex, mant, exp) =>
      let b : Nat := if hex then 2 else 10
      parseResult (roundNearestEven neg (mant * b ^ exp.toNat) (b ^ (-exp).toNat))

/-! ## `models/receipt.go` -/

/-- The struct `Item`. -/
structure Item where
  ShortDescription : String
  Price : String
deriving DecidableEq, Repr

/-- The struct `Receipt`. -/
structure Receipt where
  Retailer : String
  PurchaseDate : String
  PurchaseTime : String
  Items : List Item
  Total : String
deriving DecidableEq, Repr

/-- `ValidateDateFormat`: `time.Parse("2006-01-02", s)` returns no error. -/
def ValidateDateFormat (s : String) : Bool := (parseDate s.data).isSome

/-- `ValidateTimeFormat`: `time.Parse("15:04", s)` returns no error. -/
def ValidateTimeFormat (s : String) : Bool := (parseClock s.data).isSome

/-- `ValidatePriceFormat`: the field matches `^\d+\.\d{2}$`. -/
def ValidatePriceFormat (s : String) : Bool := MatchString pricePattern s

/-- `ValidateRetailerFormat`: the field matches `^[\w\s\-&]+$`. -/
def ValidateRetailerFormat (s : String) : Bool := MatchString retailerPattern s

/-- `ValidateDescriptionFormat`: the field matches `^[\w\s\-]+$`. -/
def ValidateDescriptionFormat (s : String) : Bool := MatchString descriptionPattern s

/-! ## `rules/rules.go` -/

/-- Rule 1, `RetailerNameRule.Calculate`: the number of matches of `[a-zA-Z0-9]` in the
retailer name. -/
def RetailerNameRule.Calculate (receipt : Receipt) : Int :=
  ((FindAllString classAlnum receipt.Retailer).length : Int)

/-- Rule 2, `RoundDollarRule.Calculate`: 50 when the total parses without error and
`math.Mod(total, 1.00) == 0`. -/
def RoundDollarRule.Calculate (receipt : Receipt) : Int :=
  let parsed := ParseFloat receipt.Total
  if parsed.2 = false ∧ F64.eq (F64.Mod parsed.1 F64.one) F64.zero = true then 50 else 0

/-- Rule 3, `MultipleOfQuarterRule.Calculate`: 25 when the total parses without error and
`math.Mod(total, 0.25) == 0`. -/
def MultipleOfQuarterRule.Calculate (receipt : Receipt) : Int :=
  let parsed := ParseFloat receipt.Total
  if parsed.2 = false ∧ F64.eq (F64.Mod parsed.1 F64.quarter) F64.zero = true then 25 else 0

/-- Rule 4, `ItemPairRule.Calculate`: `(len(receipt.Items) / 2) * 5`.  The length of a
slice of 32-byte items is below `2 ^ 59`, so the product does not leave the range of
`int`. -/
def ItemPairRule.Calculate (receipt : Receipt) : Int :=
  ((receipt.Items.length / 2 : Nat) : Int) * 5

/-- Rule 5, `ItemDescriptionRule.Calculate`: for each item whose trimmed description has a
byte length divisible by 3, `int(math.Ceil(priceFloat * 0.2))` is added to the points; the
error of `ParseFloat` is discarded.  `conv` gives the implementation-dependent result of
the conversion to `int` of a value out of range. -/
def ItemDescriptionRule.Calculate (conv : F64 → Int) (receipt : Receipt) : Int :=
  receipt.Items.foldl
    (fun points item =>
      if goLen (TrimSpace item.ShortDescription.data) % 3 = 0 then
        wrapInt64 (points +
          F64.toInt conv (F64.Ceil (F64.mul (ParseFloat item.Price).1 F64.fifth)))
      else points)
    0

/-- Rule 6, `OddPurchaseDayRule.Calculate`: 6 when the date parses and `date.Day()` is
odd. -/
def OddPurchaseDayRule.Calculate (receipt : Receipt) : Int :=
  match parseDate receipt.PurchaseDate.data with
  | some (_, _, day) => if day % 2 ≠ 0 then 6 else 0
  | none => 0

/-- Rule 7, `TimeRangeRule.Calculate`: 10 when the time parses and
`purchaseTime.Hour() == 14`. -/
def TimeRangeRule.Calculate (receipt : Receipt) : Int :=
  match parseClock receipt.PurchaseTime.data with
  | some (hour, _) => if hour = 14 then 10 else 0
  | none => 0

/-- The implementations of the interface `Rule`. -/
inductive Rule where
  | RetailerNameRule
  | RoundDollarRule
  | MultipleOfQuarterRule
  | ItemPairRule
  | ItemDescriptionRule
  | OddPurchaseDayRule
  | TimeRangeRule
deriving DecidableEq, Repr

/-- The method `Calculate` of the interface `Rule`, dispatched on the implementation. -/
def Rule.Calculate (conv : F64 → Int) : Rule → Receipt → Int
  | Rule.RetailerNameRule, receipt => RetailerNameRule.Calculate receipt
  | Rule.RoundDollarRule, receipt => RoundDollarRule.Calculate receipt
  | Rule.MultipleOfQuarterRule, receipt => MultipleOfQuarterRule.Calculate receipt
  | Rule.ItemPairRule, receipt => ItemPairRule.Calculate receipt
  | Rule.ItemDescriptionRule, receipt => ItemDescriptionRule.Calculate conv receipt
  | Rule.OddPurchaseDayRule, receipt => OddPurchaseDayRule.Calculate receipt
  | Rule.TimeRangeRule, receipt => TimeRangeRule.Calculate receipt

/-- The struct `RulesEngine`. -/
structure RulesEngine where
  rules : List Rule

/-- `NewRulesEngine`: the engine with all defined rules, in the order of the source. -/
def NewRulesEngine : RulesEngine :=
  { rules := [Rule.RetailerNameRule, Rule.RoundDollarRule, Rule.MultipleOfQuarterRule,
      Rule.ItemPairRule, Rule.ItemDescriptionRule, Rule.OddPurchaseDayRule,
      Rule.TimeRangeRule] }

/-- `RulesEngine.CalculatePoints`: `totalPoints += rule.Calculate(receipt)` over the rules
of the engine, in Go `int` arithmetic. -/
def RulesEngine.CalculatePoints (conv : F64 → Int) (re : RulesEngine) (receipt : Receipt) :
    Int :=
  re.rules.foldl (fun totalPoints rule => wrapInt64 (totalPoints + rule.Calculate conv receipt)) 0

/-- The conversion of an out-of-range `float64` to `int` on amd64: the instruction
`CVTTSD2SQ` returns the integer indefinite value `-2 ^ 63`. -/
def convAmd64 (_ : F64) : Int := -(2 ^ 63)

/-! ## `main.go`: validation of a decoded receipt -/

/-- The checks of `c.ShouldBindJSON(&receipt)` on the decoded receipt: every field tagged
`binding:"required"` is not the zero value and `items` has at least one element
(`min=1`). -/
def ShouldBindJSON (receipt : Receipt) : Bool :=
  receipt.Retailer != "" && receipt.PurchaseDate != "" && receipt.PurchaseTime != ""
    && decide (1 ≤ receipt.Items.length) && receipt.Total != ""

/-- `models.Validate.Struct(receipt)`: the `validate` tags of the struct `Receipt`. -/
def ValidateStructReceipt (receipt : Receipt) : Bool :=
  ValidateRetailerFormat receipt.Retailer && ValidateDateFormat receipt.PurchaseDate
    && ValidateTimeFormat receipt.PurchaseTime && ValidatePriceFormat receipt.Total

/-- `models.Validate.Struct(item)`: the `validate` tags of the struct `Item`. -/
def ValidateStructItem (item : Item) : Bool :=
  ValidateDescriptionFormat item.ShortDescription && ValidatePriceFormat item.Price

/-- `processReceipt` on the decoded receipt, the store `receipts` and the fresh identifier
`id` of `uuid.New()`: the HTTP status of the response and the store afterwards. -/
def processReceipt (receipts : List (String × Receipt)) (id : String) (receipt : Receipt) :
    Nat × List (String × Receipt) :=
  if ShouldBindJSON receipt = false then (400, receipts)
  else if ValidateStructReceipt receipt = false then (400, receipts)
  else if receipt.Items.all ValidateStructItem = false then (400, receipts)
  else (200, (id, receipt) :: receipts.filter fun entry => entry.1 != id)

/-! ## Receipts and quantities named by the specification -/

/-- The receipt of end-to-end scenario A. -/
def scenarioA : Receipt :=
  { Retailer := "Target"
    PurchaseDate := "2022-01-01"
    PurchaseTime := "13:01"
    Items :=
      [{ ShortDescription := "Mountain Dew 12PK", Price := "6.49" },
       { ShortDescription := "Emils Cheese Pizza", Price := "12.25" },
       { ShortDescription := "Knorr Creamy Chicken", Price := "1.26" },
       { ShortDescription := "Doritos Nacho Cheese", Price := "3.35" },
       { ShortDescription := "   Klarbrunn 12-PK 12 FL OZ  ", Price := "12.00" }]
    Total := "35.35" }

/-- The receipt of end-to-end scenario B. -/
def scenarioB : Receipt :=
  { Retailer := "M&M Corner Market"
    PurchaseDate := "2022-03-20"
    PurchaseTime := "14:33"
    Items := [{ ShortDescription := "Gatorade", Price := "2.25" }]
    Total := "9.00" }

/-- The number written by a string of decimal digits. -/
def decimalValue (ds : List Char) : Nat := ds.foldl (fun acc c => acc * 10 + digitVal c) 0

/-- The number formed by the last two characters of a string (the day of the month of a
date `YYYY-MM-DD`). -/
def lastTwoDigits (s : List Char) : Nat :=
  match s.reverse with
  | d2 :: d1 :: _ => digitVal d1 * 10 + digitVal d2
  | _ => 0

/-- The hour component of a time: the number written before the colon. -/
def hourComponent (s : List Char) : Nat := decimalValue (s.takeWhile fun c => c != ':')

/-- The amount in cents written by a price string: the number written by its digits. -/
def priceCents (s : String) : Nat := decimalValue (s.data.filter isDigitChar)

/-- The exact decimal value of a price string, in dollars. -/
def exactPrice (s : String) : ℚ := (priceCents s : ℚ) / 100

/-- The two fractional digits of a price string: its last two characters. -/
def fractionDigits (s : String) : List Char := (s.data.reverse.take 2).reverse

/-- The character length of a description with leading and trailing white space removed. -/
def trimmedLength (s : String) : Nat := (TrimSpace s.data).length

/-- The exact points of one item: the ceiling of a fifth of its price, `ceil(cents / 500)`,
when the character length of the trimmed description is divisible by 3, and 0 otherwise. -/
def exactItemPoints (item : Item) : Nat :=
  if trimmedLength item.ShortDescription % 3 = 0 then (priceCents item.Price + 499) / 500
  else 0

/-- The mathematical sum of the contributions of the seven rules. -/
def sumOfRules (conv : F64 → Int) (receipt : Receipt) : Int :=
  RetailerNameRule.Calculate receipt + RoundDollarRule.Calculate receipt +
    MultipleOfQuarterRule.Calculate receipt + ItemPairRule.Calculate receipt +
    ItemDescriptionRule.Calculate conv receipt + OddPurchaseDayRule.Calculate receipt +
    TimeRangeRule.Calculate receipt

/-- A receipt with one item of description `abc`. -/
def oneItemReceipt (price : String) : Receipt :=
  { scenarioA with Items := [{ ShortDescription := "abc", Price := price }] }

/-- The receipt of scenario A with another total. -/
def withTotal (total : String) : Receipt := { scenarioA with Total := total }

/-- The receipt of scenario A with another purchase time. -/
def withTime (time : String) : Receipt := { scenarioA with PurchaseTime := time }

/-- The receipt of scenario A with another retailer. -/
def withRetailer (retailer : String) : Receipt := { scenarioA with Retailer := retailer }

/-- An ASCII letter or an ASCII digit. -/
def isAsciiAlnum (c : Char) : Bool := c.isAlpha || c.isDigit

/-- A leap year of the Gregorian calendar. -/
def isGregorianLeap (year : Nat) : Bool :=
  decide (year % 4 = 0 ∧ (year % 100 ≠ 0 ∨ year % 400 = 0))

/-- The number of days of a month of the Gregorian calendar; 0 for a number that is not a
month. -/
def calendarDays (month year : Nat) : Nat :=
  match month with
  | 1 => 31
  | 2 => if isGregorianLeap year then 29 else 28
  | 3 => 31
  | 4 => 30
  | 5 => 31
  | 6 => 30
  | 7 => 31
  | 8 => 31
  | 9 => 30
  | 10 => 31
  | 11 => 30
  | 12 => 31
  | _ => 0

/-- A word character: an ASCII letter, an ASCII digit or the underscore. -/
def isWordChar (c : Char) : Bool := c.isAlpha || c.isDigit || c == '_'

/-- A white space character of the class `\s`: tab, line feed, form feed, carriage return
or space. -/
def isRegexSpace (c : Char) : Bool :=
  c == Char.ofNat 9 || c == Char.ofNat 10 || c == Char.ofNat 12 || c == Char.ofNat 13 || c == ' '

/-- The length in bytes (Go `len`) of a description with leading and trailing white space
removed. -/
def trimmedByteLength (s : String) : Nat := goLen (TrimSpace s.data)

/-- The amount that one iteration of the loop of `ItemDescriptionRule.Calculate` adds to
`points`: `int(math.Ceil(priceFloat * 0.2))` when the trimmed description has a byte length
divisible by 3, and 0 otherwise. -/
def itemContribution (conv : F64 → Int) (item : Item) : Int :=
  if goLen (TrimSpace item.ShortDescription.data) % 3 = 0 then
    F64.toInt conv (F64.Ceil (F64.mul (ParseFloat item.Price).1 F64.fifth))
  else 0

/-- Whether the loop body of `ItemDescriptionRule.Calculate` stays within the conversions
that the language defines on this item: it converts nothing, or the value of
`math.Ceil(priceFloat * 0.2)` that it converts is in the range of `int`. -/
def conversionInRange (item : Item) : Bool :=
  decide (goLen (TrimSpace item.ShortDescription.data) % 3 ≠ 0) ||
    F64.fitsInt (F64.Ceil (F64.mul (ParseFloat item.Price).1 F64.fifth))

/-- The score of a receipt computed in the integers, without the reduction to 64 bits: the
contributions of the six other rules and the amounts added for the items. -/
def unwrappedScore (conv : F64 → Int) (receipt : Receipt) : Int :=
  RetailerNameRule.Calculate receipt + RoundDollarRule.Calculate receipt +
    MultipleOfQuarterRule.Calculate receipt + ItemPairRule.Calculate receipt +
    (receipt.Items.map (itemContribution conv)).sum +
    OddPurchaseDayRule.Calculate receipt + TimeRangeRule.Calculate receipt

/-- The receipt with one more item at the end of its items. -/
def appendItem (receipt : Receipt) (item : Item) : Receipt :=
  { receipt with Items := receipt.Items ++ [item] }

/-- An item of price `5 * 2 ^ 62` dollars, worth `2 ^ 62` points. -/
def bigItem : Item := { ShortDescription := "abc", Price := "23058430092136939520.00" }

/-- The receipt of scenario A with its items replaced by the given ones. -/
def withItems (items : List Item) : Receipt := { scenarioA with Items := items }

/-- The receipt of scenario A with two items `abc`, of prices `46116860184273873920.00`
(worth `2 ^ 63 - 1024` points) and `5100.00` (worth 1020 points). -/
def receiptNearLimit : Receipt :=
  withItems [{ ShortDescription := "abc", Price := "46116860184273873920.00" },
    { ShortDescription := "abc", Price := "5100.00" }]

/-- The receipt of scenario A with the single item `abc` of price
`50000000000000000000.00`, a fifth of which is above `2 ^ 63`. -/
def receiptOutOfRange : Receipt :=
  withItems [{ ShortDescription := "abc", Price := "50000000000000000000.00" }]

/-- Whether `strconv.ParseFloat` returns `ErrSyntax` on the string. -/
def isSyntaxError (s : String) : Bool :=
  (specialFloat s.data).isNone && (readFloat s.data).isNone

/-! ## Theorems -/

/-! ### Regular expressions -/

theorem char_of_toNat {c : Char} {n : Nat} (h : c.toNat = n) : c = Char.ofNat n := by
  rw [← h, Char.ofNat_toNat]

theorem matches_nothing (w : List Char) : ¬ Regex.Matches Regex.nothing w := by
  intro h; cases h

theorem matches_empty_iff (w : List Char) : Regex.Matches Regex.empty w ↔ w = [] := by
  constructor
  · intro h; cases h; rfl
  · rintro rfl; exact Regex.Matches.empty

theorem matches_cls_iff (k : CharClass) (w : List Char) :
    Regex.Matches (Regex.cls k) w ↔ ∃ c, w = [c] ∧ k.mem c = true := by
  constructor
  · intro h; cases h with | cls hc => exact ⟨_, rfl, hc⟩
  · rintro ⟨c, rfl, hc⟩; exact Regex.Matches.cls hc

theorem matches_cat_iff (r s : Regex) (w : List Char) :
    Regex.Matches (Regex.cat r s) w ↔
      ∃ x y, w = x ++ y ∧ Regex.Matches r x ∧ Regex.Matches s y := by
  constructor
  · intro h; cases h with | cat h1 h2 => exact ⟨_, _, rfl, h1, h2⟩
  · rintro ⟨x, y, rfl, h1, h2⟩; exact Regex.Matches.cat h1 h2

theorem matches_alt_iff (r s : Regex) (w : List Char) :
    Regex.Matches (Regex.alt r s) w ↔ Regex.Matches r w ∨ Regex.Matches s w := by
  constructor
  · intro h
    cases h with
    | altLeft h1 => exact Or.inl h1
    | altRight h1 => exact Or.inr h1
  · rintro (h | h)
    · exact Regex.Matches.altLeft h
    · exact Regex.Matches.altRight h

theorem matches_star_cons_inv {R : Regex} {w : List Char} (h : Regex.Matches R w) :
    ∀ (r : Regex) (c : Char) (v : List Char), R = Regex.star r → w = c :: v →
      ∃ x y, v = x ++ y ∧ Regex.Matches r (c :: x) ∧ Regex.Matches (Regex.star r) y := by
  induction h with
  | empty => intro r c v h1; cases h1
  | cls _ => intro r c v h1; cases h1
  | cat _ _ _ _ => intro r c v h1; cases h1
  | altLeft _ _ => intro r c v h1; cases h1
  | altRight _ _ => intro r c v h1; cases h1
  | starNil => intro r c v _ h2; cases h2
  | @starCons r0 x y hx hy _ ih2 =>
    intro r c v h1 h2
    cases h1
    cases x with
    | nil =>
      simp only [List.nil_append] at h2
      exact ih2 r0 c v rfl h2
    | cons a x1 =>
      simp only [List.cons_append, List.cons.injEq] at h2
      obtain ⟨rfl, rfl⟩ := h2
      exact ⟨x1, y, rfl, hx, hy⟩

theorem nullable_iff (r : Regex) : r.nullable = true ↔ Regex.Matches r [] := by
  induction r with
  | nothing => simp [Regex.nullable, matches_nothing]
  | empty => simp [Regex.nullable, matches_empty_iff]
  | cls k => simp [Regex.nullable, matches_cls_iff]
  | cat r s ihr ihs =>
    simp only [Regex.nullable, Bool.and_eq_true, ihr, ihs, matches_cat_iff]
    constructor
    · rintro ⟨h1, h2⟩; exact ⟨[], [], rfl, h1, h2⟩
    · rintro ⟨x, y, h, h1, h2⟩
      have := List.append_eq_nil.mp h.symm
      rw [this.1] at h1; rw [this.2] at h2
      exact ⟨h1, h2⟩
  | alt r s ihr ihs =>
    simp only [Regex.nullable, Bool.or_eq_true, ihr, ihs, matches_alt_iff]
  | star r _ =>
    simp only [Regex.nullable, true_iff]
    exact Regex.Matches.starNil

theorem deriv_iff (r : Regex) : ∀ (c : Char) (w : List Char),
    Regex.Matches (r.deriv c) w ↔ Regex.Matches r (c :: w) := by
  induction r with
  | nothing => intro c w; simp [Regex.deriv, matches_nothing]
  | empty => intro c w; simp [Regex.deriv, matches_nothing, matches_empty_iff]
  | cls k =>
    intro c w
    simp only [Regex.deriv, matches_cls_iff]
    split
    · rename_i hk
      simp only [matches_empty_iff, List.cons.injEq]
      constructor
      · rintro rfl; exact ⟨c, ⟨rfl, rfl⟩, hk⟩
      · rintro ⟨_, ⟨_, h⟩, _⟩; exact h
    · rename_i hk
      simp only [matches_nothing, List.cons.injEq, false_iff]
      rintro ⟨d, ⟨rfl, _⟩, hd⟩
      exact hk hd
  | cat r s ihr ihs =>
    intro c w
    have hcat : Regex.Matches (Regex.cat (r.deriv c) s) w ↔
        ∃ x y, w = x ++ y ∧ Regex.Matches r (c :: x) ∧ Regex.Matches s y := by
      simp only [matches_cat_iff, ihr]
    have hmain : Regex.Matches (Regex.cat r s) (c :: w) ↔
        (∃ x y, w = x ++ y ∧ Regex.Matches r (c :: x) ∧ Regex.Matches s y) ∨
        (Regex.Matches r [] ∧ Regex.Matches s (c :: w)) := by
      rw [matches_cat_iff]
      constructor
      · rintro ⟨x, y, h, h1, h2⟩
        cases x with
        | nil =>
          simp only [List.nil_append] at h
          rw [← h] at h2
          exact Or.inr ⟨h1, h2⟩
        | cons a x1 =>
          simp only [List.cons_append, List.cons.injEq] at h
          obtain ⟨rfl, rfl⟩ := h
          exact Or.inl ⟨x1, y, rfl, h1, h2⟩
      · rintro (⟨x, y, rfl, h1, h2⟩ | ⟨h1, h2⟩)
        · exact ⟨c :: x, y, rfl, h1, h2⟩
        · exact ⟨[], c :: w, rfl, h1, h2⟩
    simp only [Regex.deriv]
    split
    · rename_i hn
      have hr := (nullable_iff r).mp hn
      rw [matches_alt_iff, hcat, ihs, hmain]
      simp only [hr, true_and]
    · rename_i hn
      have hr : ¬ Regex.Matches r [] := fun h => hn ((nullable_iff r).mpr h)
      rw [hcat, hmain]
      simp only [hr, false_and, or_false]
  | alt r s ihr ihs =>
    intro c w
    simp only [Regex.deriv, matches_alt_iff, ihr, ihs]
  | star r ih =>
    intro c w
    simp only [Regex.deriv, matches_cat_iff, ih]
    constructor
    · rintro ⟨x, y, rfl, h1, h2⟩
      exact Regex.Matches.starCons h1 h2
    · intro h
      exact matches_star_cons_inv h r c w rfl rfl

theorem foldl_deriv_iff (w : List Char) : ∀ r : Regex,
    (w.foldl Regex.deriv r).nullable = true ↔ Regex.Matches r w := by
  induction w with
  | nil => intro r; exact nullable_iff r
  | cons c w ih => intro r; rw [List.foldl_cons, ih, deriv_iff]

theorem matchString_iff (r : Regex) (s : String) :
    MatchString r s = true ↔ Regex.Matches r s.data :=
  foldl_deriv_iff s.data r

theorem matches_star_cls_iff (k : CharClass) (w : List Char) :
    Regex.Matches (Regex.star (Regex.cls k)) w ↔ ∀ c ∈ w, k.mem c = true := by
  induction w with
  | nil => simp; exact Regex.Matches.starNil
  | cons a w ih =>
    constructor
    · intro h
      obtain ⟨x, y, rfl, h1, h2⟩ := matches_star_cons_inv h _ a w rfl rfl
      rw [matches_cls_iff] at h1
      obtain ⟨d, hd, hk⟩ := h1
      simp only [List.cons.injEq] at hd
      obtain ⟨rfl, rfl⟩ := hd
      simp only [List.nil_append] at ih ⊢
      intro c hc
      rcases List.mem_cons.mp hc with rfl | hc
      · exact hk
      · exact ih.mp h2 c hc
    · intro h
      have h1 : Regex.Matches (Regex.cls k) [a] := Regex.Matches.cls (h a (List.mem_cons_self a w))
      have h2 := ih.mpr (fun c hc => h c (List.mem_cons_of_mem a hc))
      exact Regex.Matches.starCons h1 h2

theorem matches_plus_cls_iff (k : CharClass) (w : List Char) :
    Regex.Matches (Regex.plus (Regex.cls k)) w ↔ w ≠ [] ∧ ∀ c ∈ w, k.mem c = true := by
  unfold Regex.plus
  rw [matches_cat_iff]
  constructor
  · rintro ⟨x, y, rfl, h1, h2⟩
    rw [matches_cls_iff] at h1
    obtain ⟨d, rfl, hk⟩ := h1
    rw [matches_star_cls_iff] at h2
    refine ⟨by simp, ?_⟩
    intro c hc
    simp only [List.singleton_append, List.mem_cons] at hc
    rcases hc with rfl | hc
    · exact hk
    · exact h2 c hc
  · rintro ⟨hne, h⟩
    cases w with
    | nil => exact absurd rfl hne
    | cons a w =>
      refine ⟨[a], w, rfl, Regex.Matches.cls (h a (List.mem_cons_self a w)), ?_⟩
      rw [matches_star_cls_iff]
      exact fun c hc => h c (List.mem_cons_of_mem a hc)

theorem classDigit_mem (c : Char) : classDigit.mem c = isDigitChar c := by
  simp [CharClass.mem, classDigit, isDigitChar]

theorem validatePriceFormat_iff (s : String) :
    ValidatePriceFormat s = true ↔
      ∃ ds a b, s.data = ds ++ ['.', a, b] ∧ ds ≠ [] ∧ (∀ c ∈ ds, isDigitChar c = true) ∧
        isDigitChar a = true ∧ isDigitChar b = true := by
  unfold ValidatePriceFormat
  rw [matchString_iff]
  unfold pricePattern
  simp only [matches_cat_iff, matches_plus_cls_iff, matches_cls_iff, classDigit_mem]
  constructor
  · rintro ⟨x, y, h, ⟨hx, hd⟩, x1, y1, rfl, ⟨c1, rfl, hc1⟩, x2, y2, rfl, ⟨a, rfl, ha⟩, b, rfl, hb⟩
    refine ⟨x, a, b, ?_, hx, hd, ha, hb⟩
    have : c1 = '.' := by
      simp only [CharClass.mem, List.any_cons, List.any_nil, Bool.or_false, Bool.and_eq_true,
        decide_eq_true_eq] at hc1
      exact char_of_toNat (Nat.le_antisymm hc1.2 hc1.1)
    rw [h, this]; rfl
  · rintro ⟨ds, a, b, h, hne, hd, ha, hb⟩
    exact ⟨ds, ['.', a, b], h, ⟨hne, hd⟩, ['.'], [a, b], rfl, ⟨'.', rfl, by decide⟩,
      [a], [b], rfl, ⟨a, rfl, ha⟩, b, rfl, hb⟩

/-! ### `ParseFloat` on price strings -/

theorem digit_facts {c : Char} (h : isDigitChar c = true) :
    c ≠ '_' ∧ c ≠ '.' ∧ c ≠ '+' ∧ c ≠ '-' ∧ c ≠ 'i' ∧ c ≠ 'I' ∧ c ≠ 'n' ∧ c ≠ 'N' ∧
      lowerChar c ≠ 'x' := by
  simp only [isDigitChar, Bool.and_eq_true, decide_eq_true_eq] at h
  have hl : lowerChar c = c := by
    unfold lowerChar
    rw [if_neg]
    omega
  rw [hl]
  refine ⟨?_, ?_, ?_, ?_, ?_, ?_, ?_, ?_, ?_⟩ <;>
  · intro hc
    rw [hc] at h
    revert h
    decide

theorem digitVal_zero : digitVal '0' = 0 := by decide

theorem scanMant_digits (rest : List Char) (ds : List Char) :
    (∀ c ∈ ds, isDigitChar c = true) → ∀ st : MantState, (st.nd = 0 → st.mant = 0) →
    ∃ st1 : MantState, scanMant 10 (ds ++ rest) st = scanMant 10 rest st1 ∧
      st1.mant = ds.foldl (fun acc c => acc * 10 + digitVal c) st.mant ∧
      st1.dp - (st1.nd : Int) = st.dp - (st.nd : Int) - (ds.length : Int) ∧
      (st1.nd = 0 → st1.mant = 0) ∧ st1.sawdot = st.sawdot ∧
      st1.underscores = st.underscores ∧
      (st.sawdigits = true ∨ ds ≠ [] → st1.sawdigits = true) := by
  induction ds with
  | nil =>
    intro _ st hinv
    exact ⟨st, rfl, rfl, by simp, hinv, rfl, rfl, by simp⟩
  | cons c ds ih =>
    intro hd st hinv
    have hc := hd c (List.mem_cons_self c ds)
    obtain ⟨f1, f2, -⟩ := digit_facts hc
    have hds : ∀ x ∈ ds, isDigitChar x = true := fun x hx => hd x (List.mem_cons_of_mem c hx)
    simp only [List.cons_append, scanMant, if_neg f1, if_neg f2, hc, if_true]
    split
    · rename_i hz
      obtain ⟨st1, e1, e2, e3, e4, e5, e6, e7⟩ :=
        ih hds { st with sawdigits := true, dp := st.dp - 1 } hinv
      refine ⟨st1, e1, ?_, ?_, e4, e5, e6, ?_⟩
      · rw [e2, List.foldl_cons]
        simp only [hz.1, digitVal_zero, hinv hz.2]
      · rw [e3]
        simp only [List.length_cons]
        push_cast
        omega
      · intro _
        exact e7 (Or.inl rfl)
    · rename_i hz
      obtain ⟨st1, e1, e2, e3, e4, e5, e6, e7⟩ :=
        ih hds { st with sawdigits := true, nd := st.nd + 1, mant := st.mant * 10 + digitVal c }
          (by intro h; simp at h)
      refine ⟨st1, e1, ?_, ?_, e4, e5, e6, ?_⟩
      · rw [e2, List.foldl_cons]
      · rw [e3]
        simp only [List.length_cons]
        push_cast
        omega
      · intro _
        exact e7 (Or.inl rfl)


theorem scanMant_dot (base : Nat) (cs : List Char) (st : MantState) (h : st.sawdot = false) :
    scanMant base ('.' :: cs) st = scanMant base cs { st with sawdot := true, dp := st.nd } := by
  have hdot : ('.' : Char) ≠ '_' := by decide
  rw [scanMant, if_neg hdot, if_pos rfl, h]
  rfl

theorem scanMant_nil (base : Nat) (st : MantState) : scanMant base [] st = (st, []) := by
  rw [scanMant]

theorem decimalValue_append (xs ys : List Char) :
    decimalValue (xs ++ ys) = ys.foldl (fun acc c => acc * 10 + digitVal c) (decimalValue xs) := by
  simp [decimalValue, List.foldl_append]

theorem priceCents_eq {s : String} {ds : List Char} {a b : Char}
    (hs : s.data = ds ++ ['.', a, b]) (hd : ∀ c ∈ ds, isDigitChar c = true)
    (ha : isDigitChar a = true) (hb : isDigitChar b = true) :
    priceCents s = decimalValue ds * 100 + digitVal a * 10 + digitVal b := by
  have hf : ds.filter isDigitChar = ds := List.filter_eq_self.mpr hd
  have hdot : isDigitChar '.' = false := by decide
  unfold priceCents
  rw [hs, List.filter_append, hf]
  simp only [List.filter_cons, hdot, ha, hb, if_true, List.filter_nil, Bool.false_eq_true,
    if_false]
  rw [decimalValue_append]
  simp only [List.foldl_cons, List.foldl_nil]
  ring

theorem readBase_of_not_x (l : List Char)
    (h : ∀ z x r, l = z :: x :: r → lowerChar x ≠ 'x') : readBase l = (false, l) := by
  match l with
  | [] => rfl
  | [_] => rfl
  | [_, _] => rfl
  | z :: x :: c :: t =>
    have hx := h z x (c :: t) rfl
    simp only [readBase, hx, and_false, if_false]

theorem readFloat_price {s : List Char} {ds : List Char} {a b : Char}
    (hs : s = ds ++ ['.', a, b]) (hne : ds ≠ []) (hd : ∀ c ∈ ds, isDigitChar c = true)
    (ha : isDigitChar a = true) (hb : isDigitChar b = true) :
    ∃ n : Nat, n = decimalValue ds * 100 + digitVal a * 10 + digitVal b ∧
      readFloat s = some (false, false, n, if n ≠ 0 then -2 else 0) ∧ specialFloat s = none := by
  obtain ⟨c0, t0, rfl⟩ := List.exists_cons_of_ne_nil hne
  have hc0 := hd c0 (List.mem_cons_self c0 t0)
  obtain ⟨g1, g2, g3, g4, g5, g6, g7, g8, g9⟩ := digit_facts hc0
  have hx : ∀ z x r, s = z :: x :: r → lowerChar x ≠ 'x' := by
    intro z x r h
    rw [hs] at h
    cases t0 with
    | nil =>
      simp only [List.cons_append, List.nil_append, List.cons.injEq] at h
      rw [← h.2.1]; decide
    | cons c1 t1 =>
      simp only [List.cons_append, List.cons.injEq] at h
      rw [← h.2.1]
      exact (digit_facts (hd c1 (by simp))).2.2.2.2.2.2.2.2
  obtain ⟨st1, e1, e2, e3, e4, e5, e6, e7⟩ :=
    scanMant_digits ['.', a, b] (c0 :: t0) hd MantState.init (fun _ => rfl)
  obtain ⟨st2, k1, k2, k3, k4, k5, k6, k7⟩ :=
    scanMant_digits [] [a, b] (by intro c hc; simp at hc; rcases hc with rfl | rfl <;> assumption)
      { st1 with sawdot := true, dp := st1.nd } e4
  have hscan : scanMant 10 s MantState.init = (st2, []) := by
    rw [hs, e1, scanMant_dot 10 [a, b] st1 e5]
    rw [List.append_nil] at k1
    rw [k1, scanMant_nil]
  have hsign : readSign s = (false, s) := by
    rw [hs]
    simp only [readSign, List.cons_append, if_neg g3, if_neg g4]
  have hbase : readBase s = (false, s) := readBase_of_not_x s hx
  have hsd : st2.sawdigits = true := k7 (Or.inr (by simp))
  have hdot : st2.sawdot = true := k5
  have hus : st2.underscores = false := by rw [k6]; exact e6
  have hdp : st2.dp - (st2.nd : Int) = -2 := by
    rw [k3]
    simp only [List.length_cons, List.length_nil]
    omega
  refine ⟨st2.mant, ?_, ?_, ?_⟩
  · rw [k2]
    simp only [List.foldl_cons, List.foldl_nil]
    rw [e2]
    simp only [decimalValue, MantState.init]
    ring
  · simp only [readFloat, hsign, hbase, Bool.false_eq_true, if_false, hscan, hsd, hdot, if_true,
      hus, Bool.false_and, hdp, Bool.true_eq_false]
  · rw [hs]
    simp [specialFloat, g3, g4, g5, g6, g7, g8]

/-- The result of `ParseFloat` on the rounded value: an infinity comes with `ErrRange`. -/
theorem parseFloat_price {s : String} (h : ValidatePriceFormat s = true) :
    ParseFloat s =
      parseResult (roundNearestEven false (priceCents s) 100) := by
  obtain ⟨ds, a, b, hs, hne, hd, ha, hb⟩ := (validatePriceFormat_iff s).mp h
  obtain ⟨n, hn, hr, hsp⟩ := readFloat_price hs hne hd ha hb
  have hc : priceCents s = n := by rw [hn]; exact priceCents_eq hs hd ha hb
  rw [hc]
  unfold ParseFloat
  rw [hsp, hr]
  by_cases h0 : n = 0
  · subst h0
    simp [roundNearestEven]
  · simp [h0]

/-! ### Binary rounding -/

theorem bitLenAux_spec : ∀ (fuel n : Nat), n ≤ fuel →
    n < 2 ^ bitLenAux fuel n ∧ (n ≠ 0 → 2 ^ (bitLenAux fuel n - 1) ≤ n) := by
  intro fuel
  induction fuel with
  | zero =>
    intro n hn
    have : n = 0 := by omega
    subst this
    simp [bitLenAux]
  | succ f ih =>
    intro n hn
    by_cases h0 : n = 0
    · subst h0
      simp [bitLenAux]
    · have hle : n / 2 ≤ f := by omega
      obtain ⟨h1, h2⟩ := ih (n / 2) hle
      simp only [bitLenAux, if_neg h0, Nat.add_sub_cancel]
      constructor
      · rw [pow_succ]
        omega
      · intro _
        by_cases h3 : n / 2 = 0
        · have hb : bitLenAux f (n / 2) = 0 := by
            rw [h3]
            cases f <;> simp [bitLenAux]
          rw [hb]
          simp
          omega
        · have h4 := h2 h3
          have h5 : 0 < bitLenAux f (n / 2) := by
            by_contra hc
            have : bitLenAux f (n / 2) = 0 := by omega
            rw [this] at h1
            simp at h1
            exact h3 h1
          have h6 : bitLenAux f (n / 2) = (bitLenAux f (n / 2) - 1) + 1 := by omega
          rw [h6, pow_succ]
          omega

theorem bitLen_lt (n : Nat) : n < 2 ^ bitLen n := (bitLenAux_spec n n le_rfl).1

theorem bitLen_le {n : Nat} (h : n ≠ 0) : 2 ^ (bitLen n - 1) ≤ n := (bitLenAux_spec n n le_rfl).2 h

theorem bitLen_le_of_lt {n k : Nat} (h : n < 2 ^ k) : bitLen n ≤ k := by
  by_cases h0 : n = 0
  · subst h0; simp [bitLen, bitLenAux]
  · have h1 := bitLen_le h0
    by_contra hc
    have h2 : k ≤ bitLen n - 1 := by omega
    have h3 : 2 ^ k ≤ 2 ^ (bitLen n - 1) := Nat.pow_le_pow_right (by norm_num) h2
    omega

theorem bitLen_pos {n : Nat} (h : n ≠ 0) : 0 < bitLen n := by
  by_contra hc
  have h1 := bitLen_lt n
  have : bitLen n = 0 := by omega
  rw [this] at h1
  simp at h1
  exact h h1

/-- The rounded quotient is within one half of the exact one. -/
theorem divRoundHalfEven_bounds (n d : Nat) (hd : 0 < d) :
    2 * (divRoundHalfEven n d * d) ≤ 2 * n + d ∧ 2 * n ≤ 2 * (divRoundHalfEven n d * d) + d := by
  have h1 : d * (n / d) + n % d = n := Nat.div_add_mod n d
  have h2 : n % d < d := Nat.mod_lt n hd
  have h3 : n / d * d = d * (n / d) := Nat.mul_comm _ _
  unfold divRoundHalfEven
  split
  · omega
  · split
    · rw [Nat.add_mul]; omega
    · split
      · omega
      · rw [Nat.add_mul]; omega

theorem divRoundHalfEven_le {n d g : Nat} (hd : 0 < d) (h : n ≤ g * d) :
    divRoundHalfEven n d ≤ g := by
  have h1 := (divRoundHalfEven_bounds n d hd).1
  by_contra hc
  have h2 : (g + 1) * d ≤ divRoundHalfEven n d * d := Nat.mul_le_mul_right d (by omega)
  rw [Nat.add_mul] at h2
  omega

theorem divRoundHalfEven_gt {n d g : Nat} (hd : 0 < d) (h : 2 * (g * d) + d < 2 * n) :
    g < divRoundHalfEven n d := by
  have h1 := (divRoundHalfEven_bounds n d hd).2
  by_contra hc
  have h2 : divRoundHalfEven n d * d ≤ g * d := Nat.mul_le_mul_right d (by omega)
  omega

theorem divRoundHalfEven_ge {n d g : Nat} (hd : 0 < d) (h : g * d ≤ n) :
    g ≤ divRoundHalfEven n d := by
  have h1 := (divRoundHalfEven_bounds n d hd).2
  by_contra hc
  have h2 : (divRoundHalfEven n d + 1) * d ≤ g * d := Nat.mul_le_mul_right d (by omega)
  rw [Nat.add_mul] at h2
  omega

theorem divRoundHalfEven_eq {n d q : Nat} (hd : 0 < d) (h1 : q * d ≤ n)
    (h2 : 2 * n < 2 * (q * d) + d) : divRoundHalfEven n d = q := by
  have h3 := divRoundHalfEven_ge hd h1
  have h4 := (divRoundHalfEven_bounds n d hd).1
  by_contra hc
  have h5 : (q + 1) * d ≤ divRoundHalfEven n d * d := Nat.mul_le_mul_right d (by omega)
  rw [Nat.add_mul] at h5
  omega

theorem pow2_cond (t : Int) (n d : Nat) :
    (d * 2 ^ t.toNat ≤ n * 2 ^ (-t).toNat) ↔ ((d : ℚ) * (2 : ℚ) ^ t ≤ n) := by
  rcases Int.le_total 0 t with h | h
  · obtain ⟨a, rfl⟩ := Int.eq_ofNat_of_zero_le h
    have h1 : (-(a : Int)).toNat = 0 := by simp
    rw [Int.toNat_natCast, h1, pow_zero, mul_one, zpow_natCast]
    exact_mod_cast Iff.rfl
  · obtain ⟨a, ha⟩ := Int.eq_ofNat_of_zero_le (Int.neg_nonneg_of_nonpos h)
    have ht : t = -(a : Int) := by omega
    subst ht
    have h1 : (-(a : Int)).toNat = 0 := by simp
    rw [h1, Int.neg_neg, Int.toNat_natCast, pow_zero, mul_one, zpow_neg, zpow_natCast]
    have hp : (0 : ℚ) < 2 ^ a := by positivity
    rw [← div_eq_mul_inv, div_le_iff₀ hp]
    exact_mod_cast Iff.rfl

theorem floorLog2_spec (n d : Nat) (hn : 0 < n) (hd : 0 < d) :
    (d : ℚ) * (2 : ℚ) ^ (floorLog2 n d) ≤ n ∧ (n : ℚ) < d * (2 : ℚ) ^ (floorLog2 n d + 1) := by
  have hbn := bitLen_pos (Nat.pos_iff_ne_zero.mp hn)
  have hbd := bitLen_pos (Nat.pos_iff_ne_zero.mp hd)
  have cast_lo : ∀ m : Nat, 0 < m → (2 : ℚ) ^ ((bitLen m : Int) - 1) ≤ m := by
    intro m hm
    have h := bitLen_le (Nat.pos_iff_ne_zero.mp hm)
    have hb := bitLen_pos (Nat.pos_iff_ne_zero.mp hm)
    have e : ((bitLen m : Int) - 1) = ((bitLen m - 1 : Nat) : Int) := by omega
    rw [e, zpow_natCast]
    exact_mod_cast h
  have cast_hi : ∀ m : Nat, (m : ℚ) < (2 : ℚ) ^ (bitLen m : Int) := by
    intro m
    rw [zpow_natCast]
    exact_mod_cast bitLen_lt m
  have n1 := cast_lo n hn
  have n2 := cast_hi n
  have d1 := cast_lo d hd
  have d2 := cast_hi d
  have two : (2 : ℚ) ≠ 0 := two_ne_zero
  unfold floorLog2
  simp only
  split
  · rename_i hc
    rw [pow2_cond] at hc
    refine ⟨hc, ?_⟩
    have e : (2 : ℚ) ^ (bitLen n : Int) =
        (2 : ℚ) ^ ((bitLen d : Int) - 1) * (2 : ℚ) ^ ((bitLen n : Int) - (bitLen d : Int) + 1) := by
      rw [← zpow_add₀ two]; congr 1; ring
    have hp : (0 : ℚ) < (2 : ℚ) ^ ((bitLen n : Int) - (bitLen d : Int) + 1) := by positivity
    calc (n : ℚ) < (2 : ℚ) ^ (bitLen n : Int) := n2
      _ = _ := e
      _ ≤ d * (2 : ℚ) ^ ((bitLen n : Int) - (bitLen d : Int) + 1) :=
          mul_le_mul_of_nonneg_right d1 hp.le
  · rename_i hc
    rw [pow2_cond] at hc
    push_neg at hc
    constructor
    · have e : (2 : ℚ) ^ ((bitLen n : Int) - 1) =
          (2 : ℚ) ^ (bitLen d : Int) * (2 : ℚ) ^ ((bitLen n : Int) - (bitLen d : Int) - 1) := by
        rw [← zpow_add₀ two]; congr 1; ring
      have hp : (0 : ℚ) < (2 : ℚ) ^ ((bitLen n : Int) - (bitLen d : Int) - 1) := by positivity
      calc (d : ℚ) * (2 : ℚ) ^ ((bitLen n : Int) - (bitLen d : Int) - 1)
          ≤ (2 : ℚ) ^ (bitLen d : Int) * (2 : ℚ) ^ ((bitLen n : Int) - (bitLen d : Int) - 1) :=
            mul_le_mul_of_nonneg_right d2.le hp.le
        _ = _ := e.symm
        _ ≤ n := n1
    · have e : (bitLen n : Int) - (bitLen d : Int) - 1 + 1 = (bitLen n : Int) - (bitLen d : Int) := by
        ring
      rw [e]
      exact hc


/-- Rounding of a positive rational in the range of the normal numbers below `2 ^ 52`: the
result is the rounded multiple of `2 ^ (-j)` for the `j` that brings `n / d` into
`[2 ^ 52, 2 ^ 53)`. -/
theorem roundNearestEven_fin (neg : Bool) (n d : Nat) (hn : 0 < n) (hd : 0 < d)
    (hu : n < d * 2 ^ 52) (hl : d ≤ n * 2 ^ 1022) :
    ∃ j : Nat, roundNearestEven neg n d =
        F64.fin neg (divRoundHalfEven (n * 2 ^ j) d) (-(j : Int)) ∧
      d * 2 ^ 52 ≤ n * 2 ^ j ∧ n * 2 ^ j < d * 2 ^ 53 ∧ 1 ≤ j ∧ j ≤ 1074 := by
  obtain ⟨s1, s2⟩ := floorLog2_spec n d hn hd
  have two : (2 : ℚ) ≠ 0 := two_ne_zero
  have one_lt : (1 : ℚ) < 2 := by norm_num
  have hdq : (0 : ℚ) < d := by exact_mod_cast hd
  have huq : (n : ℚ) < d * (2 : ℚ) ^ (52 : Int) := by
    rw [show ((52 : Int)) = ((52 : Nat) : Int) from rfl, zpow_natCast]
    exact_mod_cast hu
  have hlq : (d : ℚ) * (2 : ℚ) ^ (-1022 : Int) ≤ n := by
    rw [show ((-1022 : Int)) = -((1022 : Nat) : Int) from rfl, zpow_neg, zpow_natCast,
      ← div_eq_mul_inv, div_le_iff₀ (by positivity)]
    exact_mod_cast hl
  have hk1 : floorLog2 n d < 52 := by
    by_contra hc
    have h1 : (2 : ℚ) ^ (52 : Int) ≤ (2 : ℚ) ^ (floorLog2 n d) :=
      zpow_le_zpow_right₀ one_lt.le (by omega)
    have h2 : (d : ℚ) * (2 : ℚ) ^ (52 : Int) ≤ d * (2 : ℚ) ^ (floorLog2 n d) :=
      mul_le_mul_of_nonneg_left h1 hdq.le
    linarith
  have hk2 : -1022 ≤ floorLog2 n d + 1 - 1 := by
    by_contra hc
    have h1 : (2 : ℚ) ^ (floorLog2 n d + 1) ≤ (2 : ℚ) ^ (-1022 : Int) :=
      zpow_le_zpow_right₀ one_lt.le (by omega)
    have h2 : (d : ℚ) * (2 : ℚ) ^ (floorLog2 n d + 1) ≤ d * (2 : ℚ) ^ (-1022 : Int) :=
      mul_le_mul_of_nonneg_left h1 hdq.le
    linarith
  obtain ⟨j, hj⟩ := Int.eq_ofNat_of_zero_le (show (0 : Int) ≤ 52 - floorLog2 n d by omega)
  have he : max (floorLog2 n d - 52) (-1074) = -(j : Int) := by
    rw [max_eq_left (by omega)]; omega
  have hpow : (2 : ℚ) ^ (floorLog2 n d) * (2 : ℚ) ^ j = (2 : ℚ) ^ (52 : Nat) := by
    rw [← zpow_natCast, ← zpow_natCast, ← zpow_add₀ two]
    congr 1; omega
  have hpow1 : (2 : ℚ) ^ (floorLog2 n d + 1) * (2 : ℚ) ^ j = (2 : ℚ) ^ (53 : Nat) := by
    rw [← zpow_natCast, ← zpow_natCast, ← zpow_add₀ two]
    congr 1; omega
  have hjpos : (0 : ℚ) < (2 : ℚ) ^ j := by positivity
  have b1 : d * 2 ^ 52 ≤ n * 2 ^ j := by
    have : (d : ℚ) * (2 : ℚ) ^ (52 : Nat) ≤ n * (2 : ℚ) ^ j := by
      rw [← hpow, ← mul_assoc]
      exact mul_le_mul_of_nonneg_right s1 hjpos.le
    exact_mod_cast this
  have b2 : n * 2 ^ j < d * 2 ^ 53 := by
    have : (n : ℚ) * (2 : ℚ) ^ j < d * (2 : ℚ) ^ (53 : Nat) := by
      rw [← hpow1, ← mul_assoc]
      exact mul_lt_mul_of_pos_right s2 hjpos
    exact_mod_cast this
  refine ⟨j, ?_, b1, b2, by omega, by omega⟩
  have hm : divRoundHalfEven (n * 2 ^ j) d ≤ 2 ^ 53 :=
    divRoundHalfEven_le hd (by rw [Nat.mul_comm (2 ^ 53) d]; exact b2.le)
  have hb : bitLen (divRoundHalfEven (n * 2 ^ j) d) ≤ 54 :=
    bitLen_le_of_lt (lt_of_le_of_lt hm (by norm_num))
  have e1 : (-(-(j : Int))).toNat = j := by simp
  have e2 : (-(j : Int)).toNat = 0 := by simp
  unfold roundNearestEven
  rw [if_neg (Nat.pos_iff_ne_zero.mp hn)]
  simp only [he, e1, e2, pow_zero, mul_one]
  rw [if_neg]
  omega

/-! ### The total-based rules -/

theorem pow_le_mul_pow {n a b : Nat} (hn : 0 < n) (hab : a ≤ b) : 2 ^ a ≤ n * 2 ^ b :=
  le_trans (Nat.pow_le_pow_right (by norm_num) hab) (Nat.le_mul_of_pos_left _ hn)

/-- Rounding of a positive amount of cents below `2 ^ 47` dollars. -/
theorem round_price (n : Nat) (h0 : 0 < n) (hb : n < 100 * 2 ^ 47) :
    ∃ j : Nat, roundNearestEven false n 100 =
        F64.fin false (divRoundHalfEven (n * 2 ^ j) 100) (-(j : Int)) ∧
      6 ≤ j ∧ j ≤ 59 ∧ 100 * 2 ^ 52 ≤ n * 2 ^ j ∧ n * 2 ^ j < 100 * 2 ^ 53 := by
  obtain ⟨j, e, b1, b2, _, _⟩ := roundNearestEven_fin false n 100 h0 (by norm_num)
    (by omega) (le_trans (by norm_num : (100 : Nat) ≤ 2 ^ 7) (pow_le_mul_pow h0 (by norm_num)))
  refine ⟨j, e, ?_, ?_, b1, b2⟩
  · by_contra hc
    have h1 : 2 ^ j ≤ 2 ^ 5 := Nat.pow_le_pow_right (by norm_num) (by omega)
    have h2 : n * 2 ^ j ≤ n * 2 ^ 5 := Nat.mul_le_mul_left n h1
    omega
  · by_contra hc
    have h1 : 2 ^ 60 ≤ 2 ^ j := Nat.pow_le_pow_right (by norm_num) (by omega)
    have h2 : 1 * 2 ^ j ≤ n * 2 ^ j := Nat.mul_le_mul_right _ h0
    omega

theorem mod_one_eq_zero (m j : Nat) :
    F64.eq (F64.Mod (F64.fin false m (-(j : Int))) F64.one) F64.zero = true ↔ m % 2 ^ j = 0 := by
  have e1 : min (-(j : Int)) 0 = -(j : Int) := min_eq_left (by omega)
  have e2 : (0 - -(j : Int)).toNat = j := by simp
  simp only [F64.Mod, F64.one, F64.zero, F64.eq, e1, e2, sub_self, Int.toNat_zero, pow_zero,
    mul_one, one_mul, one_ne_zero, if_false, min_self, zero_mul]
  simp

theorem mod_quarter_eq_zero (m j : Nat) (hj : 2 ≤ j) :
    F64.eq (F64.Mod (F64.fin false m (-(j : Int))) F64.quarter) F64.zero = true ↔
      m % 2 ^ (j - 2) = 0 := by
  have e1 : min (-(j : Int)) (-2) = -(j : Int) := min_eq_left (by omega)
  have e2 : (-2 - -(j : Int)).toNat = j - 2 := by omega
  simp only [F64.Mod, F64.quarter, F64.zero, F64.eq, e1, e2, sub_self, Int.toNat_zero, pow_zero,
    mul_one, one_mul, one_ne_zero, if_false, min_self, zero_mul]
  simp

theorem round_dollar_arith (n j : Nat) (hj : 6 ≤ j) :
    divRoundHalfEven (n * 2 ^ j) 100 % 2 ^ j = 0 ↔ n % 100 = 0 := by
  have hP : 2 ^ 6 ≤ 2 ^ j := Nat.pow_le_pow_right (by norm_num) hj
  obtain ⟨d1, d2⟩ := divRoundHalfEven_bounds (n * 2 ^ j) 100 (by norm_num)
  constructor
  · intro h
    obtain ⟨t, ht⟩ := Nat.dvd_of_mod_eq_zero h
    rw [ht] at d1 d2
    have e1 : 2 ^ j * t * 100 = 100 * (t * 2 ^ j) := by ring
    rw [e1] at d1 d2
    have hn : n = 100 * t := by
      rcases Nat.lt_trichotomy n (100 * t) with hlt | heq | hgt
      · have : (n + 1) * 2 ^ j ≤ 100 * t * 2 ^ j := Nat.mul_le_mul_right _ hlt
        rw [Nat.add_mul, Nat.mul_assoc] at this
        omega
      · exact heq
      · have : (100 * t + 1) * 2 ^ j ≤ n * 2 ^ j := Nat.mul_le_mul_right _ hgt
        rw [Nat.add_mul, Nat.mul_assoc] at this
        omega
    omega
  · intro h
    obtain ⟨t, ht⟩ := Nat.dvd_of_mod_eq_zero h
    have hq : divRoundHalfEven (n * 2 ^ j) 100 = t * 2 ^ j := by
      apply divRoundHalfEven_eq (by norm_num)
      · rw [ht]; apply le_of_eq; ring
      · rw [ht]
        have : 100 * t * 2 ^ j = t * 2 ^ j * 100 := by ring
        rw [this]; omega
    rw [hq]
    exact Nat.mul_mod_left t (2 ^ j)

theorem quarter_arith (n j : Nat) (hj : 6 ≤ j) :
    divRoundHalfEven (n * 2 ^ j) 100 % 2 ^ (j - 2) = 0 ↔ n % 25 = 0 := by
  obtain ⟨i, rfl⟩ : ∃ i, j = i + 2 := ⟨j - 2, by omega⟩
  have hP : 2 ^ 4 ≤ 2 ^ i := Nat.pow_le_pow_right (by norm_num) (by omega)
  have e0 : 2 ^ (i + 2) = 4 * 2 ^ i := by rw [pow_add]; ring
  simp only [Nat.add_sub_cancel]
  obtain ⟨d1, d2⟩ := divRoundHalfEven_bounds (n * 2 ^ (i + 2)) 100 (by norm_num)
  constructor
  · intro h
    obtain ⟨t, ht⟩ := Nat.dvd_of_mod_eq_zero h
    rw [ht, e0] at d1 d2
    have e1 : 2 ^ i * t * 100 = 100 * (t * 2 ^ i) := by ring
    have e2 : n * (4 * 2 ^ i) = 4 * (n * 2 ^ i) := by ring
    rw [e1, e2] at d1 d2
    have hn : n = 25 * t := by
      rcases Nat.lt_trichotomy n (25 * t) with hlt | heq | hgt
      · have : (n + 1) * 2 ^ i ≤ 25 * t * 2 ^ i := Nat.mul_le_mul_right _ hlt
        rw [Nat.add_mul, Nat.mul_assoc] at this
        omega
      · exact heq
      · have : (25 * t + 1) * 2 ^ i ≤ n * 2 ^ i := Nat.mul_le_mul_right _ hgt
        rw [Nat.add_mul, Nat.mul_assoc] at this
        omega
    omega
  · intro h
    obtain ⟨t, ht⟩ := Nat.dvd_of_mod_eq_zero h
    have hq : divRoundHalfEven (n * 2 ^ (i + 2)) 100 = t * 2 ^ i := by
      apply divRoundHalfEven_eq (by norm_num)
      · rw [ht, e0]; apply le_of_eq; ring
      · rw [ht, e0]
        have : 25 * t * (4 * 2 ^ i) = t * 2 ^ i * 100 := by ring
        rw [this]; omega
    rw [hq]
    exact Nat.mul_mod_left t (2 ^ i)

theorem parseResult_fin (neg : Bool) (m : Nat) (e : Int) :
    parseResult (F64.fin neg m e) = (F64.fin neg m e, false) := rfl

theorem roundNearestEven_zero (neg : Bool) (d : Nat) :
    roundNearestEven neg 0 d = F64.fin neg 0 0 := by
  simp [roundNearestEven]

theorem roundDollar_of_cents {receipt : Receipt} (h : ValidatePriceFormat receipt.Total = true)
    (hb : priceCents receipt.Total < 100 * 2 ^ 47) :
    RoundDollarRule.Calculate receipt = if priceCents receipt.Total % 100 = 0 then 50 else 0 := by
  unfold RoundDollarRule.Calculate
  rw [parseFloat_price h]
  rcases Nat.eq_zero_or_pos (priceCents receipt.Total) with h0 | h0
  · rw [h0, roundNearestEven_zero, parseResult_fin]
    rfl
  · obtain ⟨j, e, hj, _, _, _⟩ := round_price _ h0 hb
    rw [e, parseResult_fin]
    simp only [mod_one_eq_zero, round_dollar_arith _ j hj, true_and]

theorem quarter_of_cents {receipt : Receipt} (h : ValidatePriceFormat receipt.Total = true)
    (hb : priceCents receipt.Total < 100 * 2 ^ 47) :
    MultipleOfQuarterRule.Calculate receipt =
      if priceCents receipt.Total % 25 = 0 then 25 else 0 := by
  unfold MultipleOfQuarterRule.Calculate
  rw [parseFloat_price h]
  rcases Nat.eq_zero_or_pos (priceCents receipt.Total) with h0 | h0
  · rw [h0, roundNearestEven_zero, parseResult_fin]
    rfl
  · obtain ⟨j, e, hj, _, _, _⟩ := round_price _ h0 hb
    rw [e, parseResult_fin]
    simp only [mod_quarter_eq_zero _ j (by omega), quarter_arith _ j hj, true_and]

/-! ### The points of one item -/

theorem ceil_div_eq {a q k : Nat} (hq : 0 < q) (h1 : k * q < a) (h2 : a ≤ (k + 1) * q) :
    (a + (q - 1)) / q = k + 1 := by
  have e1 : (k + 1) * q = k * q + q := by ring
  have e2 : (k + 1 + 1) * q = k * q + q + q := by ring
  apply Nat.div_eq_of_lt_le
  · omega
  · show a + (q - 1) < (k + 1 + 1) * q
    omega

theorem ceil_div_mul (k q : Nat) (hq : 0 < q) : (k * q + (q - 1)) / q = k := by
  apply Nat.div_eq_of_lt_le
  · omega
  · have : (k + 1) * q = k * q + q := by ring
    show k * q + (q - 1) < (k + 1) * q
    omega

/-- The arithmetic of `math.Ceil(priceFloat * 0.2)` for an amount below `2 ^ 47` dollars:
the two roundings do not move the product across an integer. -/
theorem fifth_ceil_arith (n j j2 : Nat) (hj : 6 ≤ j)
    (b1 : 100 * 2 ^ 52 ≤ n * 2 ^ j) (b2 : n * 2 ^ j < 100 * 2 ^ 53)
    (c1 : 2 ^ (j + 55) * 2 ^ 52 ≤
      divRoundHalfEven (n * 2 ^ j) 100 * 7205759403792794 * 2 ^ j2)
    (c2 : divRoundHalfEven (n * 2 ^ j) 100 * 7205759403792794 * 2 ^ j2 <
      2 ^ (j + 55) * 2 ^ 53) :
    (divRoundHalfEven (divRoundHalfEven (n * 2 ^ j) 100 * 7205759403792794 * 2 ^ j2)
        (2 ^ (j + 55)) + (2 ^ j2 - 1)) / 2 ^ j2 = (n + 499) / 500 := by
  have hP : 2 ^ 6 ≤ 2 ^ j := Nat.pow_le_pow_right (by norm_num) hj
  have hd2 : 2 ^ (j + 55) = 2 ^ j * 2 ^ 55 := pow_add 2 j 55
  have hQ0 : 0 < 2 ^ j2 := by positivity
  have hm1 : 2 ^ 52 ≤ divRoundHalfEven (n * 2 ^ j) 100 :=
    divRoundHalfEven_ge (by norm_num) (by omega)
  have hm2 : divRoundHalfEven (n * 2 ^ j) 100 ≤ 2 ^ 53 :=
    divRoundHalfEven_le (by norm_num) (by omega)
  obtain ⟨m1, m2⟩ := divRoundHalfEven_bounds (n * 2 ^ j) 100 (by norm_num)
  generalize hm : divRoundHalfEven (n * 2 ^ j) 100 = m at *
  generalize hPdef : 2 ^ j = P at *
  -- the second exponent is at least two more than the first
  have hQ : 4 * P ≤ 2 ^ j2 := by
    by_contra hc
    have hj2 : j2 ≤ j + 1 := by
      by_contra h
      have : 2 ^ (j + 2) ≤ 2 ^ j2 := Nat.pow_le_pow_right (by norm_num) (by omega)
      rw [pow_add, hPdef] at this
      omega
    have h1 : 2 ^ j2 ≤ 2 ^ (j + 1) := Nat.pow_le_pow_right (by norm_num) hj2
    rw [pow_add, hPdef] at h1
    have h2 : m * 7205759403792794 * 2 ^ j2 ≤ m * 7205759403792794 * (P * 2 ^ 1) :=
      Nat.mul_le_mul_left _ h1
    have h3 : m * 7205759403792794 * (P * 2 ^ 1) ≤ 2 ^ 53 * 7205759403792794 * (P * 2 ^ 1) :=
      Nat.mul_le_mul_right _ (Nat.mul_le_mul_right _ hm2)
    have h4 : 2 ^ 53 * 7205759403792794 * (P * 2 ^ 1) = 2 ^ 54 * 7205759403792794 * P := by ring
    have h5 : P * 2 ^ 55 * 2 ^ 52 = 2 ^ 107 * P := by ring
    rw [hd2, h5] at c1
    rw [h4] at h3
    omega
  generalize hQdef : 2 ^ j2 = Q at *
  rw [hd2] at c1 c2 ⊢
  have hn : n = 500 * (n / 500) + n % 500 := (Nat.div_add_mod n 500).symm
  generalize hK : n / 500 = K at *
  generalize hf : n % 500 = f at *
  have hflt : f < 500 := by rw [← hf]; exact Nat.mod_lt n (by norm_num)
  rcases Nat.eq_zero_or_pos f with f0 | fpos
  · -- a whole multiple of five dollars
    subst f0
    have hnK : n = 500 * K := by omega
    have hres : (n + 499) / 500 = K := by omega
    rw [hres]
    have hmeq : m = 5 * K * P := by
      rw [← hm]
      apply divRoundHalfEven_eq (by norm_num)
      · rw [hnK]; apply le_of_eq; ring
      · rw [hnK]
        have : 500 * K * P = 5 * K * P * 100 := by ring
        rw [this]; omega
    have e1 : m * 7205759403792794 * Q = 36028797018963970 * (P * (K * Q)) := by
      rw [hmeq]; ring
    have e2 : K * Q * (P * 2 ^ 55) = 36028797018963968 * (P * (K * Q)) := by ring
    have hu : K * Q < 2 ^ 53 := by
      rw [e1] at c2
      have h1 : P * 2 ^ 55 * 2 ^ 53 = P * 2 ^ 108 := by ring
      have h2 : 36028797018963970 * (P * (K * Q)) = P * (36028797018963970 * (K * Q)) := by ring
      rw [h1, h2] at c2
      have h3 := Nat.lt_of_mul_lt_mul_left c2
      omega
    have hv : P * (4 * (K * Q)) < P * 2 ^ 55 :=
      (Nat.mul_lt_mul_left (by omega : 0 < P)).mpr (by omega)
    have hm2eq : divRoundHalfEven (m * 7205759403792794 * Q) (P * 2 ^ 55) = K * Q := by
      apply divRoundHalfEven_eq (by omega)
      · rw [e1, e2]; omega
      · rw [e1, e2]
        have h4 : P * (4 * (K * Q)) = 4 * (P * (K * Q)) := by ring
        rw [h4] at hv
        omega
    rw [hm2eq]
    exact ceil_div_mul K Q (by omega)
  · -- strictly between two multiples of five dollars
    have hres : (n + 499) / 500 = K + 1 := by omega
    rw [hres]
    have hnP : n * P = 500 * (K * P) + f * P := by rw [hn]; ring
    have hfP1 : 1 * P ≤ f * P := Nat.mul_le_mul_right P fpos
    have hfP2 : f * P ≤ 499 * P := Nat.mul_le_mul_right P (by omega)
    rw [hnP] at m1 m2
    have hmlo : 5 * (K * P) + 1 ≤ m := by omega
    have hmhi : m + 1 ≤ 5 * (K * P) + 5 * P := by omega
    apply ceil_div_eq (by omega)
    · apply divRoundHalfEven_gt (by omega)
      have e2 : K * Q * (P * 2 ^ 55) = 36028797018963968 * (K * P * Q) := by ring
      have hB : (36028797018963968 * (K * P) + 7205759403792794) * Q ≤
          m * 7205759403792794 * Q := Nat.mul_le_mul_right Q (by omega)
      have e3 : (36028797018963968 * (K * P) + 7205759403792794) * Q =
          36028797018963968 * (K * P * Q) + 7205759403792794 * Q := by ring
      rw [e3] at hB
      rw [e2]
      omega
    · apply divRoundHalfEven_le (by omega)
      have hA : m * 7205759403792794 ≤ 36028797018963968 * (K * P + P) := by omega
      have hA2 := Nat.mul_le_mul_right Q hA
      have e4 : 36028797018963968 * (K * P + P) * Q = (K + 1) * Q * (P * 2 ^ 55) := by ring
      rw [e4] at hA2
      exact hA2

set_option maxRecDepth 100000 in
theorem fifth_eq : F64.fifth = F64.fin false 7205759403792794 (-55) := by
  decide

theorem mul_fifth (m j : Nat) :
    F64.mul (F64.fin false m (-(j : Int))) F64.fifth =
      roundNearestEven false (m * 7205759403792794) (2 ^ (j + 55)) := by
  have e1 : (-(j : Int) + -55).toNat = 0 := by omega
  have e2 : (-(-(j : Int) + -55)).toNat = j + 55 := by omega
  rw [fifth_eq]
  simp only [F64.mul, e1, e2, pow_zero, mul_one, Bool.xor_false]

theorem ceil_toInt (conv : F64 → Int) (m j : Nat) (hm : m ≤ 2 ^ 53) :
    F64.toInt conv (F64.Ceil (F64.fin false m (-(j : Int)))) =
      (((m + (2 ^ j - 1)) / 2 ^ j : Nat) : Int) := by
  have e1 : (-(j : Int)).toNat = 0 := by omega
  have e2 : (-(-(j : Int))).toNat = j := by omega
  have hle : (m + (2 ^ j - 1)) / 2 ^ j ≤ m := by
    have hp : 0 < 2 ^ j := by positivity
    rcases Nat.eq_zero_or_pos m with h0 | h0
    · subst h0
      rw [Nat.zero_add, Nat.div_eq_of_lt (by omega)]
    · apply Nat.div_le_of_le_mul
      calc m + (2 ^ j - 1) ≤ m + (2 ^ j - 1) * m := by
            apply Nat.add_le_add_left
            exact Nat.le_mul_of_pos_right _ h0
        _ = 2 ^ j * m := by
            have : 2 ^ j = (2 ^ j - 1) + 1 := by omega
            conv_rhs => rw [this]
            ring
  have hr : -(2 ^ 63 : Int) ≤ (((m + (2 ^ j - 1)) / 2 ^ j : Nat) : Int) ∧
      (((m + (2 ^ j - 1)) / 2 ^ j : Nat) : Int) < 2 ^ 63 := by
    have ht : ((m + (2 ^ j - 1)) / 2 ^ j : Nat) ≤ 2 ^ 53 := le_trans hle hm
    generalize (m + (2 ^ j - 1)) / 2 ^ j = t at ht
    constructor <;> omega
  simp only [F64.Ceil, F64.toInt, e1, e2, pow_zero, mul_one, Int.toNat_zero, Nat.div_one,
    Bool.false_eq_true, if_false, neg_zero]
  rw [if_pos hr]

/-- The points of one item: `int(math.Ceil(priceFloat * 0.2))` is the exact ceiling of a
fifth of the price, for prices below `2 ^ 47`. -/
theorem item_points (conv : F64 → Int) {price : String}
    (h : ValidatePriceFormat price = true) (hb : priceCents price < 100 * 2 ^ 47) :
    F64.toInt conv (F64.Ceil (F64.mul (ParseFloat price).1 F64.fifth)) =
      (((priceCents price + 499) / 500 : Nat) : Int) := by
  rw [parseFloat_price h]
  rcases Nat.eq_zero_or_pos (priceCents price) with h0 | h0
  · rw [h0, roundNearestEven_zero, parseResult_fin]
    have : F64.mul (F64.fin false 0 0) F64.fifth = F64.fin false 0 0 := by
      rw [show (0 : Int) = -((0 : Nat) : Int) from rfl, mul_fifth]
      simp [roundNearestEven]
    simp only [this]
    rfl
  · obtain ⟨j, e, hj, hj2, b1, b2⟩ := round_price _ h0 hb
    rw [e, parseResult_fin]
    simp only [mul_fifth]
    have hm1 : 2 ^ 52 ≤ divRoundHalfEven (priceCents price * 2 ^ j) 100 :=
      divRoundHalfEven_ge (by norm_num) (by omega)
    have hm2 : divRoundHalfEven (priceCents price * 2 ^ j) 100 ≤ 2 ^ 53 :=
      divRoundHalfEven_le (by norm_num) (by omega)
    have hd2 : 2 ^ (j + 55) = 2 ^ j * 2 ^ 55 := pow_add 2 j 55
    have hP1 : 2 ^ 6 ≤ 2 ^ j := Nat.pow_le_pow_right (by norm_num) hj
    have hP2 : 2 ^ j ≤ 2 ^ 59 := Nat.pow_le_pow_right (by norm_num) hj2
    obtain ⟨j2, e2, c1, c2, _, _⟩ := roundNearestEven_fin false
      (divRoundHalfEven (priceCents price * 2 ^ j) 100 * 7205759403792794) (2 ^ (j + 55))
      (by omega) (by positivity)
      (by
        have h1 : divRoundHalfEven (priceCents price * 2 ^ j) 100 * 7205759403792794 ≤
            2 ^ 53 * 7205759403792794 := Nat.mul_le_mul_right _ hm2
        have h2 : 2 ^ 6 * 2 ^ 55 * 2 ^ 52 ≤ 2 ^ j * 2 ^ 55 * 2 ^ 52 :=
          Nat.mul_le_mul_right _ (Nat.mul_le_mul_right _ hP1)
        rw [hd2]
        omega)
      (pow_le_mul_pow (by omega) (by omega))
    rw [e2]
    have hm3 : divRoundHalfEven
        (divRoundHalfEven (priceCents price * 2 ^ j) 100 * 7205759403792794 * 2 ^ j2)
        (2 ^ (j + 55)) ≤ 2 ^ 53 :=
      divRoundHalfEven_le (by positivity) (by rw [Nat.mul_comm (2 ^ 53)]; exact c2.le)
    rw [ceil_toInt conv _ j2 hm3, fifth_ceil_arith _ j j2 hj b1 b2 c1 c2]

/-! ### The item description rule -/

theorem classDescription_ascii {c : Char} (h : classDescription.mem c = true) : utf8Len c = 1 := by
  simp only [CharClass.mem, classDescription, classWord, classSpace, List.cons_append,
    List.nil_append, List.any_cons, List.any_nil, Bool.or_false, Bool.or_eq_true,
    Bool.and_eq_true, decide_eq_true_eq] at h
  unfold utf8Len
  rw [if_pos (by omega)]

theorem mem_of_mem_TrimSpace {s : List Char} {c : Char} (h : c ∈ TrimSpace s) : c ∈ s := by
  unfold TrimSpace at h
  rw [List.mem_reverse] at h
  have h1 := (List.dropWhile_sublist unicodeIsSpace).subset h
  rw [List.mem_reverse] at h1
  exact (List.dropWhile_sublist unicodeIsSpace).subset h1

theorem goLen_eq_length {s : List Char} (h : ∀ c ∈ s, utf8Len c = 1) : goLen s = s.length := by
  induction s with
  | nil => rfl
  | cons a t ih =>
    have h1 := h a (List.mem_cons_self a t)
    have h2 := ih (fun c hc => h c (List.mem_cons_of_mem a hc))
    unfold goLen at h2 ⊢
    simp only [List.map_cons, List.sum_cons, List.length_cons, h1, h2]
    omega

/-- For a description that passes the format, the byte length of the trimmed description is
its character length. -/
theorem goLen_trimmed {s : String} (h : ValidateDescriptionFormat s = true) :
    goLen (TrimSpace s.data) = trimmedLength s := by
  unfold ValidateDescriptionFormat at h
  rw [matchString_iff] at h
  unfold descriptionPattern at h
  rw [matches_plus_cls_iff] at h
  exact goLen_eq_length fun c hc => classDescription_ascii (h.2 c (mem_of_mem_TrimSpace hc))

theorem wrapInt64_add_left (a b : Int) : wrapInt64 (wrapInt64 a + b) = wrapInt64 (a + b) := by
  unfold wrapInt64
  omega

theorem wrapInt64_of_range {z : Int} (h1 : -(2 ^ 63) ≤ z) (h2 : z < 2 ^ 63) :
    wrapInt64 z = z := by
  unfold wrapInt64
  omega

theorem foldl_wrap_seven {α : Type} (f : α → Int) (a b c d e g h : α) :
    List.foldl (fun t r => wrapInt64 (t + f r)) 0 [a, b, c, d, e, g, h] =
      wrapInt64 (f a + f b + f c + f d + f e + f g + f h) := by
  simp only [List.foldl_cons, List.foldl_nil, wrapInt64_add_left, zero_add]

/-- The accumulation loop of `ItemDescriptionRule.Calculate` adds the points of the items in
Go `int` arithmetic. -/
theorem foldl_item_points (step : Int → Item → Int) (pts : Item → Nat) (items : List Item)
    (h : ∀ item ∈ items, ∀ acc : Int, step (wrapInt64 acc) item = wrapInt64 (acc + pts item)) :
    ∀ acc : Int, items.foldl step (wrapInt64 acc) =
      wrapInt64 (acc + ((items.map pts).sum : Nat)) := by
  induction items with
  | nil => intro acc; simp
  | cons it rest ih =>
    intro acc
    have h1 := h it (List.mem_cons_self it rest) acc
    have h2 := ih (fun item hi => h item (List.mem_cons_of_mem it hi)) (acc + pts it)
    rw [List.foldl_cons, h1, h2]
    simp only [List.map_cons, List.sum_cons, Nat.cast_add]
    congr 1
    ring

theorem itemDescription_eq (conv : F64 → Int) (receipt : Receipt)
    (h : ∀ item ∈ receipt.Items, ValidateDescriptionFormat item.ShortDescription = true ∧
      ValidatePriceFormat item.Price = true ∧ priceCents item.Price < 14073748835532800) :
    ItemDescriptionRule.Calculate conv receipt =
      wrapInt64 (((receipt.Items.map exactItemPoints).sum : Nat) : Int) := by
  have h0 : (0 : Int) = wrapInt64 0 := by decide
  unfold ItemDescriptionRule.Calculate
  rw [h0, foldl_item_points _ exactItemPoints receipt.Items ?_ 0, zero_add]
  intro item hi acc
  obtain ⟨hd, hp, hb⟩ := h item hi
  simp only [goLen_trimmed hd, exactItemPoints]
  split
  · rw [wrapInt64_add_left, item_points conv hp (by norm_num at hb ⊢; exact hb)]
  · simp

theorem ceil_fifth_eq (n : Nat) : (((n + 499) / 500 : Nat) : Int) = ⌈(n : ℚ) / 100 * (2 / 10)⌉ := by
  symm
  rw [Int.ceil_eq_iff]
  have h1 : 500 * ((n + 499) / 500) ≤ n + 499 := Nat.mul_div_le _ _
  have h2 : n + 499 < 500 * ((n + 499) / 500) + 500 := by
    have h3 := Nat.div_add_mod (n + 499) 500
    have h4 := Nat.mod_lt (n + 499) (by norm_num : 0 < 500)
    omega
  generalize (n + 499) / 500 = q at *
  have e : (n : ℚ) / 100 * (2 / 10) = (n : ℚ) / 500 := by ring
  rw [e]
  constructor
  · rw [lt_div_iff₀ (by norm_num)]
    have : (500 * q : ℚ) < n + 500 := by exact_mod_cast (by omega : 500 * q < n + 500)
    push_cast
    linarith
  · rw [div_le_iff₀ (by norm_num)]
    have : (n : ℚ) ≤ 500 * q := by exact_mod_cast (by omega : n ≤ 500 * q)
    push_cast
    linarith

/-! ### Parsing of dates and times -/

theorem getnum_fixed_some {s : List Char} {n : Nat} {rest : List Char}
    (h : getnum s true = some (n, rest)) :
    ∃ c d, s = c :: d :: rest ∧ isDigitChar c = true ∧ isDigitChar d = true ∧
      n = digitVal c * 10 + digitVal d := by
  match s with
  | [] => simp [getnum] at h
  | [c] => simp [getnum] at h
  | c :: d :: t =>
    simp only [getnum] at h
    split at h
    · split at h
      · simp at h
        exact ⟨c, d, by simp [h.2], by assumption, by assumption, h.1.symm⟩
      · simp at h
    · simp at h

theorem getnum_free_some {s : List Char} {n : Nat} {rest : List Char}
    (h : getnum s false = some (n, rest)) :
    (∃ c d, s = c :: d :: rest ∧ isDigitChar c = true ∧ isDigitChar d = true ∧
      n = digitVal c * 10 + digitVal d) ∨
    (∃ c, s = c :: rest ∧ isDigitChar c = true ∧ n = digitVal c ∧
      ∀ d t, rest = d :: t → isDigitChar d = false) := by
  match s with
  | [] => simp [getnum] at h
  | [c] =>
    simp only [getnum] at h
    split at h
    · simp at h
      exact Or.inr ⟨c, by simp [h.2], by assumption, h.1.symm,
        by intro d t hr; rw [h.2] at hr; simp at hr⟩
    · simp at h
  | c :: d :: t =>
    simp only [getnum] at h
    split at h
    · split at h
      · simp at h
        exact Or.inl ⟨c, d, by simp [h.2], by assumption, by assumption, h.1.symm⟩
      · simp at h
        refine Or.inr ⟨c, by simp [h.2], by assumption, h.1.symm, ?_⟩
        intro d1 t1 hr
        rw [← h.2] at hr
        simp at hr
        rw [← hr.1]
        simpa using ‹¬ isDigitChar d = true›
    · simp at h

theorem skipChar_some {lit : Char} {s rest : List Char} (h : skipChar lit s = some rest) :
    s = lit :: rest := by
  match s with
  | [] => simp [skipChar] at h
  | c :: t =>
    simp only [skipChar] at h
    split at h
    · simp at h; simp [*]
    · simp at h

theorem parseClock_some {s : List Char} {hour min : Nat}
    (h : parseClock s = some (hour, min)) :
    ∃ hd m1 m2, s = hd ++ [':', m1, m2] ∧ isDigitChar m1 = true ∧ isDigitChar m2 = true ∧
      min = digitVal m1 * 10 + digitVal m2 ∧ min < 60 ∧ hour < 24 ∧
      ((∃ h1 h2, hd = [h1, h2] ∧ isDigitChar h1 = true ∧ isDigitChar h2 = true ∧
          hour = digitVal h1 * 10 + digitVal h2) ∨
       (∃ h1, hd = [h1] ∧ isDigitChar h1 = true ∧ hour = digitVal h1)) := by
  simp only [parseClock] at h
  split at h
  · simp at h
  · rename_i hr rest1 hg
    split at h
    · simp at h
    · split at h
      · simp at h
      · rename_i rest2 hs
        split at h
        · simp at h
        · rename_i mn rest3 hg2
          split at h
          · simp at h
          · split at h
            · simp at h
            · rename_i hlt hne
              simp at h hne
              obtain ⟨m1, m2, h1, hm1, hm2, hmn⟩ := getnum_fixed_some hg2
              have h2 := skipChar_some hs
              subst hne
              obtain ⟨rfl, rfl⟩ := h
              subst h1 h2
              rcases getnum_free_some hg with ⟨a, b, e, ha, hb, hv⟩ | ⟨a, e, ha, hv, _⟩
              · exact ⟨[a, b], m1, m2, by simp [e], hm1, hm2, hmn, by omega, by omega,
                  Or.inl ⟨a, b, rfl, ha, hb, hv⟩⟩
              · exact ⟨[a], m1, m2, by simp [e], hm1, hm2, hmn, by omega, by omega,
                  Or.inr ⟨a, rfl, ha, hv⟩⟩

theorem parseDate_some {s : List Char} {year month day : Nat}
    (h : parseDate s = some (year, month, day)) :
    ∃ y1 y2 y3 y4 m1 m2 d1 d2, s = [y1, y2, y3, y4, '-', m1, m2, '-', d1, d2] ∧
      isDigitChar y1 = true ∧ isDigitChar y2 = true ∧ isDigitChar y3 = true ∧
      isDigitChar y4 = true ∧ isDigitChar m1 = true ∧ isDigitChar m2 = true ∧
      isDigitChar d1 = true ∧ isDigitChar d2 = true ∧
      year = ((digitVal y1 * 10 + digitVal y2) * 10 + digitVal y3) * 10 + digitVal y4 ∧
      month = digitVal m1 * 10 + digitVal m2 ∧ day = digitVal d1 * 10 + digitVal d2 ∧
      1 ≤ month ∧ month ≤ 12 ∧ 1 ≤ day ∧ day ≤ daysIn month year := by
  simp only [parseDate] at h
  split at h
  · rename_i y1 y2 y3 y4 rest
    split at h
    · rename_i hy
      simp only [Bool.and_eq_true] at hy
      split at h
      · simp at h
      · rename_i rest1 hs1
        split at h
        · simp at h
        · rename_i mo rest2 hg1
          split at h
          · simp at h
          · rename_i hmo
            split at h
            · simp at h
            · rename_i rest3 hs2
              split at h
              · simp at h
              · rename_i dy rest4 hg2
                split at h
                · simp at h
                · split at h
                  · simp at h
                  · rename_i hne hdy
                    simp at h hne
                    obtain ⟨rfl, rfl, rfl⟩ := h
                    subst hne
                    obtain ⟨m1, m2, e1, hm1, hm2, hmv⟩ := getnum_fixed_some hg1
                    obtain ⟨d1, d2, e2, hd1, hd2, hdv⟩ := getnum_fixed_some hg2
                    have e3 := skipChar_some hs1
                    have e4 := skipChar_some hs2
                    subst e2 e4 e1 e3
                    exact ⟨y1, y2, y3, y4, m1, m2, d1, d2, rfl, hy.1.1.1, hy.1.1.2, hy.1.2,
                      hy.2, hm1, hm2, hd1, hd2, rfl, hmv, hdv, by omega, by omega, by omega,
                      by omega⟩
    · simp at h
  · simp at h

/-! ### The claims -/

set_option maxRecDepth 100000 in
/-- C1, as stated, fails: the receipt of scenario A with the items `abc` of prices
`46116860184273873920.00` and `5100.00` passes the validation of `processReceipt` (status
200); on every platform the seven rules return 6, 0, 0, 5, 9223372036854775804, 6 and 0,
whose sum is 9223372036854775821, and `CalculatePoints` returns -9223372036854775795: the
additions of Go `int` wrap at `2 ^ 63`. -/
theorem C1_sum_overflow_counterexample :
    (processReceipt [] "id" receiptNearLimit).1 = 200 ∧
      ∀ conv : F64 → Int,
        RetailerNameRule.Calculate receiptNearLimit = 6 ∧
        RoundDollarRule.Calculate receiptNearLimit = 0 ∧
        MultipleOfQuarterRule.Calculate receiptNearLimit = 0 ∧
        ItemPairRule.Calculate receiptNearLimit = 5 ∧
        ItemDescriptionRule.Calculate conv receiptNearLimit = 9223372036854775804 ∧
        OddPurchaseDayRule.Calculate receiptNearLimit = 6 ∧
        TimeRangeRule.Calculate receiptNearLimit = 0 ∧
        sumOfRules conv receiptNearLimit = 9223372036854775821 ∧
        NewRulesEngine.CalculatePoints conv receiptNearLimit = -9223372036854775795 ∧
        NewRulesEngine.CalculatePoints conv receiptNearLimit ≠
          sumOfRules conv receiptNearLimit := by
  refine ⟨by decide, fun conv => ?_⟩
  have h1 : sumOfRules conv receiptNearLimit = 9223372036854775821 := rfl
  have h2 : NewRulesEngine.CalculatePoints conv receiptNearLimit = -9223372036854775795 := rfl
  refine ⟨rfl, rfl, rfl, rfl, rfl, rfl, rfl, h1, h2, ?_⟩
  rw [h1, h2]
  decide

/-- C1, amended: `CalculatePoints` on the engine of `NewRulesEngine` returns the sum of the
seven rule contributions, each computed on the same receipt, and nothing else, reduced to
the 64 bits of Go `int`; it is exactly the sum whenever the sum lies in the range of `int`,
from `-2 ^ 63` to `2 ^ 63 - 1`. -/
theorem C1_calculatePoints_is_sum_of_rules (conv : F64 → Int) (receipt : Receipt) :
    NewRulesEngine.rules = [Rule.RetailerNameRule, Rule.RoundDollarRule,
      Rule.MultipleOfQuarterRule, Rule.ItemPairRule, Rule.ItemDescriptionRule,
      Rule.OddPurchaseDayRule, Rule.TimeRangeRule] ∧
    NewRulesEngine.CalculatePoints conv receipt = wrapInt64 (sumOfRules conv receipt) ∧
    (-(2 ^ 63) ≤ sumOfRules conv receipt ∧ sumOfRules conv receipt < 2 ^ 63 →
      NewRulesEngine.CalculatePoints conv receipt = sumOfRules conv receipt) := by
  have h : NewRulesEngine.CalculatePoints conv receipt = wrapInt64 (sumOfRules conv receipt) :=
    foldl_wrap_seven (fun rule => Rule.Calculate conv rule receipt) Rule.RetailerNameRule
      Rule.RoundDollarRule Rule.MultipleOfQuarterRule Rule.ItemPairRule Rule.ItemDescriptionRule
      Rule.OddPurchaseDayRule Rule.TimeRangeRule
  exact ⟨rfl, h, fun hr => by rw [h, wrapInt64_of_range hr.1 hr.2]⟩

set_option maxRecDepth 100000 in
/-- C2: end-to-end scenario A scores exactly 28 points and passes the validation of
`processReceipt` (status 200, the receipt is stored). -/
theorem C2_scenarioA_scores_28 (conv : F64 → Int) (receipts : List (String × Receipt))
    (id : String) :
    NewRulesEngine.CalculatePoints conv scenarioA = 28 ∧
      (processReceipt receipts id scenarioA).1 = 200 ∧
      (id, scenarioA) ∈ (processReceipt receipts id scenarioA).2 := by
  refine ⟨rfl, rfl, ?_⟩
  have h : (processReceipt receipts id scenarioA).2 =
      (id, scenarioA) :: receipts.filter fun entry => entry.1 != id := rfl
  rw [h]
  exact List.mem_cons_self _ _

set_option maxRecDepth 100000 in
/-- C3, as stated, fails: on the receipt of scenario B the engine does not return 109, whatever
the platform. -/
theorem C3_scenarioB_is_not_109 :
    ¬ ∃ conv : F64 → Int, NewRulesEngine.CalculatePoints conv scenarioB = 109 := by
  rintro ⟨conv, h⟩
  have h99 : NewRulesEngine.CalculatePoints conv scenarioB = 99 := rfl
  rw [h99] at h
  exact absurd h (by decide)

set_option maxRecDepth 100000 in
/-- C3, amended: end-to-end scenario B scores exactly 99 points: 14 for the retailer name, 50
for the round total, 25 for the multiple of a quarter, 10 for the time, and nothing for the
single item and the even day. -/
theorem C3_scenarioB_scores_99 (conv : F64 → Int) :
    NewRulesEngine.CalculatePoints conv scenarioB = 99 ∧
      NewRulesEngine.rules.map (fun rule => rule.Calculate conv scenarioB) =
        [14, 50, 25, 0, 0, 0, 10] := by
  exact ⟨rfl, rfl⟩

theorem digit_char {c : Char} (h : isDigitChar c = true) {k : Nat} (hv : digitVal c = k) :
    c = Char.ofNat (48 + k) := by
  simp only [isDigitChar, Bool.and_eq_true, decide_eq_true_eq] at h
  unfold digitVal at hv
  exact char_of_toNat (by omega)

theorem digitVal_le {c : Char} (h : isDigitChar c = true) : digitVal c ≤ 9 := by
  simp only [isDigitChar, Bool.and_eq_true, decide_eq_true_eq] at h
  unfold digitVal
  omega

/-- The shape of a string that passes the price format, with its cents and its fractional
digits. -/
theorem price_shape {s : String} (h : ValidatePriceFormat s = true) :
    ∃ (whole : Nat) (a b : Char), isDigitChar a = true ∧ isDigitChar b = true ∧
      priceCents s = whole * 100 + digitVal a * 10 + digitVal b ∧ fractionDigits s = [a, b] := by
  obtain ⟨ds, a, b, hs, _, hd, ha, hb⟩ := (validatePriceFormat_iff s).mp h
  refine ⟨decimalValue ds, a, b, ha, hb, priceCents_eq hs hd ha hb, ?_⟩
  simp [fractionDigits, hs]

theorem fraction_zero_iff {s : String} (h : ValidatePriceFormat s = true) :
    fractionDigits s = ['0', '0'] ↔ priceCents s % 100 = 0 := by
  obtain ⟨w, a, b, ha, hb, hc, hf⟩ := price_shape h
  have la := digitVal_le ha
  have lb := digitVal_le hb
  rw [hf, hc]
  constructor
  · intro e
    simp only [List.cons.injEq, and_true] at e
    have e1 : digitVal a = 0 := by rw [e.1]; decide
    have e2 : digitVal b = 0 := by rw [e.2]; decide
    omega
  · intro e
    have e1 : digitVal a = 0 := by omega
    have e2 : digitVal b = 0 := by omega
    rw [digit_char ha e1, digit_char hb e2]

theorem fraction_quarter_iff {s : String} (h : ValidatePriceFormat s = true) :
    fractionDigits s ∈ [['0', '0'], ['2', '5'], ['5', '0'], ['7', '5']] ↔
      priceCents s % 25 = 0 := by
  obtain ⟨w, a, b, ha, hb, hc, hf⟩ := price_shape h
  have la := digitVal_le ha
  have lb := digitVal_le hb
  rw [hf, hc]
  constructor
  · intro e
    simp only [List.mem_cons, List.cons.injEq, and_true, List.mem_singleton,
      List.not_mem_nil, or_false] at e
    rcases e with ⟨x, y⟩ | ⟨x, y⟩ | ⟨x, y⟩ | ⟨x, y⟩
    · have e1 : digitVal a = 0 := by rw [x]; decide
      have e2 : digitVal b = 0 := by rw [y]; decide
      omega
    · have e1 : digitVal a = 2 := by rw [x]; decide
      have e2 : digitVal b = 5 := by rw [y]; decide
      omega
    · have e1 : digitVal a = 5 := by rw [x]; decide
      have e2 : digitVal b = 0 := by rw [y]; decide
      omega
    · have e1 : digitVal a = 7 := by rw [x]; decide
      have e2 : digitVal b = 5 := by rw [y]; decide
      omega
  · intro e
    have hcases : (digitVal a = 0 ∧ digitVal b = 0) ∨ (digitVal a = 2 ∧ digitVal b = 5) ∨
        (digitVal a = 5 ∧ digitVal b = 0) ∨ (digitVal a = 7 ∧ digitVal b = 5) := by
      have e1 : (digitVal a * 10 + digitVal b) % 25 = 0 := by omega
      generalize digitVal a = x at la e1 ⊢
      generalize digitVal b = y at lb e1 ⊢
      interval_cases x <;> interval_cases y <;> omega
    rcases hcases with ⟨x, y⟩ | ⟨x, y⟩ | ⟨x, y⟩ | ⟨x, y⟩ <;>
    · rw [digit_char ha x, digit_char hb y]
      decide

theorem exactPrice_whole_iff (s : String) :
    (∃ k : Nat, exactPrice s = k) ↔ priceCents s % 100 = 0 := by
  unfold exactPrice
  constructor
  · rintro ⟨k, hk⟩
    rw [div_eq_iff (by norm_num)] at hk
    have : priceCents s = k * 100 := by exact_mod_cast hk
    omega
  · intro h
    obtain ⟨k, hk⟩ := Nat.dvd_of_mod_eq_zero h
    refine ⟨k, ?_⟩
    rw [hk, div_eq_iff (by norm_num)]
    push_cast
    ring

theorem exactPrice_quarter_iff (s : String) :
    (∃ k : Nat, exactPrice s = k * (1 / 4)) ↔ priceCents s % 25 = 0 := by
  unfold exactPrice
  constructor
  · rintro ⟨k, hk⟩
    rw [div_eq_iff (by norm_num)] at hk
    have h1 : (priceCents s : ℚ) = k * 25 := by rw [hk]; ring
    have : priceCents s = k * 25 := by exact_mod_cast h1
    omega
  · intro h
    obtain ⟨k, hk⟩ := Nat.dvd_of_mod_eq_zero h
    refine ⟨k, ?_⟩
    rw [hk, div_eq_iff (by norm_num)]
    push_cast
    ring

set_option maxRecDepth 100000 in
/-- C6, as stated, fails: the item `abc` of price `140737488355330.01` passes both format
validators, the length of its description is divisible by 3, the exact ceiling of a fifth of
its price is 28147497671067, and `ItemDescriptionRule.Calculate` returns 28147497671066 on
every platform: the `float64` nearest to the price is the whole number of dollars. -/
theorem C6_large_price_counterexample :
    ValidateDescriptionFormat "abc" = true ∧
      ValidatePriceFormat "140737488355330.01" = true ∧
      exactItemPoints { ShortDescription := "abc", Price := "140737488355330.01" } =
        28147497671067 ∧
      ∀ conv : F64 → Int,
        ItemDescriptionRule.Calculate conv (oneItemReceipt "140737488355330.01") =
          28147497671066 := by
  refine ⟨by decide, by decide, by decide, ?_⟩
  intro conv
  rfl

/-- C6, amended: for every receipt whose items all pass the description and price format
validators and have a price below `2 ^ 47 = 140737488355328` dollars (14073748835532800
cents), `ItemDescriptionRule.Calculate` returns the sum, in Go `int` arithmetic, over the
items whose trimmed description has a character length divisible by 3, of
`ceil(price * 0.2) = ceil(cents / 500)` for the exact decimal price; the other items add 0.
The result is the mathematical sum whenever that is below `2 ^ 63`. -/
theorem C6_item_description_below_2_pow_47 (conv : F64 → Int) (receipt : Receipt)
    (h : ∀ item ∈ receipt.Items, ValidateDescriptionFormat item.ShortDescription = true ∧
      ValidatePriceFormat item.Price = true ∧ priceCents item.Price < 14073748835532800) :
    ItemDescriptionRule.Calculate conv receipt =
      wrapInt64 (((receipt.Items.map exactItemPoints).sum : Nat) : Int) ∧
    ((receipt.Items.map exactItemPoints).sum < 2 ^ 63 →
      ItemDescriptionRule.Calculate conv receipt =
        (((receipt.Items.map exactItemPoints).sum : Nat) : Int)) ∧
    (∀ item : Item, (exactItemPoints item : Int) =
      if trimmedLength item.ShortDescription % 3 = 0 then
        ⌈exactPrice item.Price * (2 / 10)⌉
      else 0) := by
  have h1 := itemDescription_eq conv receipt h
  refine ⟨h1, ?_, ?_⟩
  · intro hs
    rw [h1]
    apply wrapInt64_of_range
    · have : (0 : Int) ≤ (((receipt.Items.map exactItemPoints).sum : Nat) : Int) :=
        Int.natCast_nonneg _
      omega
    · exact_mod_cast hs
  · intro item
    unfold exactItemPoints exactPrice
    split
    · exact ceil_fifth_eq _
    · rfl

set_option maxRecDepth 100000 in
/-- C6, amended, at the item `abc` of price `3.00`: it adds 1. -/
theorem C6_witness :
    (ItemDescriptionRule.Calculate convAmd64 (oneItemReceipt "3.00") =
      wrapInt64 ((((oneItemReceipt "3.00").Items.map exactItemPoints).sum : Nat) : Int) ∧
    (((oneItemReceipt "3.00").Items.map exactItemPoints).sum < 2 ^ 63 →
      ItemDescriptionRule.Calculate convAmd64 (oneItemReceipt "3.00") =
        ((((oneItemReceipt "3.00").Items.map exactItemPoints).sum : Nat) : Int)) ∧
    (∀ item : Item, (exactItemPoints item : Int) =
      if trimmedLength item.ShortDescription % 3 = 0 then
        ⌈exactPrice item.Price * (2 / 10)⌉
      else 0)) ∧
    ItemDescriptionRule.Calculate convAmd64 (oneItemReceipt "3.00") = 1 :=
  ⟨C6_item_description_below_2_pow_47 convAmd64 (oneItemReceipt "3.00") (by decide), by decide⟩

theorem classAlnum_mem (c : Char) : classAlnum.mem c = isAsciiAlnum c := by
  have a1 : (c.val ≥ 65) ↔ 65 ≤ c.toNat := Iff.rfl
  have a2 : (c.val ≤ 90) ↔ c.toNat ≤ 90 := Iff.rfl
  have a3 : (c.val ≥ 97) ↔ 97 ≤ c.toNat := Iff.rfl
  have a4 : (c.val ≤ 122) ↔ c.toNat ≤ 122 := Iff.rfl
  have a5 : (c.val ≥ 48) ↔ 48 ≤ c.toNat := Iff.rfl
  have a6 : (c.val ≤ 57) ↔ c.toNat ≤ 57 := Iff.rfl
  rw [Bool.eq_iff_iff]
  simp only [CharClass.mem, classAlnum, isAsciiAlnum, Char.isAlpha, Char.isUpper, Char.isLower,
    Char.isDigit, List.any_cons, List.any_nil, Bool.or_false, Bool.or_eq_true,
    Bool.and_eq_true, decide_eq_true_eq, a1, a2, a3, a4, a5, a6]
  omega

set_option maxRecDepth 100000 in
/-- C7: `RetailerNameRule.Calculate` returns the number of characters of the retailer that
are ASCII letters or ASCII digits; white space, `&`, `-` and `_` are not counted; `Target`
gives 6 and `M&M Corner Market` gives 14. -/
theorem C7_retailer_counts_ascii_alphanumerics (receipt : Receipt) :
    RetailerNameRule.Calculate receipt =
      ((receipt.Retailer.data.countP isAsciiAlnum : Nat) : Int) ∧
    (∀ c : Char, unicodeIsSpace c = true ∨ c = '&' ∨ c = '-' ∨ c = '_' →
      isAsciiAlnum c = false) ∧
    RetailerNameRule.Calculate (withRetailer "Target") = 6 ∧
    RetailerNameRule.Calculate (withRetailer "M&M Corner Market") = 14 := by
  refine ⟨?_, ?_, by decide, by decide⟩
  · have hf : classAlnum.mem = isAsciiAlnum := funext classAlnum_mem
    simp only [RetailerNameRule.Calculate, FindAllString, List.length_map,
      List.countP_eq_length_filter, hf]
  · intro c hc
    rw [← classAlnum_mem]
    rcases hc with h | h | h | h
    · simp only [unicodeIsSpace, Bool.or_eq_true, Bool.and_eq_true, decide_eq_true_eq,
        beq_iff_eq] at h
      rw [Bool.eq_false_iff]
      simp only [CharClass.mem, classAlnum, List.any_cons, List.any_nil, Bool.or_false,
        ne_eq, Bool.or_eq_true, Bool.and_eq_true, decide_eq_true_eq]
      omega
    · subst h; decide
    · subst h; decide
    · subst h; decide

/-- C8: `ItemPairRule.Calculate` returns `floor(n / 2) * 5` for a receipt with `n` items: 0
for zero or one item, 5 for two or three, 10 for four or five; the result depends only on
the number of items. -/
theorem C8_item_pair_is_floor_half_times_five (receipt : Receipt) :
    ItemPairRule.Calculate receipt = ⌊(receipt.Items.length : ℚ) / 2⌋ * 5 ∧
    (receipt.Items.length = 0 ∨ receipt.Items.length = 1 →
      ItemPairRule.Calculate receipt = 0) ∧
    (receipt.Items.length = 2 ∨ receipt.Items.length = 3 →
      ItemPairRule.Calculate receipt = 5) ∧
    (receipt.Items.length = 4 ∨ receipt.Items.length = 5 →
      ItemPairRule.Calculate receipt = 10) ∧
    (∀ other : Receipt, other.Items.length = receipt.Items.length →
      ItemPairRule.Calculate other = ItemPairRule.Calculate receipt) := by
  refine ⟨?_, ?_, ?_, ?_, ?_⟩
  · unfold ItemPairRule.Calculate
    have h : ⌊(receipt.Items.length : ℚ) / 2⌋ = ((receipt.Items.length / 2 : Nat) : Int) := by
      have := Rat.floor_intCast_div_natCast (receipt.Items.length : Int) 2
      simp only [Int.cast_natCast, Nat.cast_ofNat] at this
      rw [this]
      norm_cast
    rw [h]
  · unfold ItemPairRule.Calculate; rintro (h | h) <;> rw [h] <;> rfl
  · unfold ItemPairRule.Calculate; rintro (h | h) <;> rw [h] <;> rfl
  · unfold ItemPairRule.Calculate; rintro (h | h) <;> rw [h] <;> rfl
  · intro other h
    unfold ItemPairRule.Calculate
    rw [h]

theorem lastTwoDigits_append (pre : List Char) (d1 d2 : Char) :
    lastTwoDigits (pre ++ [d1, d2]) = digitVal d1 * 10 + digitVal d2 := by
  simp [lastTwoDigits]

theorem oddDay_eq (r : Receipt) (hr : ValidateDateFormat r.PurchaseDate = true) :
    OddPurchaseDayRule.Calculate r =
      (if lastTwoDigits r.PurchaseDate.data % 2 = 1 then 6 else 0) := by
  unfold ValidateDateFormat at hr
  rw [Option.isSome_iff_exists] at hr
  obtain ⟨⟨y, m, d⟩, hp⟩ := hr
  obtain ⟨y1, y2, y3, y4, m1, m2, d1, d2, hs, -, -, -, -, -, -, -, -, -, -, hd, -⟩ :=
    parseDate_some hp
  have hl : lastTwoDigits r.PurchaseDate.data = d := by
    rw [hs, hd]
    exact lastTwoDigits_append [y1, y2, y3, y4, '-', m1, m2, '-'] d1 d2
  unfold OddPurchaseDayRule.Calculate
  rw [hp, hl]
  simp only [ne_eq, Nat.mod_two_ne_zero]

/-- C9: for every purchase date that passes the date format validator,
`OddPurchaseDayRule.Calculate` returns 6 if the day of the month, the number formed by the
last two digits, is odd and 0 if it is even; two valid dates with the same day give the same
result, whatever their year and month. -/
theorem C9_odd_day_of_valid_date (receipt : Receipt)
    (h : ValidateDateFormat receipt.PurchaseDate = true) :
    OddPurchaseDayRule.Calculate receipt =
      (if lastTwoDigits receipt.PurchaseDate.data % 2 = 1 then 6 else 0) ∧
    (∀ other : Receipt, ValidateDateFormat other.PurchaseDate = true →
      lastTwoDigits other.PurchaseDate.data = lastTwoDigits receipt.PurchaseDate.data →
      OddPurchaseDayRule.Calculate other = OddPurchaseDayRule.Calculate receipt) := by
  refine ⟨oddDay_eq receipt h, ?_⟩
  intro other ho he
  rw [oddDay_eq receipt h, oddDay_eq other ho, he]

set_option maxRecDepth 100000 in
/-- C9 at the date `2022-01-01` of scenario A: the day 1 is odd and the rule gives 6. -/
theorem C9_witness :
    (OddPurchaseDayRule.Calculate scenarioA =
      (if lastTwoDigits scenarioA.PurchaseDate.data % 2 = 1 then 6 else 0) ∧
    (∀ other : Receipt, ValidateDateFormat other.PurchaseDate = true →
      lastTwoDigits other.PurchaseDate.data = lastTwoDigits scenarioA.PurchaseDate.data →
      OddPurchaseDayRule.Calculate other = OddPurchaseDayRule.Calculate scenarioA)) ∧
    OddPurchaseDayRule.Calculate scenarioA = 6 :=
  ⟨C9_odd_day_of_valid_date scenarioA (by decide), by decide⟩

theorem digit_ne_colon {c : Char} (h : isDigitChar c = true) : (c != ':') = true := by
  simp only [isDigitChar, Bool.and_eq_true, decide_eq_true_eq] at h
  simp only [bne_iff_ne, ne_eq]
  intro hc
  rw [hc] at h
  revert h
  decide

theorem hourComponent_two {h1 h2 m1 m2 : Char} (a : isDigitChar h1 = true)
    (b : isDigitChar h2 = true) :
    hourComponent ([h1, h2] ++ [':', m1, m2]) = digitVal h1 * 10 + digitVal h2 := by
  simp [hourComponent, decimalValue, List.takeWhile, digit_ne_colon a, digit_ne_colon b]

theorem hourComponent_one {h1 m1 m2 : Char} (a : isDigitChar h1 = true) :
    hourComponent ([h1] ++ [':', m1, m2]) = digitVal h1 := by
  simp [hourComponent, decimalValue, List.takeWhile, digit_ne_colon a]

theorem timeRange_eq (r : Receipt) (h : ValidateTimeFormat r.PurchaseTime = true) :
    TimeRangeRule.Calculate r = (if hourComponent r.PurchaseTime.data = 14 then 10 else 0) ∧
    (hourComponent r.PurchaseTime.data = 14 ↔
      ∃ m1 m2, r.PurchaseTime.data = ['1', '4', ':', m1, m2]) := by
  unfold ValidateTimeFormat at h
  rw [Option.isSome_iff_exists] at h
  obtain ⟨⟨hr, mn⟩, hp⟩ := h
  obtain ⟨hd, m1, m2, hs, dm1, dm2, -, -, -, hcase⟩ := parseClock_some hp
  unfold TimeRangeRule.Calculate
  rw [hp]
  rcases hcase with ⟨h1, h2, rfl, d1, d2, hv⟩ | ⟨h1, rfl, d1, hv⟩
  · have hc : hourComponent r.PurchaseTime.data = hr := by
      rw [hs, hv]; exact hourComponent_two d1 d2
    rw [hc]
    refine ⟨rfl, ?_⟩
    rw [hs]
    simp only [isDigitChar, Bool.and_eq_true, decide_eq_true_eq, digitVal] at d1 d2 hv
    constructor
    · intro h14
      have e1 : h1 = '1' := @char_of_toNat h1 49 (by omega)
      have e2 : h2 = '4' := @char_of_toNat h2 52 (by omega)
      exact ⟨m1, m2, by simp [e1, e2]⟩
    · rintro ⟨a, b, hab⟩
      simp at hab
      rw [hv, hab.1, hab.2.1]
      rfl
  · have hc : hourComponent r.PurchaseTime.data = hr := by
      rw [hs, hv]; exact hourComponent_one d1
    rw [hc]
    refine ⟨rfl, ?_⟩
    rw [hs]
    simp only [isDigitChar, Bool.and_eq_true, decide_eq_true_eq, digitVal] at d1 hv
    constructor
    · intro h14; omega
    · rintro ⟨a, b, hab⟩
      simp at hab

/-- C10: for every purchase time that passes the time format validator,
`TimeRangeRule.Calculate` returns 10 if and only if the hour component equals 14, that is
the time is written `14:MM`, and returns 0 for every other time. -/
theorem C10_time_range_is_hour_14 (receipt : Receipt)
    (h : ValidateTimeFormat receipt.PurchaseTime = true) :
    TimeRangeRule.Calculate receipt =
      (if hourComponent receipt.PurchaseTime.data = 14 then 10 else 0) ∧
    (TimeRangeRule.Calculate receipt = 10 ↔ hourComponent receipt.PurchaseTime.data = 14) ∧
    (TimeRangeRule.Calculate receipt = 10 ↔
      ∃ m1 m2, receipt.PurchaseTime.data = ['1', '4', ':', m1, m2]) ∧
    (TimeRangeRule.Calculate receipt = 10 ∨ TimeRangeRule.Calculate receipt = 0) := by
  obtain ⟨h1, h2⟩ := timeRange_eq receipt h
  have h3 : TimeRangeRule.Calculate receipt = 10 ↔
      hourComponent receipt.PurchaseTime.data = 14 := by
    rw [h1]
    split
    · rename_i hh
      exact ⟨fun _ => hh, fun _ => rfl⟩
    · rename_i hh
      exact ⟨fun he => absurd he (by decide), fun he => absurd he hh⟩
  refine ⟨h1, h3, h3.trans h2, ?_⟩
  rw [h1]
  split
  · exact Or.inl rfl
  · exact Or.inr rfl

set_option maxRecDepth 100000 in
/-- C10 at the times `14:00`, `14:59`, `13:59`, `15:00` and `15:59`: the first two give 10
and the others 0. -/
theorem C10_witness :
    (TimeRangeRule.Calculate (withTime "14:00") =
      (if hourComponent (withTime "14:00").PurchaseTime.data = 14 then 10 else 0) ∧
    (TimeRangeRule.Calculate (withTime "14:00") = 10 ↔
      hourComponent (withTime "14:00").PurchaseTime.data = 14) ∧
    (TimeRangeRule.Calculate (withTime "14:00") = 10 ↔
      ∃ m1 m2, (withTime "14:00").PurchaseTime.data = ['1', '4', ':', m1, m2]) ∧
    (TimeRangeRule.Calculate (withTime "14:00") = 10 ∨
      TimeRangeRule.Calculate (withTime "14:00") = 0)) ∧
    TimeRangeRule.Calculate (withTime "14:00") = 10 ∧
    TimeRangeRule.Calculate (withTime "14:59") = 10 ∧
    TimeRangeRule.Calculate (withTime "13:59") = 0 ∧
    TimeRangeRule.Calculate (withTime "15:00") = 0 ∧
    TimeRangeRule.Calculate (withTime "15:59") = 0 :=
  ⟨C10_time_range_is_hour_14 (withTime "14:00") (by decide), by decide, by decide, by decide,
    by decide, by decide⟩

theorem bne_empty_of_ne {s : String} (h : s ≠ "") : (s != "") = true := by
  simpa using h

theorem shouldBind_of_formats (receipt : Receipt)
    (h1 : ValidateRetailerFormat receipt.Retailer = true)
    (h2 : ValidateDateFormat receipt.PurchaseDate = true)
    (h3 : ValidateTimeFormat receipt.PurchaseTime = true)
    (h4 : 1 ≤ receipt.Items.length)
    (h5 : ValidatePriceFormat receipt.Total = true) : ShouldBindJSON receipt = true := by
  have e1 : receipt.Retailer ≠ "" := by
    intro h; rw [h] at h1; revert h1; decide
  have e2 : receipt.PurchaseDate ≠ "" := by
    intro h; rw [h] at h2; revert h2; decide
  have e3 : receipt.PurchaseTime ≠ "" := by
    intro h; rw [h] at h3; revert h3; decide
  have e5 : receipt.Total ≠ "" := by
    intro h; rw [h] at h5; revert h5; decide
  unfold ShouldBindJSON
  rw [bne_empty_of_ne e1, bne_empty_of_ne e2, bne_empty_of_ne e3, bne_empty_of_ne e5]
  simpa using h4

theorem processReceipt_status (receipts : List (String × Receipt)) (id : String)
    (receipt : Receipt) :
    (processReceipt receipts id receipt).1 = 200 ↔
      (ShouldBindJSON receipt = true ∧ ValidateStructReceipt receipt = true ∧
        receipt.Items.all ValidateStructItem = true) := by
  unfold processReceipt
  cases hb : ShouldBindJSON receipt <;> cases hv : ValidateStructReceipt receipt <;>
    cases hi : receipt.Items.all ValidateStructItem <;> simp

/-- C12: `processReceipt` answers 200 exactly when the retailer, the purchase date, the
purchase time and the total pass their formats, there is at least one item, and the
description and the price of every item pass their formats; otherwise it answers 400 and
leaves the store as it was, and on 200 the receipt is stored under the new identifier.  A
receipt with total `10` and a receipt without items are answered 400. -/
theorem C12_receipt_accepted_iff_all_formats_hold (receipts : List (String × Receipt))
    (id : String) (receipt : Receipt) :
    ((processReceipt receipts id receipt).1 = 200 ↔
      (ValidateRetailerFormat receipt.Retailer = true ∧
        ValidateDateFormat receipt.PurchaseDate = true ∧
        ValidateTimeFormat receipt.PurchaseTime = true ∧
        1 ≤ receipt.Items.length ∧
        ValidatePriceFormat receipt.Total = true ∧
        ∀ item ∈ receipt.Items,
          ValidateDescriptionFormat item.ShortDescription = true ∧
            ValidatePriceFormat item.Price = true)) ∧
    ((processReceipt receipts id receipt).1 = 200 ∨
      (processReceipt receipts id receipt).1 = 400) ∧
    ((processReceipt receipts id receipt).1 = 400 →
      (processReceipt receipts id receipt).2 = receipts) ∧
    ((processReceipt receipts id receipt).1 = 200 →
      (id, receipt) ∈ (processReceipt receipts id receipt).2) ∧
    (processReceipt receipts id (withTotal "10")) = (400, receipts) ∧
    (processReceipt receipts id (withItems [])) = (400, receipts) := by
  refine ⟨?_, ?_, ?_, ?_, ?_, ?_⟩
  · rw [processReceipt_status]
    constructor
    · rintro ⟨hb, hv, hi⟩
      simp only [ValidateStructReceipt, Bool.and_eq_true] at hv
      simp only [ShouldBindJSON, Bool.and_eq_true, decide_eq_true_eq] at hb
      simp only [List.all_eq_true, ValidateStructItem, Bool.and_eq_true] at hi
      exact ⟨hv.1.1.1, hv.1.1.2, hv.1.2, hb.1.2, hv.2, hi⟩
    · rintro ⟨h1, h2, h3, h4, h5, h6⟩
      refine ⟨shouldBind_of_formats receipt h1 h2 h3 h4 h5, ?_, ?_⟩
      · simp only [ValidateStructReceipt, Bool.and_eq_true]
        exact ⟨⟨⟨h1, h2⟩, h3⟩, h5⟩
      · simp only [List.all_eq_true, ValidateStructItem, Bool.and_eq_true]
        exact h6
  · unfold processReceipt
    split_ifs <;> simp
  · unfold processReceipt
    split_ifs <;> simp
  · unfold processReceipt
    split_ifs <;> simp
  · have h : ValidateStructReceipt (withTotal "10") = false := by decide
    have hb : ShouldBindJSON (withTotal "10") = true := by decide
    unfold processReceipt
    rw [hb, h]; simp
  · have hb : ShouldBindJSON (withItems []) = false := by decide
    unfold processReceipt
    rw [hb]; simp

theorem isDigitChar_eq (c : Char) : isDigitChar c = c.isDigit := by
  simp only [isDigitChar, Char.isDigit]
  rfl

/-- C13: `ValidatePriceFormat` accepts exactly the strings made of one or more ASCII
digits, one `.` and two ASCII digits, with nothing before or after; `6.49`, `0.00` and
`0.50` are accepted, and `6.4`, `6`, `6.499`, `.49`, the empty string, a signed price, a
price between spaces and a price followed by a line feed are rejected. -/
theorem C13_price_format_is_digits_dot_two_digits (s : String) :
    (ValidatePriceFormat s = true ↔
      ∃ (ds : List Char) (a b : Char), s.data = ds ++ ['.', a, b] ∧ ds ≠ [] ∧
        (∀ c ∈ ds, c.isDigit = true) ∧ a.isDigit = true ∧ b.isDigit = true) ∧
    ValidatePriceFormat "6.49" = true ∧ ValidatePriceFormat "0.00" = true ∧
    ValidatePriceFormat "0.50" = true ∧ ValidatePriceFormat "6.4" = false ∧
    ValidatePriceFormat "6" = false ∧ ValidatePriceFormat "6.499" = false ∧
    ValidatePriceFormat ".49" = false ∧ ValidatePriceFormat "" = false ∧
    ValidatePriceFormat "-6.49" = false ∧ ValidatePriceFormat "+6.49" = false ∧
    ValidatePriceFormat " 6.49 " = false ∧ ValidatePriceFormat "6.49\n" = false ∧
    ValidatePriceFormat "6..49" = false := by
  refine ⟨?_, by decide, by decide, by decide, by decide, by decide, by decide, by decide,
    by decide, by decide, by decide, by decide, by decide, by decide⟩
  rw [validatePriceFormat_iff]
  simp only [isDigitChar_eq]

theorem getnum_fixed_of_digits {c d : Char} (rest : List Char) (hc : isDigitChar c = true)
    (hd : isDigitChar d = true) :
    getnum (c :: d :: rest) true = some (digitVal c * 10 + digitVal d, rest) := by
  simp [getnum, hc, hd]

theorem daysIn_eq_calendarDays {month : Nat} (year : Nat) (h1 : 1 ≤ month)
    (h2 : month ≤ 12) : daysIn month year = calendarDays month year := by
  have hl : isLeap year = isGregorianLeap year := by
    unfold isLeap isGregorianLeap
    by_cases a : year % 4 = 0 <;> by_cases b : year % 100 = 0 <;>
      by_cases c : year % 400 = 0 <;> simp [a, b, c]
  interval_cases month <;> simp [daysIn, calendarDays, hl]

theorem parseDate_of_shape {y1 y2 y3 y4 m1 m2 d1 d2 : Char}
    (hy1 : isDigitChar y1 = true) (hy2 : isDigitChar y2 = true) (hy3 : isDigitChar y3 = true)
    (hy4 : isDigitChar y4 = true) (hm1 : isDigitChar m1 = true) (hm2 : isDigitChar m2 = true)
    (hd1 : isDigitChar d1 = true) (hd2 : isDigitChar d2 = true)
    (a : 1 ≤ digitVal m1 * 10 + digitVal m2) (b : digitVal m1 * 10 + digitVal m2 ≤ 12)
    (c : 1 ≤ digitVal d1 * 10 + digitVal d2)
    (d : digitVal d1 * 10 + digitVal d2 ≤
      daysIn (digitVal m1 * 10 + digitVal m2)
        (((digitVal y1 * 10 + digitVal y2) * 10 + digitVal y3) * 10 + digitVal y4)) :
    parseDate [y1, y2, y3, y4, '-', m1, m2, '-', d1, d2] =
      some (((digitVal y1 * 10 + digitVal y2) * 10 + digitVal y3) * 10 + digitVal y4,
        digitVal m1 * 10 + digitVal m2, digitVal d1 * 10 + digitVal d2) := by
  have e1 : ¬ (digitVal m1 * 10 + digitVal m2 = 0 ∨ 12 < digitVal m1 * 10 + digitVal m2) := by
    omega
  have e2 : ¬ (digitVal d1 * 10 + digitVal d2 < 1 ∨
      daysIn (digitVal m1 * 10 + digitVal m2)
        (((digitVal y1 * 10 + digitVal y2) * 10 + digitVal y3) * 10 + digitVal y4) <
        digitVal d1 * 10 + digitVal d2) := by
    omega
  simp only [parseDate, hy1, hy2, hy3, hy4, Bool.and_self, if_true, skipChar,
    getnum_fixed_of_digits _ hm1 hm2, getnum_fixed_of_digits _ hd1 hd2, if_neg e1, if_neg e2,
    ne_eq, not_true_eq_false, if_false]

/-- C14: `ValidateDateFormat` accepts exactly the strings of the shape `DDDD-DD-DD` (ASCII
digits, nothing before or after) whose month lies in 1..12 and whose day lies in 1..the
number of days of that month in that year of the Gregorian calendar; `2022-01-01` and
`2024-02-29` are accepted, and `2022-1-1`, `2022-13-01`, `2022-02-30`, `1900-02-29`,
`2023-02-29` and the empty string are rejected. -/
theorem C14_date_format_is_real_calendar_date (s : String) :
    (ValidateDateFormat s = true ↔
      ∃ y1 y2 y3 y4 m1 m2 d1 d2 : Char,
        s.data = [y1, y2, y3, y4, '-', m1, m2, '-', d1, d2] ∧
        y1.isDigit = true ∧ y2.isDigit = true ∧ y3.isDigit = true ∧ y4.isDigit = true ∧
        m1.isDigit = true ∧ m2.isDigit = true ∧ d1.isDigit = true ∧ d2.isDigit = true ∧
        1 ≤ decimalValue [m1, m2] ∧ decimalValue [m1, m2] ≤ 12 ∧
        1 ≤ decimalValue [d1, d2] ∧
        decimalValue [d1, d2] ≤ calendarDays (decimalValue [m1, m2])
          (decimalValue [y1, y2, y3, y4])) ∧
    ValidateDateFormat "2022-01-01" = true ∧ ValidateDateFormat "2024-02-29" = true ∧
    ValidateDateFormat "2022-1-1" = false ∧ ValidateDateFormat "2022-13-01" = false ∧
    ValidateDateFormat "2022-02-30" = false ∧ ValidateDateFormat "1900-02-29" = false ∧
    ValidateDateFormat "2023-02-29" = false ∧ ValidateDateFormat "" = false ∧
    ValidateDateFormat " 2022-01-01" = false ∧ ValidateDateFormat "2022-01-01 " = false ∧
    ValidateDateFormat "2022-00-10" = false ∧ ValidateDateFormat "2022-04-31" = false ∧
    ValidateDateFormat "2022-01-00" = false := by
  refine ⟨?_, by decide, by decide, by decide, by decide, by decide, by decide, by decide,
    by decide, by decide, by decide, by decide, by decide, by decide⟩
  have dv2 : ∀ a b : Char, decimalValue [a, b] = digitVal a * 10 + digitVal b := by
    intro a b; simp [decimalValue]
  have dv4 : ∀ a b c d : Char, decimalValue [a, b, c, d] =
      ((digitVal a * 10 + digitVal b) * 10 + digitVal c) * 10 + digitVal d := by
    intro a b c d; simp [decimalValue]
  simp only [dv2, dv4, ← isDigitChar_eq]
  unfold ValidateDateFormat
  constructor
  · intro h
    rw [Option.isSome_iff_exists] at h
    obtain ⟨⟨y, m, d⟩, hp⟩ := h
    obtain ⟨y1, y2, y3, y4, m1, m2, d1, d2, hs, a1, a2, a3, a4, a5, a6, a7, a8, hy, hm, hd,
      b1, b2, b3, b4⟩ := parseDate_some hp
    subst hy hm hd
    rw [daysIn_eq_calendarDays _ b1 b2] at b4
    exact ⟨y1, y2, y3, y4, m1, m2, d1, d2, hs, a1, a2, a3, a4, a5, a6, a7, a8, b1, b2, b3, b4⟩
  · rintro ⟨y1, y2, y3, y4, m1, m2, d1, d2, hs, a1, a2, a3, a4, a5, a6, a7, a8, b1, b2, b3, b4⟩
    rw [← daysIn_eq_calendarDays _ b1 b2] at b4
    rw [hs, parseDate_of_shape a1 a2 a3 a4 a5 a6 a7 a8 b1 b2 b3 b4]
    rfl

theorem colon_not_digit : isDigitChar ':' = false := by decide

theorem parseClock_two {h1 h2 m1 m2 : Char} (a1 : isDigitChar h1 = true)
    (a2 : isDigitChar h2 = true) (a3 : isDigitChar m1 = true) (a4 : isDigitChar m2 = true)
    (hh : digitVal h1 * 10 + digitVal h2 < 24) (hm : digitVal m1 * 10 + digitVal m2 < 60) :
    parseClock [h1, h2, ':', m1, m2] =
      some (digitVal h1 * 10 + digitVal h2, digitVal m1 * 10 + digitVal m2) := by
  have e1 : ¬ (24 ≤ digitVal h1 * 10 + digitVal h2) := by omega
  have e2 : ¬ (60 ≤ digitVal m1 * 10 + digitVal m2) := by omega
  simp only [parseClock, getnum, a1, a2, a3, a4, if_true, if_neg e1, if_neg e2, skipChar,
    ne_eq, not_true_eq_false, if_false]

theorem parseClock_one {h1 m1 m2 : Char} (a1 : isDigitChar h1 = true)
    (a3 : isDigitChar m1 = true) (a4 : isDigitChar m2 = true)
    (hm : digitVal m1 * 10 + digitVal m2 < 60) :
    parseClock [h1, ':', m1, m2] = some (digitVal h1, digitVal m1 * 10 + digitVal m2) := by
  have e1 : ¬ (24 ≤ digitVal h1) := by
    have := digitVal_le a1
    omega
  have e2 : ¬ (60 ≤ digitVal m1 * 10 + digitVal m2) := by omega
  simp only [parseClock, getnum, a1, a3, a4, colon_not_digit, if_true, if_neg e1, if_neg e2,
    skipChar, ne_eq, not_true_eq_false, if_false, Bool.false_eq_true]

/-- C15: `ValidateTimeFormat` accepts the times `14:00`, `2:00` and `9:30`: the hour of
the layout `15:04` is read with one or two digits.  It accepts exactly the strings `DD:DD`
with the hour below 24 and the minute below 60 and the strings `D:DD` with the minute
below 60.  `2:00 PM`, `24:00`, `12:60` and the empty string are rejected. -/
theorem C15_time_format_accepts_one_digit_hour (s : String) :
    ValidateTimeFormat "2:00" = true ∧ ValidateTimeFormat "9:30" = true ∧
    ValidateTimeFormat "14:00" = true ∧ ValidateTimeFormat "2:00 PM" = false ∧
    ValidateTimeFormat "24:00" = false ∧ ValidateTimeFormat "12:60" = false ∧
    ValidateTimeFormat "" = false ∧ ValidateTimeFormat "14:0" = false ∧
    ValidateTimeFormat " 14:00" = false ∧
    (ValidateTimeFormat s = true ↔
      (∃ h1 h2 m1 m2 : Char, s.data = [h1, h2, ':', m1, m2] ∧
        h1.isDigit = true ∧ h2.isDigit = true ∧ m1.isDigit = true ∧ m2.isDigit = true ∧
        decimalValue [h1, h2] < 24 ∧ decimalValue [m1, m2] < 60) ∨
      (∃ h1 m1 m2 : Char, s.data = [h1, ':', m1, m2] ∧
        h1.isDigit = true ∧ m1.isDigit = true ∧ m2.isDigit = true ∧
        decimalValue [m1, m2] < 60)) := by
  refine ⟨by decide, by decide, by decide, by decide, by decide, by decide, by decide,
    by decide, by decide, ?_⟩
  have dv2 : ∀ a b : Char, decimalValue [a, b] = digitVal a * 10 + digitVal b := by
    intro a b; simp [decimalValue]
  simp only [dv2, ← isDigitChar_eq]
  unfold ValidateTimeFormat
  constructor
  · intro h
    rw [Option.isSome_iff_exists] at h
    obtain ⟨⟨hr, mn⟩, hp⟩ := h
    obtain ⟨hd, m1, m2, hs, a3, a4, hmn, hm, hh, hcase⟩ := parseClock_some hp
    subst hmn
    rcases hcase with ⟨h1, h2, rfl, a1, a2, hv⟩ | ⟨h1, rfl, a1, hv⟩
    · subst hv
      exact Or.inl ⟨h1, h2, m1, m2, hs, a1, a2, a3, a4, hh, hm⟩
    · exact Or.inr ⟨h1, m1, m2, hs, a1, a3, a4, hm⟩
  · rintro (⟨h1, h2, m1, m2, hs, a1, a2, a3, a4, hh, hm⟩ | ⟨h1, m1, m2, hs, a1, a3, a4, hm⟩)
    · rw [hs, parseClock_two a1 a2 a3 a4 hh hm]; rfl
    · rw [hs, parseClock_one a1 a3 a4 hm]; rfl

theorem char_eq_iff_toNat (c d : Char) : c = d ↔ c.toNat = d.toNat := by
  constructor
  · intro h; rw [h]
  · intro h
    rw [← Char.ofNat_toNat c, ← Char.ofNat_toNat d, h]

theorem word_space_mem (c : Char) :
    (isWordChar c = true ↔
      (48 ≤ c.toNat ∧ c.toNat ≤ 57) ∨ (65 ≤ c.toNat ∧ c.toNat ≤ 90) ∨ c.toNat = 95 ∨
        (97 ≤ c.toNat ∧ c.toNat ≤ 122)) ∧
    (isRegexSpace c = true ↔
      c.toNat = 9 ∨ c.toNat = 10 ∨ c.toNat = 12 ∨ c.toNat = 13 ∨ c.toNat = 32) := by
  have a1 : (c.val ≥ 65) ↔ 65 ≤ c.toNat := Iff.rfl
  have a2 : (c.val ≤ 90) ↔ c.toNat ≤ 90 := Iff.rfl
  have a3 : (c.val ≥ 97) ↔ 97 ≤ c.toNat := Iff.rfl
  have a4 : (c.val ≤ 122) ↔ c.toNat ≤ 122 := Iff.rfl
  have a5 : (c.val ≥ 48) ↔ 48 ≤ c.toNat := Iff.rfl
  have a6 : (c.val ≤ 57) ↔ c.toNat ≤ 57 := Iff.rfl
  have b0 : c = '_' ↔ c.toNat = 95 := char_eq_iff_toNat c '_'
  have b1 : c = Char.ofNat 9 ↔ c.toNat = 9 := char_eq_iff_toNat c (Char.ofNat 9)
  have b2 : c = Char.ofNat 10 ↔ c.toNat = 10 := char_eq_iff_toNat c (Char.ofNat 10)
  have b3 : c = Char.ofNat 12 ↔ c.toNat = 12 := char_eq_iff_toNat c (Char.ofNat 12)
  have b4 : c = Char.ofNat 13 ↔ c.toNat = 13 := char_eq_iff_toNat c (Char.ofNat 13)
  have b5 : c = ' ' ↔ c.toNat = 32 := char_eq_iff_toNat c ' '
  constructor
  · simp only [isWordChar, Char.isAlpha, Char.isUpper, Char.isLower, Char.isDigit,
      Bool.or_eq_true, Bool.and_eq_true, decide_eq_true_eq, beq_iff_eq, a1, a2, a3, a4, a5,
      a6, b0]
    omega
  · simp only [isRegexSpace, Bool.or_eq_true, beq_iff_eq, b1, b2, b3, b4, b5]
    omega

theorem classRetailer_mem (c : Char) :
    classRetailer.mem c = true ↔
      (isWordChar c = true ∨ isRegexSpace c = true ∨ c = '&' ∨ c = '-') := by
  have b1 : c = '&' ↔ c.toNat = 38 := char_eq_iff_toNat c '&'
  have b2 : c = '-' ↔ c.toNat = 45 := char_eq_iff_toNat c '-'
  rw [(word_space_mem c).1, (word_space_mem c).2, b1, b2]
  simp only [CharClass.mem, classRetailer, classWord, classSpace, List.cons_append,
    List.nil_append, List.any_cons, List.any_nil, Bool.or_false, Bool.or_eq_true,
    Bool.and_eq_true, decide_eq_true_eq]
  omega

theorem classDescription_mem (c : Char) :
    classDescription.mem c = true ↔
      (isWordChar c = true ∨ isRegexSpace c = true ∨ c = '-') := by
  have b2 : c = '-' ↔ c.toNat = 45 := char_eq_iff_toNat c '-'
  rw [(word_space_mem c).1, (word_space_mem c).2, b2]
  simp only [CharClass.mem, classDescription, classWord, classSpace, List.cons_append,
    List.nil_append, List.any_cons, List.any_nil, Bool.or_false, Bool.or_eq_true,
    Bool.and_eq_true, decide_eq_true_eq]
  omega

theorem validateRetailerFormat_iff (s : String) :
    ValidateRetailerFormat s = true ↔
      s.data ≠ [] ∧ ∀ c ∈ s.data,
        isWordChar c = true ∨ isRegexSpace c = true ∨ c = '&' ∨ c = '-' := by
  unfold ValidateRetailerFormat
  rw [matchString_iff]
  unfold retailerPattern
  simp only [matches_plus_cls_iff, classRetailer_mem]

theorem validateDescriptionFormat_iff (s : String) :
    ValidateDescriptionFormat s = true ↔
      s.data ≠ [] ∧ ∀ c ∈ s.data, isWordChar c = true ∨ isRegexSpace c = true ∨ c = '-' := by
  unfold ValidateDescriptionFormat
  rw [matchString_iff]
  unfold descriptionPattern
  simp only [matches_plus_cls_iff, classDescription_mem]

theorem string_ne_empty (s : String) : s ≠ "" ↔ s.data ≠ [] := by
  constructor
  · intro h hd
    apply h
    cases s
    simp only at hd
    rw [hd]
  · intro h hs
    apply h
    rw [hs]

/-- C16: `ValidateRetailerFormat` accepts exactly the non-empty strings of which every
character is a word character (ASCII letter, ASCII digit or underscore), a white space
character of the class `\s` (tab, line feed, form feed, carriage return, space), `&` or
`-`; a string that contains another character, such as `!` or `.`, is rejected wherever
that character stands; the vertical tab and the no-break space, which are white space for
`strings.TrimSpace`, are not in `\s` and are rejected. -/
theorem C16_retailer_format_is_allowed_characters_only (s : String) :
    (ValidateRetailerFormat s = true ↔
      s ≠ "" ∧ ∀ c ∈ s.data,
        isWordChar c = true ∨ isRegexSpace c = true ∨ c = '&' ∨ c = '-') ∧
    (∀ c ∈ s.data, (c = '!' ∨ c = '.') → ValidateRetailerFormat s = false) ∧
    ValidateRetailerFormat "M&M Corner Market" = true ∧
    ValidateRetailerFormat "Target!" = false ∧ ValidateRetailerFormat "!Target" = false ∧
    ValidateRetailerFormat "Tar.get" = false ∧ ValidateRetailerFormat "" = false ∧
    ValidateRetailerFormat (String.mk ['a', Char.ofNat 11, 'b']) = false ∧
    ValidateRetailerFormat (String.mk ['a', Char.ofNat 160, 'b']) = false := by
  refine ⟨?_, ?_, by decide, by decide, by decide, by decide, by decide, by decide,
    by decide⟩
  · rw [validateRetailerFormat_iff, string_ne_empty]
  · intro c hc hbad
    cases hv : ValidateRetailerFormat s
    · rfl
    · exfalso
      have h := ((validateRetailerFormat_iff s).mp hv).2 c hc
      rcases hbad with rfl | rfl <;> revert h <;> decide

/-- C17: `ValidateDescriptionFormat` accepts exactly the non-empty strings of which every
character is a word character (ASCII letter, ASCII digit or underscore), a white space
character of the class `\s` or `-`; a description that contains `&` is rejected; every
string accepted as a description is accepted as a retailer, and `M&M` is accepted as a
retailer and rejected as a description. -/
theorem C17_description_format_is_retailer_format_without_ampersand (s : String) :
    (ValidateDescriptionFormat s = true ↔
      s ≠ "" ∧ ∀ c ∈ s.data, isWordChar c = true ∨ isRegexSpace c = true ∨ c = '-') ∧
    ('&' ∈ s.data → ValidateDescriptionFormat s = false) ∧
    (ValidateDescriptionFormat s = true → ValidateRetailerFormat s = true) ∧
    ValidateRetailerFormat "M&M" = true ∧ ValidateDescriptionFormat "M&M" = false ∧
    ValidateDescriptionFormat "Mountain Dew 12PK" = true ∧
    ValidateDescriptionFormat "" = false := by
  refine ⟨?_, ?_, ?_, by decide, by decide, by decide, by decide⟩
  · rw [validateDescriptionFormat_iff, string_ne_empty]
  · intro hc
    cases hv : ValidateDescriptionFormat s
    · rfl
    · exfalso
      have h := ((validateDescriptionFormat_iff s).mp hv).2 _ hc
      revert h
      decide
  · intro h
    rw [validateDescriptionFormat_iff] at h
    rw [validateRetailerFormat_iff]
    refine ⟨h.1, fun c hc => ?_⟩
    rcases h.2 c hc with a | a | a
    · exact Or.inl a
    · exact Or.inr (Or.inl a)
    · exact Or.inr (Or.inr (Or.inr a))

theorem f64_eq_zero_iff (s : Bool) (m : Nat) (e : Int) :
    F64.eq (F64.fin s m e) F64.zero = true ↔ m = 0 := by
  simp only [F64.eq, F64.zero, Bool.or_eq_true, Bool.and_eq_true, beq_iff_eq, zero_mul]
  constructor
  · rintro (h | h)
    · exact h.1
    · have := h.2
      rcases Nat.mul_eq_zero.mp this with a | a
      · exact a
      · exact absurd a (by positivity)
  · intro h
    exact Or.inl ⟨h, trivial⟩

theorem mod_one_imp_mod_quarter (x : F64)
    (h : F64.eq (F64.Mod x F64.one) F64.zero = true) :
    F64.eq (F64.Mod x F64.quarter) F64.zero = true := by
  cases x with
  | nan => simp [F64.Mod, F64.eq] at h
  | inf s => simp [F64.Mod, F64.one, F64.eq] at h
  | fin s m e =>
    simp only [F64.Mod, F64.one, F64.quarter, one_ne_zero, if_false, f64_eq_zero_iff,
      one_mul] at h ⊢
    by_cases h0 : 0 ≤ e
    · have e1 : min e (-2) = -2 := min_eq_right (by omega)
      rw [e1, sub_self, Int.toNat_zero, pow_zero, Nat.mod_one]
    · by_cases h1 : e = -1
      · have e1 : min e (-2) = -2 := min_eq_right (by omega)
        rw [e1, sub_self, Int.toNat_zero, pow_zero, Nat.mod_one]
      · have e1 : min e (-2) = e := min_eq_left (by omega)
        have e2 : min e 0 = e := min_eq_left (by omega)
        rw [e2, sub_self, Int.toNat_zero, pow_zero, mul_one] at h
        rw [e1, sub_self, Int.toNat_zero, pow_zero, mul_one]
        have hd : 2 ^ (-2 - e).toNat ∣ 2 ^ (0 - e).toNat :=
          pow_dvd_pow 2 (by omega)
        exact Nat.mod_eq_zero_of_dvd (dvd_trans hd (Nat.dvd_of_mod_eq_zero h))

theorem roundDollar_range (receipt : Receipt) :
    RoundDollarRule.Calculate receipt = 0 ∨ RoundDollarRule.Calculate receipt = 50 := by
  unfold RoundDollarRule.Calculate
  simp only
  split_ifs
  · exact Or.inr rfl
  · exact Or.inl rfl

theorem quarter_range (receipt : Receipt) :
    MultipleOfQuarterRule.Calculate receipt = 0 ∨
      MultipleOfQuarterRule.Calculate receipt = 25 := by
  unfold MultipleOfQuarterRule.Calculate
  simp only
  split_ifs
  · exact Or.inr rfl
  · exact Or.inl rfl

theorem quarter_of_roundDollar (receipt : Receipt)
    (h : RoundDollarRule.Calculate receipt = 50) :
    MultipleOfQuarterRule.Calculate receipt = 25 := by
  unfold RoundDollarRule.Calculate at h
  unfold MultipleOfQuarterRule.Calculate
  simp only at h ⊢
  split_ifs at h with hc
  · rw [if_pos ⟨hc.1, mod_one_imp_mod_quarter _ hc.2⟩]
  · exact absurd h (by decide)

set_option maxRecDepth 100000 in
/-- C19: for every receipt, whatever its total, `MultipleOfQuarterRule.Calculate` returns
25 when `RoundDollarRule.Calculate` returns 50; the two rules return 0 or 50 and 0 or 25,
and together 0, 25 or 75, never 50; the totals `35.35`, `35.25` and `9.00` give 0, 25 and
75. -/
theorem C19_round_dollar_implies_quarter (receipt : Receipt) :
    (RoundDollarRule.Calculate receipt = 50 → MultipleOfQuarterRule.Calculate receipt = 25) ∧
    (RoundDollarRule.Calculate receipt = 0 ∨ RoundDollarRule.Calculate receipt = 50) ∧
    (MultipleOfQuarterRule.Calculate receipt = 0 ∨
      MultipleOfQuarterRule.Calculate receipt = 25) ∧
    (RoundDollarRule.Calculate receipt + MultipleOfQuarterRule.Calculate receipt = 0 ∨
      RoundDollarRule.Calculate receipt + MultipleOfQuarterRule.Calculate receipt = 25 ∨
      RoundDollarRule.Calculate receipt + MultipleOfQuarterRule.Calculate receipt = 75) ∧
    RoundDollarRule.Calculate receipt + MultipleOfQuarterRule.Calculate receipt ≠ 50 ∧
    RoundDollarRule.Calculate (withTotal "35.35") +
      MultipleOfQuarterRule.Calculate (withTotal "35.35") = 0 ∧
    RoundDollarRule.Calculate (withTotal "35.25") +
      MultipleOfQuarterRule.Calculate (withTotal "35.25") = 25 ∧
    RoundDollarRule.Calculate (withTotal "9.00") +
      MultipleOfQuarterRule.Calculate (withTotal "9.00") = 75 := by
  have h1 := quarter_of_roundDollar receipt
  have h2 := roundDollar_range receipt
  have h3 := quarter_range receipt
  refine ⟨h1, h2, h3, ?_, ?_, by decide, by decide, by decide⟩
  · rcases h2 with a | a
    · rcases h3 with b | b
      · left; rw [a, b]; rfl
      · right; left; rw [a, b]; rfl
    · right; right; rw [a, h1 a]; rfl
  · rcases h2 with a | a
    · rcases h3 with b | b
      · rw [a, b]; decide
      · rw [a, b]; decide
    · rw [a, h1 a]; decide

/-! ### The item loop as a sum -/

theorem wrapInt64_range (z : Int) : -(2 ^ 63) ≤ wrapInt64 z ∧ wrapInt64 z < 2 ^ 63 := by
  unfold wrapInt64
  omega

theorem foldl_item_int (step : Int → Item → Int) (pts : Item → Int) (items : List Item)
    (h : ∀ item ∈ items, ∀ acc : Int, step (wrapInt64 acc) item = wrapInt64 (acc + pts item)) :
    ∀ acc : Int, items.foldl step (wrapInt64 acc) = wrapInt64 (acc + (items.map pts).sum) := by
  induction items with
  | nil => intro acc; simp
  | cons it rest ih =>
    intro acc
    have h1 := h it (List.mem_cons_self it rest) acc
    have h2 := ih (fun item hi => h item (List.mem_cons_of_mem it hi)) (acc + pts it)
    rw [List.foldl_cons, h1, h2]
    simp only [List.map_cons, List.sum_cons]
    congr 1
    ring

/-- `ItemDescriptionRule.Calculate` is the sum, in Go `int` arithmetic, of the amounts
added for the items. -/
theorem itemDescription_sum (conv : F64 → Int) (receipt : Receipt) :
    ItemDescriptionRule.Calculate conv receipt =
      wrapInt64 ((receipt.Items.map (itemContribution conv)).sum) := by
  have h0 : (0 : Int) = wrapInt64 0 := by decide
  unfold ItemDescriptionRule.Calculate
  rw [h0, foldl_item_int _ (itemContribution conv) receipt.Items ?_ 0, zero_add]
  intro item _ acc
  unfold itemContribution
  split
  · rw [wrapInt64_add_left]
  · rw [add_zero]

theorem itemContribution_syntax (conv : F64 → Int) (item : Item)
    (h : isSyntaxError item.Price = true) : itemContribution conv item = 0 := by
  unfold isSyntaxError at h
  simp only [Bool.and_eq_true, Option.isNone_iff_eq_none] at h
  have hp : ParseFloat item.Price = (F64.zero, true) := by
    unfold ParseFloat
    rw [h.1, h.2]
  unfold itemContribution
  rw [hp]
  split
  · have : F64.mul F64.zero F64.fifth = F64.fin false 0 0 := by
      unfold F64.zero
      rw [show (0 : Int) = -((0 : Nat) : Int) from rfl, mul_fifth]
      simp [roundNearestEven]
    simp only [this]
    rfl
  · rfl

theorem retailer_nonneg (receipt : Receipt) : 0 ≤ RetailerNameRule.Calculate receipt := by
  unfold RetailerNameRule.Calculate
  exact Int.natCast_nonneg _

theorem itemPair_nonneg (receipt : Receipt) : 0 ≤ ItemPairRule.Calculate receipt := by
  unfold ItemPairRule.Calculate
  have := Int.natCast_nonneg (receipt.Items.length / 2)
  omega

theorem oddDay_range (receipt : Receipt) :
    OddPurchaseDayRule.Calculate receipt = 0 ∨ OddPurchaseDayRule.Calculate receipt = 6 := by
  unfold OddPurchaseDayRule.Calculate
  split
  · split_ifs
    · exact Or.inr rfl
    · exact Or.inl rfl
  · exact Or.inl rfl

theorem timeRange_range (receipt : Receipt) :
    TimeRangeRule.Calculate receipt = 0 ∨ TimeRangeRule.Calculate receipt = 10 := by
  unfold TimeRangeRule.Calculate
  split
  · split_ifs
    · exact Or.inr rfl
    · exact Or.inl rfl
  · exact Or.inl rfl

theorem calculatePoints_eq_wrap (conv : F64 → Int) (receipt : Receipt) :
    NewRulesEngine.CalculatePoints conv receipt = wrapInt64 (sumOfRules conv receipt) :=
  foldl_wrap_seven (fun rule => Rule.Calculate conv rule receipt) Rule.RetailerNameRule
    Rule.RoundDollarRule Rule.MultipleOfQuarterRule Rule.ItemPairRule Rule.ItemDescriptionRule
    Rule.OddPurchaseDayRule Rule.TimeRangeRule

set_option maxRecDepth 100000 in
/-- C18, as stated, fails: the total `9` is rejected by the price format validator, and on a
receipt with that total `RoundDollarRule.Calculate` returns 50 and
`MultipleOfQuarterRule.Calculate` returns 25: `ParseFloat` reads `9` without error. -/
theorem C18_malformed_total_counterexample :
    ValidatePriceFormat "9" = false ∧
      RoundDollarRule.Calculate (withTotal "9") = 50 ∧
      MultipleOfQuarterRule.Calculate (withTotal "9") = 25 := by
  refine ⟨by decide, by decide, by decide⟩

set_option exponentiation.threshold 2000 in
set_option maxRecDepth 100000 in
theorem itemContribution_range_error (conv : F64 → Int) :
    (ParseFloat "1e400").2 = true ∧
      itemContribution conv { ShortDescription := "abc", Price := "1e400" } =
        wrapInt64 (conv (F64.inf false)) :=
  ⟨by rfl, by rfl⟩

set_option maxRecDepth 100000 in
/-- C18, amended: for every receipt, validated or not: when `ParseFloat` returns an error on
the total, `RoundDollarRule` and `MultipleOfQuarterRule` return 0 (a total that the price
format rejects may still be read by `ParseFloat` and score); when the date format rejects
the purchase date `OddPurchaseDayRule` returns 0; when the time format rejects the purchase
time `TimeRangeRule` returns 0; an item whose price is a syntax error for `ParseFloat` adds
0 to `ItemDescriptionRule`, which returns what it returns without that item (a price out of
the range of `float64`, such as `1e400`, is read as an infinity and adds the result of the
conversion of the infinity to `int`); and `CalculatePoints` is the sum, in Go `int`
arithmetic, of the seven contributions.  The totals `abc`, `9,00` and the empty total are
errors for `ParseFloat`. -/
theorem C18_rules_return_zero_on_unparsable_fields (conv : F64 → Int) (receipt : Receipt) :
    ((ParseFloat receipt.Total).2 = true →
      RoundDollarRule.Calculate receipt = 0 ∧ MultipleOfQuarterRule.Calculate receipt = 0) ∧
    (ValidateDateFormat receipt.PurchaseDate = false →
      OddPurchaseDayRule.Calculate receipt = 0) ∧
    (ValidateTimeFormat receipt.PurchaseTime = false →
      TimeRangeRule.Calculate receipt = 0) ∧
    (∀ (before after : List Item) (item : Item),
      receipt.Items = before ++ item :: after → isSyntaxError item.Price = true →
        itemContribution conv item = 0 ∧
        ItemDescriptionRule.Calculate conv receipt =
          ItemDescriptionRule.Calculate conv { receipt with Items := before ++ after }) ∧
    ItemDescriptionRule.Calculate conv receipt =
      wrapInt64 ((receipt.Items.map (itemContribution conv)).sum) ∧
    NewRulesEngine.CalculatePoints conv receipt = wrapInt64 (sumOfRules conv receipt) ∧
    (ParseFloat "abc").2 = true ∧ (ParseFloat "9,00").2 = true ∧ (ParseFloat "").2 = true ∧
    isSyntaxError "abc" = true ∧ isSyntaxError "" = true ∧ isSyntaxError "1e400" = false ∧
    (ParseFloat "1e400").2 = true ∧
    ItemDescriptionRule.Calculate conv (oneItemReceipt "1e400") =
      wrapInt64 (conv (F64.inf false)) := by
  refine ⟨?_, ?_, ?_, ?_, itemDescription_sum conv receipt, calculatePoints_eq_wrap conv receipt,
    by decide, by decide, by decide, by decide, by decide, by decide,
    (itemContribution_range_error conv).1, ?_⟩
  · intro h
    unfold RoundDollarRule.Calculate MultipleOfQuarterRule.Calculate
    simp only [h, Bool.true_eq_false, false_and, if_false, and_self]
  · intro h
    unfold ValidateDateFormat at h
    unfold OddPurchaseDayRule.Calculate
    cases hp : parseDate receipt.PurchaseDate.data with
    | none => rfl
    | some v => rw [hp] at h; exact absurd h (by simp)
  · intro h
    unfold ValidateTimeFormat at h
    unfold TimeRangeRule.Calculate
    cases hp : parseClock receipt.PurchaseTime.data with
    | none => rfl
    | some v => rw [hp] at h; exact absurd h (by simp)
  · intro before after item hitems hsyn
    have h0 := itemContribution_syntax conv item hsyn
    refine ⟨h0, ?_⟩
    rw [itemDescription_sum, itemDescription_sum, hitems]
    simp only [List.map_append, List.map_cons, List.sum_append, List.sum_cons, h0, zero_add]
  · have h := (itemContribution_range_error conv).2
    rw [itemDescription_sum]
    have hi : (oneItemReceipt "1e400").Items = [{ ShortDescription := "abc", Price := "1e400" }] :=
      rfl
    rw [hi]
    simp only [List.map_cons, List.map_nil, List.sum_cons, List.sum_nil, add_zero, h]
    have hr := wrapInt64_range (conv (F64.inf false))
    exact wrapInt64_of_range hr.1 hr.2

theorem dropWhile_all {α : Type} (p : α → Bool) (l : List α) (h : ∀ a ∈ l, p a = true) :
    l.dropWhile p = [] := by
  induction l with
  | nil => rfl
  | cons a t ih =>
    rw [List.dropWhile_cons, if_pos (h a (List.mem_cons_self a t))]
    exact ih fun b hb => h b (List.mem_cons_of_mem a hb)

theorem trimmed_whitespace (s : String) (h : ∀ c ∈ s.data, unicodeIsSpace c = true) :
    trimmedByteLength s = 0 := by
  unfold trimmedByteLength TrimSpace
  rw [dropWhile_all _ _ h]
  rfl

theorem itemPair_append (receipt : Receipt) (item : Item) :
    ItemPairRule.Calculate (appendItem receipt item) =
      ItemPairRule.Calculate receipt + (if receipt.Items.length % 2 = 1 then 5 else 0) := by
  unfold ItemPairRule.Calculate appendItem
  simp only [List.length_append, List.length_singleton]
  split_ifs with h
  · have e : (receipt.Items.length + 1) / 2 = receipt.Items.length / 2 + 1 := by omega
    rw [e]
    push_cast
    ring
  · have e : (receipt.Items.length + 1) / 2 = receipt.Items.length / 2 := by omega
    rw [e, add_zero]

/-! ### The total-based rules at any magnitude -/

theorem round_cases (neg : Bool) (n d : Nat) (hn : n ≠ 0) :
    roundNearestEven neg n d = F64.inf neg ∨
      ∃ m, roundNearestEven neg n d = F64.fin neg m (max (floorLog2 n d - 52) (-1074)) := by
  unfold roundNearestEven
  rw [if_neg hn]
  simp only
  split_ifs
  · exact Or.inl rfl
  · exact Or.inr ⟨_, rfl⟩

theorem floorLog2_ge (n d : Nat) (hn : 0 < n) (hd : 0 < d) (h : d * 2 ^ 52 ≤ n) :
    52 ≤ floorLog2 n d := by
  obtain ⟨_, s2⟩ := floorLog2_spec n d hn hd
  have hdq : (0 : ℚ) < d := by exact_mod_cast hd
  by_contra hc
  have h1 : (2 : ℚ) ^ (floorLog2 n d + 1) ≤ (2 : ℚ) ^ (52 : Int) :=
    zpow_le_zpow_right₀ (by norm_num) (by omega)
  have hq : (d : ℚ) * (2 : ℚ) ^ (52 : Int) ≤ n := by
    rw [show ((52 : Int)) = ((52 : Nat) : Int) from rfl, zpow_natCast]
    exact_mod_cast h
  have h2 : (d : ℚ) * (2 : ℚ) ^ (floorLog2 n d + 1) ≤ d * (2 : ℚ) ^ (52 : Int) :=
    mul_le_mul_of_nonneg_left h1 hdq.le
  linarith

theorem mod_one_of_exp (s : Bool) (m : Nat) (e : Int) (he : 0 ≤ e) :
    F64.eq (F64.Mod (F64.fin s m e) F64.one) F64.zero = true := by
  have e1 : min e 0 = 0 := min_eq_right he
  simp only [F64.Mod, F64.one, one_ne_zero, if_false, f64_eq_zero_iff, one_mul, e1, sub_self,
    Int.toNat_zero, pow_zero, Nat.mod_one]

theorem mod_quarter_of_exp (s : Bool) (m : Nat) (e : Int) (he : -2 ≤ e) :
    F64.eq (F64.Mod (F64.fin s m e) F64.quarter) F64.zero = true := by
  have e1 : min e (-2) = -2 := min_eq_right he
  simp only [F64.Mod, F64.quarter, one_ne_zero, if_false, f64_eq_zero_iff, one_mul, e1,
    sub_self, Int.toNat_zero, pow_zero, Nat.mod_one]

/-- The `float64` nearest to a whole number of dollars is whole, at any magnitude. -/
theorem round_whole (n : Nat) (h100 : n % 100 = 0) :
    roundNearestEven false n 100 = F64.inf false ∨
      ∃ m e, roundNearestEven false n 100 = F64.fin false m e ∧
        F64.eq (F64.Mod (F64.fin false m e) F64.one) F64.zero = true := by
  rcases Nat.eq_zero_or_pos n with h0 | h0
  · subst h0
    exact Or.inr ⟨0, 0, roundNearestEven_zero false 100, mod_one_of_exp _ _ _ le_rfl⟩
  · by_cases hb : n < 100 * 2 ^ 52
    · obtain ⟨j, e, b1, b2, _, _⟩ := roundNearestEven_fin false n 100 h0 (by norm_num) hb
        (le_trans (by norm_num : (100 : Nat) ≤ 2 ^ 7) (pow_le_mul_pow h0 (by norm_num)))
      obtain ⟨q, hq⟩ := Nat.dvd_of_mod_eq_zero h100
      have hm : divRoundHalfEven (n * 2 ^ j) 100 = q * 2 ^ j := by
        have e3 : n * 2 ^ j = q * 2 ^ j * 100 := by rw [hq]; ring
        apply divRoundHalfEven_eq (by norm_num)
        · rw [e3]
        · rw [e3]; omega
      refine Or.inr ⟨_, _, e, ?_⟩
      rw [mod_one_eq_zero, hm, Nat.mul_mod_left]
    · rcases round_cases false n 100 (Nat.pos_iff_ne_zero.mp h0) with hi | ⟨m, hm⟩
      · exact Or.inl hi
      · have hf := floorLog2_ge n 100 h0 (by norm_num) (by omega)
        exact Or.inr ⟨m, _, hm, mod_one_of_exp _ _ _ (le_max_of_le_left (by omega))⟩

/-- The `float64` nearest to a multiple of a quarter of a dollar is a multiple of a quarter,
at any magnitude. -/
theorem round_quarter (n : Nat) (h25 : n % 25 = 0) :
    roundNearestEven false n 100 = F64.inf false ∨
      ∃ m e, roundNearestEven false n 100 = F64.fin false m e ∧
        F64.eq (F64.Mod (F64.fin false m e) F64.quarter) F64.zero = true := by
  rcases Nat.eq_zero_or_pos n with h0 | h0
  · subst h0
    exact Or.inr ⟨0, 0, roundNearestEven_zero false 100, mod_quarter_of_exp _ _ _ (by norm_num)⟩
  · by_cases hb : n < 100 * 2 ^ 52
    · obtain ⟨j, e, b1, b2, _, _⟩ := roundNearestEven_fin false n 100 h0 (by norm_num) hb
        (le_trans (by norm_num : (100 : Nat) ≤ 2 ^ 7) (pow_le_mul_pow h0 (by norm_num)))
      refine Or.inr ⟨_, _, e, ?_⟩
      by_cases hj : j ≤ 2
      · exact mod_quarter_of_exp _ _ _ (by omega)
      · obtain ⟨i, rfl⟩ : ∃ i, j = i + 2 := ⟨j - 2, by omega⟩
        obtain ⟨q, hq⟩ := Nat.dvd_of_mod_eq_zero h25
        have hm : divRoundHalfEven (n * 2 ^ (i + 2)) 100 = q * 2 ^ i := by
          have e3 : n * 2 ^ (i + 2) = q * 2 ^ i * 100 := by rw [hq, pow_add]; ring
          apply divRoundHalfEven_eq (by norm_num)
          · rw [e3]
          · rw [e3]; omega
        rw [mod_quarter_eq_zero _ _ (by omega), hm, Nat.add_sub_cancel, Nat.mul_mod_left]
    · rcases round_cases false n 100 (Nat.pos_iff_ne_zero.mp h0) with hi | ⟨m, hm⟩
      · exact Or.inl hi
      · have hf := floorLog2_ge n 100 h0 (by norm_num) (by omega)
        exact Or.inr ⟨m, _, hm, mod_quarter_of_exp _ _ _ (le_max_of_le_left (by omega))⟩

theorem roundDollar_of_whole {receipt : Receipt} (h : ValidatePriceFormat receipt.Total = true)
    (h100 : priceCents receipt.Total % 100 = 0) (he : (ParseFloat receipt.Total).2 = false) :
    RoundDollarRule.Calculate receipt = 50 := by
  unfold RoundDollarRule.Calculate
  rw [parseFloat_price h] at he ⊢
  rcases round_whole _ h100 with hi | ⟨m, e, hm, hz⟩
  · rw [hi] at he
    exact absurd he (by decide)
  · rw [hm, parseResult_fin]
    simp only [hz, and_self, if_true]

theorem quarter_of_multiple {receipt : Receipt} (h : ValidatePriceFormat receipt.Total = true)
    (h25 : priceCents receipt.Total % 25 = 0) (he : (ParseFloat receipt.Total).2 = false) :
    MultipleOfQuarterRule.Calculate receipt = 25 := by
  unfold MultipleOfQuarterRule.Calculate
  rw [parseFloat_price h] at he ⊢
  rcases round_quarter _ h25 with hi | ⟨m, e, hm, hz⟩
  · rw [hi] at he
    exact absurd he (by decide)
  · rw [hm, parseResult_fin]
    simp only [hz, and_self, if_true]

set_option maxRecDepth 100000 in
/-- C4: `RoundDollarRule.Calculate` returns 50 on the total `140737488355328.01`, which
passes the price format and has the fractional digits `01`: the `float64` nearest to the
total is the whole number `2 ^ 47`.  For a total that passes the price format: below
`2 ^ 47 = 140737488355328` dollars (14073748835532800 cents) the rule returns 50 exactly
when the fractional digits are `00`, and 0 otherwise; at any magnitude it returns 50 when
the fractional digits are `00`, unless `ParseFloat` reports the total out of range; the
fractional digits are `00` exactly when the exact decimal value is a whole number.  The
totals `100.00` and `140737488355328.00` give 50 and `100.01` gives 0. -/
theorem C4_round_dollar_awards_50_to_cents_01 (receipt : Receipt) :
    (ValidatePriceFormat "140737488355328.01" = true ∧
      fractionDigits "140737488355328.01" = ['0', '1'] ∧
      RoundDollarRule.Calculate (withTotal "140737488355328.01") = 50) ∧
    (ValidatePriceFormat receipt.Total = true →
      priceCents receipt.Total < 14073748835532800 →
      RoundDollarRule.Calculate receipt =
        (if fractionDigits receipt.Total = ['0', '0'] then 50 else 0)) ∧
    (ValidatePriceFormat receipt.Total = true → fractionDigits receipt.Total = ['0', '0'] →
      (ParseFloat receipt.Total).2 = false → RoundDollarRule.Calculate receipt = 50) ∧
    (ValidatePriceFormat receipt.Total = true →
      (fractionDigits receipt.Total = ['0', '0'] ↔ ∃ k : Nat, exactPrice receipt.Total = k)) ∧
    (RoundDollarRule.Calculate receipt = 50 ∨ RoundDollarRule.Calculate receipt = 0) ∧
    RoundDollarRule.Calculate (withTotal "100.00") = 50 ∧
    RoundDollarRule.Calculate (withTotal "100.01") = 0 ∧
    RoundDollarRule.Calculate (withTotal "140737488355328.00") = 50 := by
  refine ⟨by decide, ?_, ?_, ?_, (roundDollar_range receipt).symm, by decide, by decide,
    by decide⟩
  · intro h hb
    rw [roundDollar_of_cents h (by norm_num at hb ⊢; exact hb)]
    simp only [fraction_zero_iff h]
  · intro h hf he
    exact roundDollar_of_whole h ((fraction_zero_iff h).mp hf) he
  · intro h
    rw [fraction_zero_iff h, exactPrice_whole_iff]

set_option maxRecDepth 100000 in
/-- C5: `MultipleOfQuarterRule.Calculate` returns 25 on the total `140737488355328.01`,
which passes the price format and is not a multiple of 0.25: the `float64` nearest to the
total is the whole number `2 ^ 47`.  For a total that passes the price format: below
`2 ^ 47 = 140737488355328` dollars (14073748835532800 cents) the rule returns 25 exactly
when the cents are divisible by 25, and 0 otherwise; at any magnitude it returns 25 when
the cents are divisible by 25, unless `ParseFloat` reports the total out of range; the
cents are divisible by 25 exactly when the exact decimal value is an integer multiple of
0.25, that is when the fractional digits are 00, 25, 50 or 75.  The totals `35.25` and
`140737488355328.25` give 25 and `35.10` gives 0. -/
theorem C5_quarter_awards_25_to_cents_01 (receipt : Receipt) :
    (ValidatePriceFormat "140737488355328.01" = true ∧
      priceCents "140737488355328.01" % 25 = 1 ∧
      fractionDigits "140737488355328.01" = ['0', '1'] ∧
      MultipleOfQuarterRule.Calculate (withTotal "140737488355328.01") = 25) ∧
    (ValidatePriceFormat receipt.Total = true →
      priceCents receipt.Total < 14073748835532800 →
      MultipleOfQuarterRule.Calculate receipt =
        (if priceCents receipt.Total % 25 = 0 then 25 else 0)) ∧
    (ValidatePriceFormat receipt.Total = true → priceCents receipt.Total % 25 = 0 →
      (ParseFloat receipt.Total).2 = false → MultipleOfQuarterRule.Calculate receipt = 25) ∧
    (priceCents receipt.Total % 25 = 0 ↔ ∃ k : Nat, exactPrice receipt.Total = k * (1 / 4)) ∧
    (ValidatePriceFormat receipt.Total = true →
      (priceCents receipt.Total % 25 = 0 ↔
        fractionDigits receipt.Total ∈ [['0', '0'], ['2', '5'], ['5', '0'], ['7', '5']])) ∧
    (MultipleOfQuarterRule.Calculate receipt = 25 ∨
      MultipleOfQuarterRule.Calculate receipt = 0) ∧
    MultipleOfQuarterRule.Calculate (withTotal "35.25") = 25 ∧
    MultipleOfQuarterRule.Calculate (withTotal "35.10") = 0 ∧
    MultipleOfQuarterRule.Calculate (withTotal "140737488355328.25") = 25 := by
  refine ⟨by decide, ?_, ?_, (exactPrice_quarter_iff _).symm, ?_,
    (quarter_range receipt).symm, by decide, by decide, by decide⟩
  · intro h hb
    exact quarter_of_cents h (by norm_num at hb ⊢; exact hb)
  · intro h h25 he
    exact quarter_of_multiple h h25 he
  · intro h
    exact (fraction_quarter_iff h).symm

/-! ### Scores without overflow -/

theorem round_sign (neg : Bool) (n d : Nat) :
    roundNearestEven neg n d = F64.inf neg ∨ ∃ m e, roundNearestEven neg n d = F64.fin neg m e := by
  by_cases h0 : n = 0
  · subst h0
    exact Or.inr ⟨0, 0, roundNearestEven_zero neg d⟩
  · rcases round_cases neg n d h0 with h | ⟨m, h⟩
    · exact Or.inl h
    · exact Or.inr ⟨m, _, h⟩

theorem parseFloat_price_sign {s : String} (h : ValidatePriceFormat s = true) :
    (ParseFloat s).1 = F64.inf false ∨ ∃ m e, (ParseFloat s).1 = F64.fin false m e := by
  rw [parseFloat_price h]
  rcases round_sign false (priceCents s) 100 with hi | ⟨m, e, hm⟩
  · rw [hi]; exact Or.inl rfl
  · rw [hm]; exact Or.inr ⟨m, e, rfl⟩

theorem mul_fifth_sign {x : F64}
    (h : x = F64.inf false ∨ ∃ m e, x = F64.fin false m e) :
    F64.mul x F64.fifth = F64.inf false ∨ ∃ m e, F64.mul x F64.fifth = F64.fin false m e := by
  rw [fifth_eq]
  rcases h with rfl | ⟨m, e, rfl⟩
  · left
    simp [F64.mul]
  · simp only [F64.mul, Bool.xor_false]
    exact round_sign false _ _

theorem ceil_sign {x : F64} (h : x = F64.inf false ∨ ∃ m e, x = F64.fin false m e) :
    F64.Ceil x = F64.inf false ∨ ∃ m, F64.Ceil x = F64.fin false m 0 := by
  rcases h with rfl | ⟨m, e, rfl⟩
  · exact Or.inl rfl
  · exact Or.inr ⟨_, rfl⟩

theorem toInt_of_fits_nonneg (conv : F64 → Int) (m : Nat) (e : Int)
    (h : F64.fitsInt (F64.fin false m e) = true) : 0 ≤ F64.toInt conv (F64.fin false m e) := by
  simp only [F64.fitsInt, Bool.false_eq_true, if_false, decide_eq_true_eq] at h
  simp only [F64.toInt, Bool.false_eq_true, if_false]
  rw [if_pos h]
  exact Int.natCast_nonneg _

theorem toInt_of_not_fits (conv : F64 → Int) (x : F64) (h : F64.fitsInt x = false) :
    F64.toInt conv x = wrapInt64 (conv x) := by
  cases x with
  | nan => rfl
  | inf s => rfl
  | fin neg m e =>
    simp only [F64.fitsInt, decide_eq_false_iff_not] at h
    simp only [F64.toInt]
    rw [if_neg h]

/-- An item whose price passes the price format and whose conversion to `int` is in range
adds a non-negative amount. -/
theorem itemContribution_nonneg (conv : F64 → Int) (item : Item)
    (hp : ValidatePriceFormat item.Price = true) (hc : conversionInRange item = true) :
    0 ≤ itemContribution conv item := by
  unfold itemContribution
  split
  · rename_i hl
    unfold conversionInRange at hc
    simp only [hl, ne_eq, not_true_eq_false, decide_False, Bool.false_or] at hc
    rcases ceil_sign (mul_fifth_sign (parseFloat_price_sign hp)) with hi | ⟨m, hm⟩
    · rw [hi] at hc
      exact absurd hc (by simp [F64.fitsInt])
    · rw [hm] at hc ⊢
      exact toInt_of_fits_nonneg conv m 0 hc
  · exact le_rfl

/-- Below `2 ^ 47` dollars the conversion of the points of an item is in range. -/
theorem conversionInRange_of_price (item : Item) (hp : ValidatePriceFormat item.Price = true)
    (hb : priceCents item.Price < 14073748835532800) : conversionInRange item = true := by
  unfold conversionInRange
  cases hf : F64.fitsInt (F64.Ceil (F64.mul (ParseFloat item.Price).1 F64.fifth)) with
  | true => simp
  | false =>
    exfalso
    have hbb : priceCents item.Price < 100 * 2 ^ 47 := by norm_num at hb ⊢; exact hb
    have h0 := item_points (fun _ => 0) hp hbb
    have h1 := item_points (fun _ => 1) hp hbb
    rw [toInt_of_not_fits _ _ hf] at h0 h1
    have e0 : wrapInt64 0 = 0 := by decide
    have e1 : wrapInt64 1 = 1 := by decide
    simp only [e0, e1] at h0 h1
    omega

theorem unwrappedScore_append (conv : F64 → Int) (receipt : Receipt) (item : Item) :
    unwrappedScore conv (appendItem receipt item) =
      unwrappedScore conv receipt + (if receipt.Items.length % 2 = 1 then 5 else 0) +
        itemContribution conv item := by
  have h1 : RetailerNameRule.Calculate (appendItem receipt item) =
      RetailerNameRule.Calculate receipt := rfl
  have h2 : RoundDollarRule.Calculate (appendItem receipt item) =
      RoundDollarRule.Calculate receipt := rfl
  have h3 : MultipleOfQuarterRule.Calculate (appendItem receipt item) =
      MultipleOfQuarterRule.Calculate receipt := rfl
  have h4 : OddPurchaseDayRule.Calculate (appendItem receipt item) =
      OddPurchaseDayRule.Calculate receipt := rfl
  have h5 : TimeRangeRule.Calculate (appendItem receipt item) =
      TimeRangeRule.Calculate receipt := rfl
  have h6 : (appendItem receipt item).Items = receipt.Items ++ [item] := rfl
  unfold unwrappedScore
  rw [h1, h2, h3, h4, h5, h6, itemPair_append]
  simp only [List.map_append, List.map_cons, List.map_nil, List.sum_append, List.sum_cons,
    List.sum_nil, add_zero]
  ring

/-- When no item adds a negative amount and the score computed in the integers is below
`2 ^ 63`, nothing overflows. -/
theorem score_eq_unwrapped (conv : F64 → Int) (receipt : Receipt)
    (h : ∀ item ∈ receipt.Items, 0 ≤ itemContribution conv item) :
    0 ≤ (receipt.Items.map (itemContribution conv)).sum ∧
    ((receipt.Items.map (itemContribution conv)).sum < 2 ^ 63 →
      ItemDescriptionRule.Calculate conv receipt =
        (receipt.Items.map (itemContribution conv)).sum) ∧
    (unwrappedScore conv receipt < 2 ^ 63 →
      NewRulesEngine.CalculatePoints conv receipt = unwrappedScore conv receipt ∧
        0 ≤ unwrappedScore conv receipt) := by
  have a1 := retailer_nonneg receipt
  have a2 := roundDollar_range receipt
  have a3 := quarter_range receipt
  have a4 := itemPair_nonneg receipt
  have a5 := oddDay_range receipt
  have a6 := timeRange_range receipt
  have a7 : 0 ≤ (receipt.Items.map (itemContribution conv)).sum := by
    apply List.sum_nonneg
    intro x hx
    rw [List.mem_map] at hx
    obtain ⟨item, hi, rfl⟩ := hx
    exact h item hi
  have hi : (receipt.Items.map (itemContribution conv)).sum < 2 ^ 63 →
      ItemDescriptionRule.Calculate conv receipt =
        (receipt.Items.map (itemContribution conv)).sum := by
    intro hs
    rw [itemDescription_sum]
    exact wrapInt64_of_range (by omega) hs
  refine ⟨a7, hi, ?_⟩
  intro hs
  have hlt : (receipt.Items.map (itemContribution conv)).sum < 2 ^ 63 := by
    unfold unwrappedScore at hs
    omega
  have hsum : sumOfRules conv receipt = unwrappedScore conv receipt := by
    unfold sumOfRules unwrappedScore
    rw [hi hlt]
  have h0 : 0 ≤ unwrappedScore conv receipt := by
    unfold unwrappedScore
    omega
  refine ⟨?_, h0⟩
  rw [calculatePoints_eq_wrap, hsum]
  exact wrapInt64_of_range (by omega) hs

set_option maxRecDepth 100000 in
/-- C11, as stated, fails.  The receipt of scenario A with two items `abc` of price
`23058430092136939520.00` passes the validation of `processReceipt` (status 200); each
item is worth `2 ^ 62` points, within the range of `int`, and on every platform
`ItemDescriptionRule.Calculate` returns `-2 ^ 63` and `CalculatePoints` returns the
negative number -9223372036854775791: the additions of Go `int` wrap.  The receipt with
the single item `abc` of price `50000000000000000000.00` passes the validation too; a
fifth of that price is not in the range of `int`, and with the conversion of amd64
`ItemDescriptionRule.Calculate` returns `-2 ^ 63` and `CalculatePoints` returns
-9223372036854775796. -/
theorem C11_negative_score_counterexample :
    (processReceipt [] "id" (withItems [bigItem, bigItem])).1 = 200 ∧
    conversionInRange bigItem = true ∧
    (∀ conv : F64 → Int,
      ItemDescriptionRule.Calculate conv (withItems [bigItem, bigItem]) = -(2 ^ 63) ∧
      NewRulesEngine.CalculatePoints conv (withItems [bigItem, bigItem]) =
        -9223372036854775791 ∧
      NewRulesEngine.CalculatePoints conv (withItems [bigItem, bigItem]) < 0) ∧
    (processReceipt [] "id" receiptOutOfRange).1 = 200 ∧
    (∀ item ∈ receiptOutOfRange.Items, conversionInRange item = false) ∧
    ItemDescriptionRule.Calculate convAmd64 receiptOutOfRange = -(2 ^ 63) ∧
    NewRulesEngine.CalculatePoints convAmd64 receiptOutOfRange = -9223372036854775796 := by
  refine ⟨by decide, by decide, fun conv => ?_, by decide, by decide, by decide, by decide⟩
  have h1 : ItemDescriptionRule.Calculate conv (withItems [bigItem, bigItem]) = -(2 ^ 63) := rfl
  have h2 : NewRulesEngine.CalculatePoints conv (withItems [bigItem, bigItem]) =
      -9223372036854775791 := rfl
  refine ⟨h1, h2, ?_⟩
  rw [h2]
  decide

/-- C11, amended: on every receipt the six rules other than `ItemDescriptionRule` return a
non-negative integer.  When every item price passes the price format and every conversion
`int(math.Ceil(priceFloat * 0.2))` that the item rule performs is in the range of `int`,
every item adds a non-negative amount; when moreover the sum of those amounts is below
`2 ^ 63`, `ItemDescriptionRule.Calculate` returns that sum and it is not negative; and when
the sum of the seven contributions is below `2 ^ 63`, `CalculatePoints` returns that sum
and it is not negative.  The conversion is in range for every price that passes the price
format and is below `2 ^ 47` dollars (14073748835532800 cents). -/
theorem C11_rules_nonnegative_without_overflow (conv : F64 → Int) (receipt : Receipt) :
    0 ≤ RetailerNameRule.Calculate receipt ∧ 0 ≤ RoundDollarRule.Calculate receipt ∧
    0 ≤ MultipleOfQuarterRule.Calculate receipt ∧ 0 ≤ ItemPairRule.Calculate receipt ∧
    0 ≤ OddPurchaseDayRule.Calculate receipt ∧ 0 ≤ TimeRangeRule.Calculate receipt ∧
    ((∀ item ∈ receipt.Items,
        ValidatePriceFormat item.Price = true ∧ conversionInRange item = true) →
      (∀ item ∈ receipt.Items, 0 ≤ itemContribution conv item) ∧
      ((receipt.Items.map (itemContribution conv)).sum < 2 ^ 63 →
        0 ≤ ItemDescriptionRule.Calculate conv receipt ∧
        ItemDescriptionRule.Calculate conv receipt =
          (receipt.Items.map (itemContribution conv)).sum) ∧
      (unwrappedScore conv receipt < 2 ^ 63 →
        0 ≤ NewRulesEngine.CalculatePoints conv receipt ∧
        NewRulesEngine.CalculatePoints conv receipt = unwrappedScore conv receipt ∧
        unwrappedScore conv receipt = sumOfRules conv receipt)) ∧
    (∀ item : Item, ValidatePriceFormat item.Price = true →
      priceCents item.Price < 14073748835532800 → conversionInRange item = true) := by
  have a2 := roundDollar_range receipt
  have a3 := quarter_range receipt
  have a5 := oddDay_range receipt
  have a6 := timeRange_range receipt
  refine ⟨retailer_nonneg receipt, by omega, by omega, itemPair_nonneg receipt, by omega,
    by omega, ?_, conversionInRange_of_price⟩
  intro h
  have hnn : ∀ item ∈ receipt.Items, 0 ≤ itemContribution conv item :=
    fun item hi => itemContribution_nonneg conv item (h item hi).1 (h item hi).2
  obtain ⟨b1, b2, b3⟩ := score_eq_unwrapped conv receipt hnn
  refine ⟨hnn, ?_, ?_⟩
  · intro hs
    rw [b2 hs]
    exact ⟨b1, rfl⟩
  · intro hs
    obtain ⟨c1, c2⟩ := b3 hs
    have hlt : (receipt.Items.map (itemContribution conv)).sum < 2 ^ 63 := by
      have a1 := retailer_nonneg receipt
      have a4 := itemPair_nonneg receipt
      unfold unwrappedScore at hs
      omega
    refine ⟨by rw [c1]; exact c2, c1, ?_⟩
    unfold unwrappedScore sumOfRules
    rw [b2 hlt]

set_option maxRecDepth 100000 in
/-- C11, amended, at the receipt of scenario A: the prices pass the price format, the
conversions are in range, the sum of the contributions is 28, and the score is 28. -/
theorem C11_witness :
    (∀ item ∈ scenarioA.Items,
      ValidatePriceFormat item.Price = true ∧ conversionInRange item = true) ∧
    unwrappedScore convAmd64 scenarioA = 28 ∧
    0 ≤ NewRulesEngine.CalculatePoints convAmd64 scenarioA ∧
    NewRulesEngine.CalculatePoints convAmd64 scenarioA = unwrappedScore convAmd64 scenarioA := by
  have h : ∀ item ∈ scenarioA.Items,
      ValidatePriceFormat item.Price = true ∧ conversionInRange item = true := by decide
  have hs : unwrappedScore convAmd64 scenarioA = 28 := by decide
  have t := ((C11_rules_nonnegative_without_overflow convAmd64 scenarioA).2.2.2.2.2.2.1 h).2.2
    (by rw [hs]; decide)
  exact ⟨h, hs, t.1, t.2.1⟩

set_option maxRecDepth 100000 in
/-- C20, as stated, fails.  The receipt of scenario A with the single item `abc` of price
`23058430092136939520.00`, worth `2 ^ 62` points, scores 4611686018427387916; the price
passes the price format; with the same item appended a second time the score is the
negative number -9223372036854775791, on every platform: the additions of Go `int` wrap.
And with the item `abc` of price `140737488355330.01` appended to the receipt of scenario
A the score rises by 5 and 28147497671066, while the ceiling of a fifth of the exact price
is 28147497671067. -/
theorem C20_appended_item_lowers_score_counterexample :
    ValidatePriceFormat bigItem.Price = true ∧
    (∀ conv : F64 → Int,
      NewRulesEngine.CalculatePoints conv (withItems [bigItem]) = 4611686018427387916 ∧
      NewRulesEngine.CalculatePoints conv (appendItem (withItems [bigItem]) bigItem) =
        -9223372036854775791 ∧
      NewRulesEngine.CalculatePoints conv (appendItem (withItems [bigItem]) bigItem) <
        NewRulesEngine.CalculatePoints conv (withItems [bigItem])) ∧
    ValidatePriceFormat "140737488355330.01" = true ∧
    (∀ conv : F64 → Int,
      NewRulesEngine.CalculatePoints conv
          (appendItem scenarioA { ShortDescription := "abc", Price := "140737488355330.01" }) =
        NewRulesEngine.CalculatePoints conv scenarioA + 5 + 28147497671066) ∧
    ⌈exactPrice "140737488355330.01" * (2 / 10)⌉ = 28147497671067 := by
  refine ⟨by decide, fun conv => ?_, by decide, fun conv => rfl, ?_⟩
  · have h1 : NewRulesEngine.CalculatePoints conv (withItems [bigItem]) =
        4611686018427387916 := rfl
    have h2 : NewRulesEngine.CalculatePoints conv (appendItem (withItems [bigItem]) bigItem) =
        -9223372036854775791 := rfl
    refine ⟨h1, h2, ?_⟩
    rw [h1, h2]
    decide
  · unfold exactPrice
    rw [← ceil_fifth_eq]
    decide

/-- C20, amended: let the prices of the items of the receipt `r` and of the item `i` pass
the price format, let every conversion `int(math.Ceil(priceFloat * 0.2))` that the item
rule performs on them be in the range of `int`, and let the sum of the seven contributions
for `r` with `i` appended be below `2 ^ 63`.  Then `CalculatePoints` of `r` with `i`
appended is `CalculatePoints` of `r`, plus 5 when `r` has an odd number of items, plus
`int(math.Ceil(priceFloat * 0.2))` for the price of `i` when the trimmed description of
`i` has a length in bytes divisible by 3; that amount is not negative, so the score is not
lower; it is `ceil(price(i) * 0.2)` for the exact decimal price when the price is below
`2 ^ 47` dollars (14073748835532800 cents), and then the conversion is in range.  For a
description that passes the description format the length in bytes is the length in
characters, and a description of white space only has trimmed length 0. -/
theorem C20_appended_item_raises_score_without_overflow (conv : F64 → Int) (r : Receipt)
    (i : Item)
    (hr : ∀ item ∈ r.Items,
      ValidatePriceFormat item.Price = true ∧ conversionInRange item = true)
    (hi : ValidatePriceFormat i.Price = true ∧ conversionInRange i = true)
    (hs : unwrappedScore conv (appendItem r i) < 2 ^ 63) :
    NewRulesEngine.CalculatePoints conv (appendItem r i) =
      NewRulesEngine.CalculatePoints conv r + (if r.Items.length % 2 = 1 then 5 else 0) +
        (if trimmedByteLength i.ShortDescription % 3 = 0 then
          F64.toInt conv (F64.Ceil (F64.mul (ParseFloat i.Price).1 F64.fifth))
        else 0) ∧
    (0 : Int) ≤ (if trimmedByteLength i.ShortDescription % 3 = 0 then
        F64.toInt conv (F64.Ceil (F64.mul (ParseFloat i.Price).1 F64.fifth))
      else 0) ∧
    NewRulesEngine.CalculatePoints conv r ≤ NewRulesEngine.CalculatePoints conv (appendItem r i) ∧
    (priceCents i.Price < 14073748835532800 →
      F64.toInt conv (F64.Ceil (F64.mul (ParseFloat i.Price).1 F64.fifth)) =
        ⌈exactPrice i.Price * (2 / 10)⌉) ∧
    (ValidateDescriptionFormat i.ShortDescription = true →
      trimmedByteLength i.ShortDescription = trimmedLength i.ShortDescription) ∧
    (∀ s : String, (∀ c ∈ s.data, unicodeIsSpace c = true) → trimmedByteLength s = 0) ∧
    (∀ item : Item, ValidatePriceFormat item.Price = true →
      priceCents item.Price < 14073748835532800 → conversionInRange item = true) := by
  have hc : (if trimmedByteLength i.ShortDescription % 3 = 0 then
        F64.toInt conv (F64.Ceil (F64.mul (ParseFloat i.Price).1 F64.fifth))
      else 0) = itemContribution conv i := rfl
  rw [hc]
  have happ := unwrappedScore_append conv r i
  have hn : 0 ≤ itemContribution conv i := itemContribution_nonneg conv i hi.1 hi.2
  have hp : (0 : Int) ≤ (if r.Items.length % 2 = 1 then 5 else 0) := by
    split_ifs <;> decide
  have hsr : unwrappedScore conv r < 2 ^ 63 := by omega
  have hnr : ∀ item ∈ r.Items, 0 ≤ itemContribution conv item :=
    fun item hm => itemContribution_nonneg conv item (hr item hm).1 (hr item hm).2
  have hall : ∀ item ∈ (appendItem r i).Items, 0 ≤ itemContribution conv item := by
    intro item hm
    have hm2 : item ∈ r.Items ++ [i] := hm
    rw [List.mem_append, List.mem_singleton] at hm2
    rcases hm2 with a | a
    · exact hnr item a
    · rw [a]; exact hn
  obtain ⟨e1, -⟩ := (score_eq_unwrapped conv r hnr).2.2 hsr
  obtain ⟨e2, -⟩ := (score_eq_unwrapped conv (appendItem r i) hall).2.2 hs
  have hmain : NewRulesEngine.CalculatePoints conv (appendItem r i) =
      NewRulesEngine.CalculatePoints conv r + (if r.Items.length % 2 = 1 then 5 else 0) +
        itemContribution conv i := by
    rw [e1, e2, happ]
  refine ⟨hmain, hn, ?_, ?_, fun hd => goLen_trimmed hd, trimmed_whitespace,
    conversionInRange_of_price⟩
  · rw [hmain]
    omega
  · intro hb
    rw [item_points conv hi.1 (by norm_num at hb ⊢; exact hb)]
    exact ceil_fifth_eq _

set_option maxRecDepth 100000 in
/-- C20, amended, at the receipt of scenario A (five items, 28 points) and an item of price
`6.49` whose description is three spaces: the score rises by 5 + 2 to 35. -/
theorem C20_witness :
    (∀ item ∈ scenarioA.Items,
      ValidatePriceFormat item.Price = true ∧ conversionInRange item = true) ∧
    unwrappedScore convAmd64
      (appendItem scenarioA { ShortDescription := "   ", Price := "6.49" }) = 35 ∧
    NewRulesEngine.CalculatePoints convAmd64 scenarioA ≤
      NewRulesEngine.CalculatePoints convAmd64
        (appendItem scenarioA { ShortDescription := "   ", Price := "6.49" }) ∧
    NewRulesEngine.CalculatePoints convAmd64
      (appendItem scenarioA { ShortDescription := "   ", Price := "6.49" }) = 35 := by
  have h : ∀ item ∈ scenarioA.Items,
      ValidatePriceFormat item.Price = true ∧ conversionInRange item = true := by decide
  have hs : unwrappedScore convAmd64
      (appendItem scenarioA { ShortDescription := "   ", Price := "6.49" }) = 35 := by decide
  exact ⟨h, hs,
    (C20_appended_item_raises_score_without_overflow convAmd64 scenarioA
      { ShortDescription := "   ", Price := "6.49" } h ⟨by decide, by decide⟩
      (by rw [hs]; decide)).2.2.1, rfl⟩

end ReceiptProcessor
